import Mathlib

/-!
Verification of the anweb HTTP/WebSocket server core.

This development shallowly embeds the protocol logic of the repository
(request_parser.rs, connection.rs, web_session.rs, content_loader.rs,
request.rs, response.rs, websocket.rs) as executable Lean definitions over
byte lists (bytes are Nat values; machine arithmetic that can wrap is made
explicit with mod 2^64), and proves or refutes the testable properties of
the specification against them.
-/

deriving instance DecidableEq for Except

namespace Anweb

/-- Bytes of an ASCII string: for ASCII text the UTF-8 encoding is the
character codes themselves.  Used to embed Rust string literals and string
comparison on header names and values (valid-UTF-8 strings are equal iff
their byte sequences are equal). -/
def asciiBytes (s : String) : List Nat :=
  s.data.map Char.toNat

/-- Whether a byte is a UTF-8 continuation byte (0x80..0xBF). -/
def isUtf8Cont (b : Nat) : Bool :=
  decide (128 ≤ b) && decide (b ≤ 191)

/-- UTF-8 validation automaton, one byte per step.  State 0 is the start
of a character; states 1..3 expect that many unrestricted continuation
bytes; states 4..7 expect a range-restricted first continuation byte
(after the leading bytes 0xE0, 0xED, 0xF0, 0xF4 whose continuation ranges
exclude overlong forms, surrogates and values beyond U+10FFFF), then the
corresponding number of unrestricted ones. -/
def utf8Go : Nat → List Nat → Bool
  | st, [] => st = 0
  | st, b :: r =>
    match st with
    | 0 =>
      if b ≤ 127 then utf8Go 0 r
      else if 194 ≤ b ∧ b ≤ 223 then utf8Go 1 r
      else if b = 224 then utf8Go 4 r
      else if 225 ≤ b ∧ b ≤ 236 then utf8Go 2 r
      else if b = 237 then utf8Go 5 r
      else if 238 ≤ b ∧ b ≤ 239 then utf8Go 2 r
      else if b = 240 then utf8Go 6 r
      else if 241 ≤ b ∧ b ≤ 243 then utf8Go 3 r
      else if b = 244 then utf8Go 7 r
      else false
    | 1 => isUtf8Cont b && utf8Go 0 r
    | 2 => isUtf8Cont b && utf8Go 1 r
    | 3 => isUtf8Cont b && utf8Go 2 r
    | 4 => decide (160 ≤ b) && decide (b ≤ 191) && utf8Go 1 r
    | 5 => decide (128 ≤ b) && decide (b ≤ 159) && utf8Go 1 r
    | 6 => decide (144 ≤ b) && decide (b ≤ 191) && utf8Go 2 r
    | 7 => decide (128 ≤ b) && decide (b ≤ 143) && utf8Go 2 r
    | _ => false

/-- UTF-8 validity of a byte sequence, mirroring the acceptance of Rust
str::from_utf8. -/
def isValidUtf8 (l : List Nat) : Bool :=
  utf8Go 0 l

/-- Pure-ASCII byte sequences are valid UTF-8. -/
theorem isValidUtf8_of_ascii : ∀ (l : List Nat), (∀ b ∈ l, b ≤ 127) → isValidUtf8 l = true := by
  intro l
  induction l with
  | nil => intro _; rfl
  | cons b r ih =>
    intro h
    have hb : b ≤ 127 := h b (by simp)
    have step : isValidUtf8 (b :: r) = isValidUtf8 r := by
      simp only [isValidUtf8, utf8Go, hb, if_pos]
    rw [step]
    exact ih fun x hx => h x (by simp [hx])

/-! Supported HTTP versions and the Connection header disposition
(request.rs). -/

/-- Supported http protocol versions (request.rs HttpVersion). -/
inductive HttpVersion where
  | http1_0
  | http1_1
deriving DecidableEq, Repr

/-- Version string used in responses (request.rs
HttpVersion::to_string_for_response). -/
def HttpVersion.to_string_for_response : HttpVersion → String
  | .http1_0 => "HTTP/1.0"
  | .http1_1 => "HTTP/1.1"

/-- Connection type of the request Connection header (request.rs
ConnectionType). -/
inductive ConnectionType where
  | keepAlive
  | close
deriving DecidableEq, Repr

/-- Parsed header (request.rs Header).  The Rust code stores UTF-8 Strings;
here the validated byte sequences are kept (string equality on valid UTF-8
strings coincides with byte-sequence equality). -/
structure Header where
  name : List Nat
  value : List Nat
deriving DecidableEq, Repr

/-- Request parse errors (request.rs RequestError).  Partial is renamed to
incomplete because partial is a reserved word in Lean. -/
inductive RequestError where
  | incomplete
  | requestLine
  | methodLenLimit
  | pathLenLimit
  | queryLenLimit
  | wrongVersion
  | unsupportedProtocol
  | wrongHeader
  | emptyHeaderName
  | versionLenLimit
  | headersCountLimit
  | headerNameLenLimit
  | headerValueLenLimit
  | pipeliningRequestsLimit
  | contentLengthLimit
  | contentLengthParseError
deriving DecidableEq, Repr

/-- Parsed request data (request.rs RequestData; the request_parser.rs
revision calls the same record Request).  Index fields point into raw. -/
structure RequestData where
  raw : List Nat
  method_end_index : Nat
  path_indices : Nat × Nat
  raw_query_indices : Nat × Nat
  version : HttpVersion
  headers : List Header
  connection_type : Option ConnectionType
  content_len : Option Nat
  decoded_path : String
deriving DecidableEq, Repr

/-- Fresh request with undefined fields (request.rs RequestData::new). -/
def RequestData.new : RequestData :=
  { raw := []
    method_end_index := 0
    path_indices := (0, 0)
    raw_query_indices := (0, 0)
    version := .http1_0
    headers := []
    connection_type := none
    content_len := none
    decoded_path := "" }

/-- Accessor raw_method (request.rs RequestData::raw_method), with its
unreachable-guard returning the empty slice. -/
def RequestData.raw_method (r : RequestData) : List Nat :=
  if r.raw.length < r.method_end_index then []
  else r.raw.take r.method_end_index

/-- Accessor raw_path (request.rs RequestData::raw_path), with its
unreachable-guard returning the empty slice. -/
def RequestData.raw_path (r : RequestData) : List Nat :=
  if r.path_indices.2 < r.path_indices.1 ∨ r.raw.length < r.path_indices.2 then []
  else (r.raw.drop r.path_indices.1).take (r.path_indices.2 - r.path_indices.1)

/-- Accessor raw_query (request.rs RequestData::raw_query). -/
def RequestData.raw_query (r : RequestData) : List Nat :=
  if r.raw_query_indices.2 < r.raw_query_indices.1 ∨ r.raw.length < r.raw_query_indices.2 then []
  else (r.raw.drop r.raw_query_indices.1).take (r.raw_query_indices.2 - r.raw_query_indices.1)

/-- Accessor path (request.rs RequestData::path): returns the stored
decoded_path field. -/
def RequestData.path (r : RequestData) : String :=
  r.decoded_path

/-- Accessor content_len (request.rs RequestData::content_len):
content_len.unwrap_or(0). -/
def RequestData.content_len_value (r : RequestData) : Nat :=
  r.content_len.getD 0

/-- Numeric value of a list of ASCII digit bytes. -/
def digitsVal (l : List Nat) : Nat :=
  l.foldl (fun a b => a * 10 + (b - 48)) 0

/-- Rust unsigned-integer parsing (str::parse::<usize> via
from_str_radix, radix 10): an optional single leading plus sign followed
by one or more ASCII digits; a minus sign is stripped only for signed
target types, so for usize any minus-prefixed value fails as an invalid
digit; accumulation fails on overflow past usize::MAX = 2^64 - 1. -/
def parseUsize (v : List Nat) : Option Nat :=
  match v with
  | [] => none
  | c :: rest =>
    let digits := if c = 43 then rest else v
    if digits = [] then none
    else if digits.all (fun b => decide (48 ≤ b) && decide (b ≤ 57)) then
      let n := digitsVal digits
      if n ≤ 2 ^ 64 - 1 then some n else none
    else none

/-- Connection header recognition (request_parser.rs
Parser::header_is_connection_type): exact case-sensitive match of the
value keep-alive or close under the name Connection. -/
def header_is_connection_type (h : Header) : Option ConnectionType :=
  if h.name = asciiBytes "Connection" then
    if h.value = asciiBytes "keep-alive" then some .keepAlive
    else if h.value = asciiBytes "close" then some .close
    else none
  else none

/-- Content-Length header recognition (request_parser.rs
Parser::header_is_content_length): under the name Content-Length the value
must parse as usize, otherwise ContentLengthParseError. -/
def header_is_content_length (h : Header) : Except RequestError (Option Nat) :=
  if h.name = asciiBytes "Content-Length" then
    match parseUsize h.value with
    | some content_length => .ok (some content_length)
    | none => .error .contentLengthParseError
  else .ok none

namespace RequestParser

/-- Parser settings (request_parser.rs ParseHttpRequestSettings).  The
source uses u16 fields; values are small so Nat is used. -/
structure ParseHttpRequestSettings where
  method_len_limit : Nat
  path_len_limit : Nat
  query_len_limit : Nat
  headers_count_limit : Nat
  header_name_len_limit : Nat
  header_value_len_limit : Nat
  pipelining_requests_limit : Nat
deriving DecidableEq, Repr

/-- Default parser settings (request_parser.rs Default for
ParseHttpRequestSettings). -/
def ParseHttpRequestSettings.default : ParseHttpRequestSettings :=
  { method_len_limit := 7
    path_len_limit := 512
    query_len_limit := 512
    headers_count_limit := 16
    header_name_len_limit := 32
    header_value_len_limit := 512
    pipelining_requests_limit := 64 }

/-- Parse state between iterations (request_parser.rs ParseState).
Path/Query/Version carry the start index; Header carries the line start
index and the colon separator index (0 while the colon is unseen). -/
inductive ParseState where
  | method
  | path (path_index : Nat)
  | query (query_index : Nat)
  | version (version_index : Nat)
  | header (header_index : Nat) (header_separator_index : Nat)
deriving DecidableEq, Repr

/-- Version slice errors (request_parser.rs VersionError). -/
inductive VersionError where
  | wrongLen
  | wrongText
  | unsupportedProtocol
deriving DecidableEq, Repr

/-- Parse the version slice between the second space and the CR
(request_parser.rs version_from_data).  The slice must be exactly the 8
bytes HTTP/1.0 or HTTP/1.1. -/
def version_from_data (data : List Nat) : Except VersionError HttpVersion :=
  if data.length ≠ 8 then .error .wrongLen
  else if data.take 5 ≠ asciiBytes "HTTP/" then .error .wrongText
  else if data.drop 5 = asciiBytes "1.1" then .ok .http1_1
  else if data.drop 5 = asciiBytes "1.0" then .ok .http1_0
  else .error .unsupportedProtocol

/-- Outcome of one iteration of the scan loop. -/
inductive StepRes where
  | err (e : RequestError)
  | cont (st : ParseState) (r : RequestData)
  | complete (request_len : Nat) (r : RequestData)
deriving DecidableEq, Repr

/-- The header-line acceptance branch of the Header arm (taken on LF with
a preceding CR that do not terminate the head): validate the separator
and slice positions, strip one optional space after the colon, require
UTF-8 name and value, and derive connection type and content length. -/
def scanHeaderAccept (ps : ParseHttpRequestSettings) (r : RequestData) (buf : List Nat)
    (i : Nat) (header_index header_separator_index : Nat) : StepRes :=
  if header_separator_index = 0 ∨ i < header_separator_index + 2 then .err .wrongHeader
  else if header_separator_index ≤ header_index then .err .wrongHeader
  else
    let value_idx :=
      if buf.getD (header_separator_index + 1) 0 = 32 then header_separator_index + 2
      else header_separator_index + 1
    if i - 1 ≤ value_idx then .err .wrongHeader
    else
      let header_name := (buf.drop header_index).take (header_separator_index - header_index)
      if ¬ isValidUtf8 header_name then .err .wrongHeader
      else
        let header_value := (buf.drop value_idx).take (i - 1 - value_idx)
        if ¬ isValidUtf8 header_value then .err .wrongHeader
        else
          let header : Header := ⟨header_name, header_value⟩
          let new_ct :=
            if r.connection_type.isNone then header_is_connection_type header
            else r.connection_type
          match (if r.content_len.isNone then header_is_content_length header
              else .ok r.content_len) with
          | .error e => .err e
          | .ok new_cl =>
            .cont (.header (i + 1) 0)
              { r with
                  headers := r.headers ++ [header]
                  connection_type := new_ct
                  content_len := new_cl }

/-- The Header arm of the parse loop: detect the CR-LF-CR-LF head
terminator, enforce the name and value length limits, record the colon
separator, and accept a finished line on CR-LF. -/
def scanStepHeader (ps : ParseHttpRequestSettings) (r : RequestData) (buf : List Nat)
    (i ch : Nat) (header_index header_separator_index : Nat) : StepRes :=
  if ch = 10 ∧ buf.getD (i - 3) 0 = 13 ∧ buf.getD (i - 2) 0 = 10 ∧ buf.getD (i - 1) 0 = 13 then
    .complete (i + 1) r
  else if header_separator_index = 0 ∧ ps.header_name_len_limit < i - header_index then
    .err .headerNameLenLimit
  else if header_separator_index ≠ 0 ∧
      ps.header_value_len_limit + 2 < i - header_separator_index then
    .err .headerValueLenLimit
  else if ch = 58 ∧ header_separator_index = 0 then
    if ps.headers_count_limit ≤ r.headers.length then .err .headersCountLimit
    else if i ≤ header_index then .err .emptyHeaderName
    else .cont (.header header_index i) r
  else if ch = 10 ∧ buf.getD (i - 1) 0 = 13 then
    scanHeaderAccept ps r buf i header_index header_separator_index
  else .cont (.header header_index header_separator_index) r

/-- One iteration of the parse loop of request_parser.rs
Parser::parse_yet, at index i with current byte ch = buf[i].  The i32
casts of the source are exact for any realistic buffer, and the Nat
truncated subtractions agree with them on every reachable state (start
indices never exceed the scan position); the out-of-range slice reads
buf[i-3..=i] are modelled with default 0 where the source would be
unreachable. -/
def scanStep (ps : ParseHttpRequestSettings) (st : ParseState) (r : RequestData)
    (buf : List Nat) (i : Nat) (ch : Nat) : StepRes :=
  match st with
  | .method =>
    if ch = 32 then .cont (.path (i + 1)) { r with method_end_index := i }
    else if ch = 10 then .err .requestLine
    else if ps.method_len_limit ≤ i then .err .methodLenLimit
    else .cont .method r
  | .path path_index =>
    if ch = 32 then .cont (.version (i + 1)) { r with path_indices := (path_index, i) }
    else if ch = 10 then .err .requestLine
    else if ch = 63 then .cont (.query (i + 1)) { r with path_indices := (path_index, i) }
    else if ps.path_len_limit ≤ i - path_index then .err .pathLenLimit
    else .cont (.path path_index) r
  | .query query_index =>
    if ch = 32 then .cont (.version (i + 1)) { r with raw_query_indices := (query_index, i) }
    else if ch = 10 then .err .requestLine
    else if ps.query_len_limit ≤ i - query_index then .err .queryLenLimit
    else .cont (.query query_index) r
  | .version version_index =>
    if ch = 10 then
      match version_from_data ((buf.drop version_index).take (i - 1 - version_index)) with
      | .ok ver => .cont (.header (i + 1) 0) { r with version := ver }
      | .error .unsupportedProtocol => .err .unsupportedProtocol
      | .error _ => .err .wrongVersion
    else if 8 < i - version_index then .err .versionLenLimit
    else .cont (.version version_index) r
  | .header header_index header_separator_index =>
    scanStepHeader ps r buf i ch header_index header_separator_index

/-- Final outcome of the scan loop. -/
inductive ScanRes where
  | err (e : RequestError)
  | needMore (st : ParseState) (r : RequestData)
  | complete (request_len : Nat) (r : RequestData)
deriving DecidableEq, Repr

/-- The scan loop of Parser::parse_yet: iterate scanStep over the bytes of
buf from index i; rem is the remaining iterator, an invariant of the
caller is rem = buf.drop i.  Reaching the end of input without finding the
head terminator is the NeedMore outcome (the source then returns
Err(Partial)). -/
def scanGo (ps : ParseHttpRequestSettings) (buf : List Nat) :
    List Nat → Nat → ParseState → RequestData → ScanRes
  | [], _, st, r => .needMore st r
  | ch :: rem, i, st, r =>
    match scanStep ps st r buf i ch with
    | .err e => .err e
    | .complete len r2 => .complete len r2
    | .cont st2 r2 => scanGo ps buf rem (i + 1) st2 r2

/-- Scan of the whole accumulated buffer from index i onward. -/
def scan (ps : ParseHttpRequestSettings) (st : ParseState) (r : RequestData)
    (buf : List Nat) (i : Nat) : ScanRes :=
  scanGo ps buf (buf.drop i) i st r

/-- HTTP request parser (request_parser.rs Parser): accumulated request
and resume state. -/
structure Parser where
  parse_state : ParseState
  request : RequestData
deriving DecidableEq, Repr

/-- Fresh parser (request_parser.rs Parser::new). -/
def Parser.new : Parser :=
  { parse_state := .method, request := RequestData.new }

/-- Reset between requests (request_parser.rs Parser::restart). -/
def Parser.restart (p : Parser) : Parser :=
  { p with request := RequestData.new }

/-- Incremental parse (request_parser.rs Parser::parse_yet): append the
chunk to the accumulated raw buffer, scan from the first new byte, and on
finding the head terminator CR-LF-CR-LF return the surplus bytes, truncate
raw to the head and reset the state to Method.  An incomplete head is
Err(Partial) (incomplete here); the parser is invalid after any other
error. -/
def Parser.parse_yet (p : Parser) (chunk : List Nat) (ps : ParseHttpRequestSettings) :
    Except RequestError (List Nat) × Parser :=
  let prev_idx := p.request.raw.length
  let raw := p.request.raw ++ chunk
  let r0 := { p.request with raw := raw }
  match scan ps p.parse_state r0 raw prev_idx with
  | .complete request_len r2 =>
    (.ok (r2.raw.drop request_len),
     { parse_state := .method, request := { r2 with raw := r2.raw.take request_len } })
  | .needMore st2 r2 => (.error .incomplete, { parse_state := st2, request := r2 })
  | .err e => (.error e, { parse_state := p.parse_state, request := r0 })

/-- The line-acceptance branch never completes the head. -/
theorem scanHeaderAccept_not_complete (ps : ParseHttpRequestSettings) (r : RequestData)
    (buf : List Nat) (i hi si len : Nat) (r2 : RequestData)
    (h : scanHeaderAccept ps r buf i hi si = .complete len r2) : False := by
  simp only [scanHeaderAccept] at h
  split_ifs at h <;> (try split at h) <;> cases h

/-- The line-acceptance branch keeps the raw buffer. -/
theorem scanHeaderAccept_cont_raw (ps : ParseHttpRequestSettings) (r : RequestData)
    (buf : List Nat) (i hi si : Nat) (st2 : ParseState) (r2 : RequestData)
    (h : scanHeaderAccept ps r buf i hi si = .cont st2 r2) : r2.raw = r.raw := by
  simp only [scanHeaderAccept] at h
  split_ifs at h <;> (try split at h) <;> (cases h <;> rfl)

/-- A completing iteration completes at the byte just scanned and keeps
the record: the only Complete outcome is the end-of-head branch. -/
theorem scanStep_complete_eq (ps : ParseHttpRequestSettings) (st : ParseState)
    (r : RequestData) (buf : List Nat) (i ch len : Nat) (r2 : RequestData)
    (h : scanStep ps st r buf i ch = .complete len r2) : len = i + 1 ∧ r2 = r := by
  cases st <;> simp only [scanStep] at h
  case method => split_ifs at h <;> cases h
  case path => split_ifs at h <;> cases h
  case query => split_ifs at h <;> cases h
  case version => split_ifs at h <;> (try split at h) <;> cases h
  case header =>
    simp only [scanStepHeader] at h
    split_ifs at h <;>
      first
        | exact (scanHeaderAccept_not_complete _ _ _ _ _ _ _ _ h).elim
        | (cases h <;> exact ⟨rfl, rfl⟩)

/-- A continuing iteration keeps the raw buffer: every record update of
the loop leaves raw untouched. -/
theorem scanStep_cont_raw (ps : ParseHttpRequestSettings) (st : ParseState)
    (r : RequestData) (buf : List Nat) (i ch : Nat) (st2 : ParseState) (r2 : RequestData)
    (h : scanStep ps st r buf i ch = .cont st2 r2) : r2.raw = r.raw := by
  cases st <;> simp only [scanStep] at h
  case method => split_ifs at h <;> (cases h <;> rfl)
  case path => split_ifs at h <;> (cases h <;> rfl)
  case query => split_ifs at h <;> (cases h <;> rfl)
  case version => split_ifs at h <;> (try split at h) <;> (cases h <;> rfl)
  case header =>
    simp only [scanStepHeader] at h
    split_ifs at h <;>
      first
        | exact scanHeaderAccept_cont_raw _ _ _ _ _ _ _ _ h
        | (cases h <;> rfl)

/-- The scan completes past the position it started at and within the
scanned bytes, with the raw buffer preserved. -/
theorem scanGo_complete_bounds (ps : ParseHttpRequestSettings) (buf : List Nat) :
    ∀ (rem : List Nat) (i : Nat) (st : ParseState) (r : RequestData) (len : Nat)
      (r2 : RequestData),
      scanGo ps buf rem i st r = .complete len r2 →
      i < len ∧ len ≤ i + rem.length ∧ r2.raw = r.raw := by
  intro rem
  induction rem with
  | nil => intro i st r len r2 h; cases h
  | cons ch rem ih =>
    intro i st r len r2 h
    simp only [scanGo] at h
    rcases hs : scanStep ps st r buf i ch with e | ⟨st3, r3⟩ | ⟨len3, r3⟩ <;> rw [hs] at h
    · cases h
    · have hb := ih (i + 1) st3 r3 len r2 h
      have hraw := scanStep_cont_raw ps st r buf i ch st3 r3 hs
      refine ⟨by omega, by simp; omega, hb.2.2.trans hraw⟩
    · injection h with h1 h2
      obtain ⟨hlen, hr⟩ := scanStep_complete_eq ps st r buf i ch len3 r3 hs
      subst h1 h2
      refine ⟨by omega, by simp; omega, by rw [hr]⟩

/-- A successful parse consumes at least one byte of the chunk: the
surplus is strictly shorter.  This bounds the pipelining recursion of
connection.rs Connection::process_request. -/
theorem parse_yet_surplus_lt (p : Parser) (chunk : List Nat)
    (ps : ParseHttpRequestSettings) (surplus : List Nat) (p2 : Parser)
    (h : p.parse_yet chunk ps = (.ok surplus, p2)) : surplus.length < chunk.length := by
  simp only [Parser.parse_yet] at h
  rcases hscan : scan ps p.parse_state { p.request with raw := p.request.raw ++ chunk }
      (p.request.raw ++ chunk) p.request.raw.length with e | ⟨st2, r2⟩ | ⟨len, r2⟩ <;>
    rw [hscan] at h
  · cases h
  · cases h
  · injection h with h1 h2
    obtain ⟨hlt, hle, hraw⟩ := scanGo_complete_bounds ps _ _ _ _ _ _ _ hscan
    injection h1 with h1
    subst h1
    rw [hraw]
    simp only [List.length_drop, List.length_append]
    have hle2 : len ≤ (p.request.raw ++ chunk).length := by
      simpa using le_trans hle (by simp)
    simp at hle2
    omega

end RequestParser

/-- Raw-content accumulator (content_loader.rs ContentLoader). -/
structure ContentLoader where
  buf : List Nat
  content_len : Nat
deriving DecidableEq, Repr

/-- Fresh loader for a declared length (content_loader.rs
ContentLoader::new). -/
def ContentLoader.new (content_len : Nat) : ContentLoader :=
  { buf := [], content_len := content_len }

/-- Accumulate a chunk; once content_len bytes are present return the
content and the surplus, leaving the internal buffer empty
(content_loader.rs ContentLoader::load_yet). -/
def ContentLoader.load_yet (c : ContentLoader) (buf : List Nat) :
    Option (List Nat × List Nat) × ContentLoader :=
  let b := c.buf ++ buf
  if b.length < c.content_len then (none, { c with buf := b })
  else (some (b.take c.content_len, b.drop c.content_len), { c with buf := [] })

namespace WebSession

/-- Body-reading progress of the HTTP state (web_session.rs HttpState
fields content_len and already_read_content_len). -/
structure HttpState where
  content_len : Nat
  already_read_content_len : Nat
deriving DecidableEq, Repr

/-- One delivery to the registered content callback: the byte slice passed
and whether the completion handle (the owning Request, request.take()) was
non-null on that call. -/
structure BodyCall where
  bytes : List Nat
  completion : Bool
deriving DecidableEq, Repr

/-- One incoming chunk processed by web_session.rs
WebSession::read_content (the success path: the callback result is Ok and
the session is not closed).  held records whether the Option Request slot
of the callback still owns the request.  Returns the call made, the
complete flag, the surplus bytes split off past the declared length, and
the updated state and slot. -/
def read_content_step (st : HttpState) (held : Bool) (data : List Nat) :
    BodyCall × Bool × List Nat × HttpState × Bool :=
  let mid := min (st.content_len - st.already_read_content_len) data.length
  let content := data.take mid
  let surplus := data.drop mid
  let already := st.already_read_content_len + content.length
  let complete := st.content_len ≤ already
  let call : BodyCall := { bytes := content, completion := if complete then held else false }
  if complete then
    (call, true, surplus, { content_len := 0, already_read_content_len := 0 }, false)
  else
    (call, false, surplus, { st with already_read_content_len := already }, held)

/-- Feed successive read chunks to the body reader until the declared
length is reached (the read_content branch of web_session.rs
WebSession::process_data): returns the list of callback invocations, the
surplus re-entered into the request parser on completion (none while the
body is still incomplete), and the chunks never consumed by the body
reader. -/
def body_feed (st : HttpState) (held : Bool) :
    List (List Nat) → List BodyCall × Option (List Nat) × List (List Nat)
  | [] => ([], none, [])
  | d :: rest =>
    let step := read_content_step st held d
    if step.2.1 then ([step.1], some step.2.2.1, rest)
    else
      let next := body_feed step.2.2.2.1 step.2.2.2.2 rest
      (step.1 :: next.1, next.2.1, next.2.2)

/-- Dispatch of a socket read result by web_session.rs
WebSession::read_stream: closed tells whether the session was closed by
the dispatch itself, error_callback_invoked whether the HTTP or WebSocket
error callback was called, bytes_fed which bytes were handed to
process_data. -/
structure ReadDispatch where
  closed : Bool
  error_callback_invoked : Bool
  bytes_fed : List Nat
deriving DecidableEq, Repr

/-- Error kinds distinguished by the read dispatchers. -/
inductive IoErrorKind where
  | wouldBlock
  | connectionReset
  | otherError
deriving DecidableEq, Repr

/-- Result of TcpSession::read_stream as seen by the dispatchers. -/
inductive ReadResult where
  | ok (read_cnt : Nat)
  | err (kind : IoErrorKind)
deriving DecidableEq, Repr

/-- Read dispatch of web_session.rs WebSession::read_stream: zero bytes
read closes the session silently; WouldBlock is ignored; any other error
invokes the phase error callback and closes; a positive count feeds
read_buf[..read_cnt] to process_data. -/
def read_stream_dispatch (res : ReadResult) (read_buf : List Nat) : ReadDispatch :=
  match res with
  | .ok read_cnt =>
    if read_cnt = 0 then { closed := true, error_callback_invoked := false, bytes_fed := [] }
    else { closed := false, error_callback_invoked := false, bytes_fed := read_buf.take read_cnt }
  | .err kind =>
    if kind = .wouldBlock then { closed := false, error_callback_invoked := false, bytes_fed := [] }
    else { closed := true, error_callback_invoked := true, bytes_fed := [] }

end WebSession

namespace Request

/-- Effect of request.rs Request::read_content on registration: the
immediate synchronous callback invocations it performs itself, and whether
a content callback (paired with Some(request)) was installed in the
session slot. -/
structure ReadContentEffect where
  immediate_calls : List WebSession.BodyCall
  installed : Bool
deriving DecidableEq, Repr

/-- Registration of a body callback (request.rs Request::read_content):
with a zero declared content length the callback is invoked at once with
an empty slice and the request itself as non-null completion, and nothing
is installed; otherwise the callback and the request are installed in the
session content slot for the session read loop. -/
def read_content (content_len : Nat) : ReadContentEffect :=
  if content_len = 0 then
    { immediate_calls := [{ bytes := [], completion := true }], installed := false }
  else
    { immediate_calls := [], installed := true }

end Request

namespace Connection

/-- Read dispatch of connection.rs Connection::on_read_ready: identical to
the web_session.rs dispatcher except that ConnectionReset closes the
session without invoking any error callback. -/
def on_read_ready_dispatch (res : WebSession.ReadResult) (read_buf : List Nat) :
    WebSession.ReadDispatch :=
  match res with
  | .ok read_cnt =>
    if read_cnt = 0 then { closed := true, error_callback_invoked := false, bytes_fed := [] }
    else { closed := false, error_callback_invoked := false, bytes_fed := read_buf.take read_cnt }
  | .err .wouldBlock => { closed := false, error_callback_invoked := false, bytes_fed := [] }
  | .err .connectionReset => { closed := true, error_callback_invoked := false, bytes_fed := [] }
  | .err .otherError => { closed := true, error_callback_invoked := true, bytes_fed := [] }

/-- The pipelined head-parsing loop of connection.rs (process_data →
parse_request → Parser::parse_yet → process_request), on the plain HTTP
path (no registered content or websocket callback, callbacks do not
disconnect): the pipelining counter increments before each parse and
trips PipeliningRequestsLimit past the limit; a completed head is
emitted, the parser restarted, and a nonempty surplus recursively
re-processed; Partial waits for more data.  Returns the emitted requests
in order, the parser, and the counter. -/
def process_data (ps : RequestParser.ParseHttpRequestSettings) (count : Nat)
    (p : RequestParser.Parser) (data : List Nat) :
    Except RequestError (List RequestData × RequestParser.Parser × Nat) :=
  if ps.pipelining_requests_limit < count + 1 then .error .pipeliningRequestsLimit
  else
    match hp : p.parse_yet data ps with
    | (.ok surplus, p2) =>
      if hs : surplus = [] then .ok ([p2.request], p2.restart, count + 1)
      else
        match process_data ps (count + 1) p2.restart surplus with
        | .ok (reqs, p4, c4) => .ok (p2.request :: reqs, p4, c4)
        | .error e => .error e
    | (.error .incomplete, p2) => .ok ([], p2, count + 1)
    | (.error e, _) => .error e
termination_by data.length
decreasing_by
  exact RequestParser.parse_yet_surplus_lt p data ps surplus p2 hp

/-- One read event per chunk (connection.rs Connection::on_read_ready
resets the pipelining counter and hands the read bytes to process_data):
feed the chunks in order, accumulating the emitted requests. -/
def feed_chunks (ps : RequestParser.ParseHttpRequestSettings) :
    RequestParser.Parser → List (List Nat) →
    Except RequestError (List RequestData × RequestParser.Parser)
  | p, [] => .ok ([], p)
  | p, c :: cs =>
    match process_data ps 0 p c with
    | .error e => .error e
    | .ok (reqs, p2, _) =>
      match feed_chunks ps p2 cs with
      | .error e => .error e
      | .ok (reqs2, p3) => .ok (reqs ++ reqs2, p3)

/-- Close-after-response decision (connection.rs
need_close_by_version_and_connection). -/
def need_close_by_version_and_connection (request : RequestData) : Bool :=
  match request.connection_type with
  | some connection_type =>
    match connection_type with
    | .close => true
    | _ => false
  | none =>
    match request.version with
    | .http1_0 => true
    | _ => false

end Connection

namespace Response

/-- Close-after-response decision (response.rs need_close_by_request);
textually the same logic as connection.rs
need_close_by_version_and_connection. -/
def need_close_by_request (request : RequestData) : Bool :=
  match request.connection_type with
  | some connection_type =>
    match connection_type with
    | .close => true
    | _ => false
  | none =>
    match request.version with
    | .http1_0 => true
    | _ => false

/-- Close decision of response.rs Response::try_send: an explicit
keep_alive()/close() builder override wins, otherwise
need_close_by_request decides. -/
def try_send_need_close (keep_alive_connection : Option Bool) (request : RequestData) : Bool :=
  match keep_alive_connection with
  | some keep_alive => ! keep_alive
  | none => need_close_by_request request

/-- Status table (response.rs HTTP_CODES_WITH_NAME_BY_CODE), sorted by
code so that the binary search of the source is an association lookup. -/
def HTTP_CODES_WITH_NAME_BY_CODE : List (Nat × String) :=
  [ (100, "100 Continue"), (101, "101 Switching Protocols"), (102, "102 Processing"),
    (103, "103 Early Hints"),
    (200, "200 OK"), (201, "201 Created"), (202, "202 Accepted"),
    (203, "203 Non-Authoritative Information"), (204, "204 No Content"),
    (205, "205 Reset Content"), (206, "206 Partial Content"), (207, "207 Multi-Status"),
    (208, "208 Already Reported"), (226, "226 IM Used"),
    (300, "300 Multiple Choices"), (301, "301 Moved Permanently"), (302, "302 Found"),
    (303, "303 See Other"), (304, "304 Not Modified"), (305, "305 Use Proxy"),
    (306, "306 Switch Proxy"), (307, "307 Temporary Redirect"), (308, "308 Permanent Redirect"),
    (400, "400 Bad Request"), (401, "401 Unauthorized"), (402, "402 Payment Required"),
    (403, "403 Forbidden"), (404, "404 Not Found"), (405, "405 Method Not Allowed"),
    (406, "406 Not Acceptable"), (407, "407 Proxy Authentication Required"),
    (408, "408 Request Timeout"), (409, "409 Conflict"), (410, "410 Gone"),
    (411, "411 Length Required"), (412, "412 Precondition Failed"),
    (413, "413 Payload Too Large"), (414, "414 URI Too Long"),
    (415, "415 Unsupported Media Type"), (416, "416 Range Not Satisfiable"),
    (417, "417 Expectation Failed"), (418, "418 I\x27m a teapot"),
    (421, "421 Misdirected Request"), (422, "422 Unprocessable Entity"), (423, "423 Locked"),
    (424, "424 Failed Dependency"), (425, "425 Too Early"), (426, "426 Upgrade Required"),
    (428, "428 Precondition Required"), (429, "429 Too Many Requests"),
    (431, "431 Request Header Fields Too Large"), (451, "451 Unavailable For Legal Reasons"),
    (500, "500 Internal Server Error"), (501, "501 Not Implemented"), (502, "502 Bad Gateway"),
    (503, "503 Service Unavailable"), (504, "504 Gateway Timeout"),
    (505, "505 HTTP Version Not Supported"), (506, "506 Variant Also Negotiates"),
    (507, "507 Insufficient Storage"), (508, "508 Loop Detected"), (510, "510 Not Extended"),
    (511, "511 Network Authentication Required") ]

/-- Status line text for a code (response.rs http_status_code_with_name):
the binary search over the sorted table is embedded as the first-match
lookup, empty on a miss. -/
def http_status_code_with_name (code : Nat) : String :=
  match HTTP_CODES_WITH_NAME_BY_CODE.find? (fun p => p.1 = code) with
  | some p => p.2
  | none => ""

/-- Boolean strict sortedness of the code column of a table. -/
def codesSorted : List (Nat × String) → Bool
  | [] => true
  | [_] => true
  | p :: q :: r => decide (p.1 < q.1) && codesSorted (q :: r)

/-- The keys of the status table are strictly sorted, so the embedded
first-match lookup agrees with the binary search of the source. -/
theorem http_codes_sorted : codesSorted HTTP_CODES_WITH_NAME_BY_CODE = true := by
  decide

/-- Status line of a response (the first line of the format string in
response.rs Response::try_send): the request HTTP version, a space, the
table text for the code, CR-LF. -/
def status_line (version : HttpVersion) (code : Nat) : String :=
  version.to_string_for_response ++ " " ++ http_status_code_with_name code ++ "\r\n"

end Response

namespace Websocket

/-- Opcode constants (websocket.rs). -/
def CONTINUATION_OPCODE : Nat := 0x0

/-- Opcode constants (websocket.rs). -/
def TEXT_OPCODE : Nat := 0x1

/-- Opcode constants (websocket.rs). -/
def BINARY_OPCODE : Nat := 0x2

/-- Opcode constants (websocket.rs). -/
def CLOSE_OPCODE : Nat := 0x8

/-- Big-endian byte j (0-based from the most significant) of a u64 value,
embedding u64::to_be_bytes on (data_len as u64), the as-cast wrapping
being the mod 2^64. -/
def beByte (j : Nat) (n : Nat) : Nat :=
  n % 2 ^ 64 / 2 ^ (8 * (7 - j)) % 256

/-- Frame serializer (websocket.rs frame): FIN set, no mask, 7-bit length
below 126, 126 plus two big-endian bytes up to u16::MAX, 127 plus eight
big-endian bytes beyond.  The data_len as u8 push in the first arm is
exact because data_len < 126. -/
def frame (opcode : Nat) (payload : List Nat) : List Nat :=
  let data_len := payload.length
  let first_byte := opcode ||| 128
  if data_len < 126 then
    first_byte :: data_len :: payload
  else if data_len ≤ 65535 then
    first_byte :: 126 :: beByte 6 data_len :: beByte 7 data_len :: payload
  else
    first_byte :: 127 :: beByte 0 data_len :: beByte 1 data_len :: beByte 2 data_len ::
      beByte 3 data_len :: beByte 4 data_len :: beByte 5 data_len :: beByte 6 data_len ::
      beByte 7 data_len :: payload

/-- Frame parse errors (websocket.rs ParseFrameError; the source spells
UnmaskedClientMaessage). -/
inductive ParseFrameError where
  | unsupportedOpcode
  | unmaskedClientMaessage
  | payloadLimit
deriving DecidableEq, Repr

/-- Incrementally parsed frame (websocket.rs ParsedFrame). -/
structure ParsedFrame where
  fin : Bool
  opcode : Nat
  first_byte : Nat
  buf : List Nat
  payload_index : Nat
  payload_len : Nat
  masking_key_index : Nat
deriving DecidableEq, Repr

/-- Conditionally uninitialized frame (websocket.rs ParsedFrame::new). -/
def ParsedFrame.new : ParsedFrame :=
  { fin := false, opcode := 0, first_byte := 0, buf := [], payload_index := 0,
    payload_len := 0, masking_key_index := 0 }

/-- Payload slice of a parsed frame (websocket.rs ParsedFrame::payload). -/
def ParsedFrame.payload (f : ParsedFrame) : List Nat :=
  (f.buf.drop f.payload_index).take f.payload_len

/-- Masking key slice (websocket.rs ParsedFrame::mask). -/
def ParsedFrame.mask (f : ParsedFrame) : Option (List Nat) :=
  if f.masking_key_index = 0 ∨ f.buf.length < f.masking_key_index + 4 then none
  else (f.buf.drop f.masking_key_index).take 4

/-- Close test (websocket.rs ParsedFrame::is_close). -/
def ParsedFrame.is_close (f : ParsedFrame) : Bool :=
  f.opcode = CLOSE_OPCODE

/-- Parser states (websocket.rs ParserState). -/
inductive ParserState where
  | parseFirstByteWhereFinAndOpcode
  | parseSecondByteWhereMaskAndPayloadLen
  | parseExtendedPayloadLen
  | parseMaskingKey
  | loadPayloadData
deriving DecidableEq, Repr

/-- Frame parser (websocket.rs Parser). -/
structure Parser where
  state : ParserState
  frame : ParsedFrame
deriving DecidableEq, Repr

/-- Fresh parser (websocket.rs Parser::new / Default). -/
def Parser.new : Parser :=
  { state := .parseFirstByteWhereFinAndOpcode, frame := ParsedFrame.new }

/-- The in-place XOR decode loop of websocket.rs Parser::parse_yet:
each payload byte (enumerated from i) is XORed with mask[i % 4]. -/
def maskXor (mask : List Nat) : Nat → List Nat → List Nat
  | _, [] => []
  | i, b :: r => (b ^^^ mask.getD (i % 4) 0) :: maskXor mask (i + 1) r

/-- The LoadPayloadData arm of the parse loop: once the whole frame is
buffered, split off the surplus, truncate the buffer to the frame, XOR
decode the payload in place with the masking key, and reset the parser. -/
def loadPayloadStep (fr : ParsedFrame) :
    Except ParseFrameError (Option (ParsedFrame × List Nat) × Parser) :=
  let frame_len := fr.payload_index + fr.payload_len
  if frame_len ≤ fr.buf.length then
    let surplus := fr.buf.drop frame_len
    let tbuf := fr.buf.take frame_len
    let mask := (ParsedFrame.mask { fr with buf := tbuf }).getD [0, 0, 0, 0]
    let decoded := tbuf.take fr.payload_index ++ maskXor mask 0 (tbuf.drop fr.payload_index)
    .ok (some ({ fr with buf := decoded }, surplus), Parser.new)
  else .ok (none, { state := .loadPayloadData, frame := fr })

/-- The ParseMaskingKey arm: after the four key bytes are present the
payload starts right after them. -/
def maskingKeyStep (fr : ParsedFrame) :
    Except ParseFrameError (Option (ParsedFrame × List Nat) × Parser) :=
  if fr.masking_key_index + 4 ≤ fr.buf.length then
    loadPayloadStep { fr with payload_index := fr.masking_key_index + 4 }
  else .ok (none, { state := .parseMaskingKey, frame := fr })

/-- The ParseExtendedPayloadLen arm: a 7-bit marker of 126 takes two
big-endian length bytes, 127 takes eight.  The eight-byte accumulation of
the source starts from buf[2] and shifts it out over the eight iterations;
usize shifts wrap, hence the mod 2^64 on each step. -/
def extendedPayloadLenStep (fr : ParsedFrame) (payload_limit : Nat) :
    Except ParseFrameError (Option (ParsedFrame × List Nat) × Parser) :=
  if fr.payload_len = 126 then
    if fr.buf.length < 4 then .ok (none, { state := .parseExtendedPayloadLen, frame := fr })
    else
      let hi := fr.buf.getD 2 0
      let low := fr.buf.getD 3 0
      let len := hi <<< 8 ||| low
      if payload_limit < len then .error .payloadLimit
      else maskingKeyStep { fr with payload_len := len, masking_key_index := 4 }
  else
    if fr.buf.length < 10 then .ok (none, { state := .parseExtendedPayloadLen, frame := fr })
    else
      let len :=
        (List.range 8).foldl (fun len i => (len <<< 8) % 2 ^ 64 ||| fr.buf.getD (2 + i) 0)
          (fr.buf.getD 2 0)
      if payload_limit < len then .error .payloadLimit
      else maskingKeyStep { fr with payload_len := len, masking_key_index := 10 }

/-- The ParseSecondByteWhereMaskAndPayloadLen arm: the mask bit must be
set (RFC 6455 section 5.1, servers reject unmasked client messages); the
7-bit length below 126 goes straight to the masking key, otherwise to the
extended length. -/
def secondByteStep (fr : ParsedFrame) (payload_limit : Nat) :
    Except ParseFrameError (Option (ParsedFrame × List Nat) × Parser) :=
  if 1 < fr.buf.length then
    let second_byte := fr.buf.getD 1 0
    if second_byte &&& 128 = 0 then .error .unmaskedClientMaessage
    else
      let payload_len := second_byte &&& 127
      if payload_limit < payload_len then .error .payloadLimit
      else
        let fr2 := { fr with payload_len := payload_len }
        if payload_len < 126 then maskingKeyStep { fr2 with masking_key_index := 2 }
        else extendedPayloadLenStep fr2 payload_limit
  else .ok (none, { state := .parseSecondByteWhereMaskAndPayloadLen, frame := fr })

/-- The ParseFirstByteWhereFinAndOpcode arm: FIN is bit 7, the opcode the
low four bits; all sixteen opcode values are accepted by the 0x0..=0xF
match of the source, so UnsupportedOpcode is never produced here. -/
def firstByteStep (fr : ParsedFrame) (payload_limit : Nat) :
    Except ParseFrameError (Option (ParsedFrame × List Nat) × Parser) :=
  if fr.buf ≠ [] then
    let first_byte := fr.buf.getD 0 0
    secondByteStep
      { fr with
        first_byte := first_byte
        fin := decide (0 < first_byte &&& 128)
        opcode := first_byte &&& 15 } payload_limit
  else .ok (none, { state := .parseFirstByteWhereFinAndOpcode, frame := fr })

/-- Dispatch of the parse loop at a saved state. -/
def dispatch (st : ParserState) (fr : ParsedFrame) (payload_limit : Nat) :
    Except ParseFrameError (Option (ParsedFrame × List Nat) × Parser) :=
  match st with
  | .parseFirstByteWhereFinAndOpcode => firstByteStep fr payload_limit
  | .parseSecondByteWhereMaskAndPayloadLen => secondByteStep fr payload_limit
  | .parseExtendedPayloadLen => extendedPayloadLenStep fr payload_limit
  | .parseMaskingKey => maskingKeyStep fr
  | .loadPayloadData => loadPayloadStep fr

/-- Incremental frame parse (websocket.rs Parser::parse_yet): append the
chunk to the frame buffer and run the state loop until a frame completes,
an error fires, or more data is needed. -/
def Parser.parse_yet (p : Parser) (tmp_buf : List Nat) (payload_limit : Nat) :
    Except ParseFrameError (Option (ParsedFrame × List Nat) × Parser) :=
  dispatch p.state { p.frame with buf := p.frame.buf ++ tmp_buf } payload_limit

/-- Feed read chunks to the frame parser until a frame is produced
(web_session.rs WebSession::on_websocket_read): returns the frame, its
surplus and the chunks not yet fed, or the parser still waiting. -/
def feed_until_frame (payload_limit : Nat) :
    Parser → List (List Nat) →
    Except ParseFrameError (Option (ParsedFrame × List Nat × List (List Nat)) × Parser)
  | p, [] => .ok (none, p)
  | p, c :: cs =>
    match p.parse_yet c payload_limit with
    | .error e => .error e
    | .ok (some (fr, surplus), p2) => .ok (some (fr, surplus, cs), p2)
    | .ok (none, p2) => feed_until_frame payload_limit p2 cs

/-- How one arm's result evolves when the buffered bytes grow: an error
persists, a completed frame persists with the surplus growing by the
extension, and a stall saves a state that replays as the same arm over
the grown buffer. -/
def ExtendRel (payload_limit : Nat)
    (F : ParsedFrame → Except ParseFrameError (Option (ParsedFrame × List Nat) × Parser))
    (fr : ParsedFrame) (ext : List Nat) : Prop :=
  match F fr with
  | .error e => F { fr with buf := fr.buf ++ ext } = .error e
  | .ok (some (fr2, sp), p1) =>
      F { fr with buf := fr.buf ++ ext } = .ok (some (fr2, sp ++ ext), p1)
  | .ok (none, p2) =>
      p2.frame.buf = fr.buf ∧
      F { fr with buf := fr.buf ++ ext } =
        dispatch p2.state { p2.frame with buf := p2.frame.buf ++ ext } payload_limit

/-- An arm satisfying the extension relation at every frame and
extension. -/
def StepExtends (payload_limit : Nat)
    (F : ParsedFrame → Except ParseFrameError (Option (ParsedFrame × List Nat) × Parser)) :
    Prop :=
  ∀ (fr : ParsedFrame) (ext : List Nat), ExtendRel payload_limit F fr ext

end Websocket

/-! Specification-side definitions: statements of the spec rendered as
their own definitions, to be compared with the embedded code. -/

/-- The four-cell keep-alive policy table of spec section 4.4: an explicit
Connection header wins (close closes, keep-alive reuses); without one
HTTP/1.0 closes and HTTP/1.1 reuses.  true means close after drain. -/
def close_policy (connection : Option ConnectionType) (version : HttpVersion) : Bool :=
  match connection, version with
  | some .close, _ => true
  | some .keepAlive, _ => false
  | none, .http1_0 => true
  | none, .http1_1 => false

/-- The value shapes Rust str::parse::<usize> accepts: a digit string,
optionally after one leading plus (a minus sign is never stripped for an
unsigned target); the digits must not exceed usize::MAX. -/
def RustUsizeShape (v : List Nat) : Prop :=
  ∃ ds : List Nat,
    (v = ds ∨ v = 43 :: ds) ∧
    ds ≠ [] ∧ (∀ b ∈ ds, 48 ≤ b ∧ b ≤ 57) ∧ digitsVal ds ≤ 2 ^ 64 - 1

/-- Whether pat occurs as a contiguous byte run inside hay. -/
def bytes_contains (hay pat : List Nat) : Bool :=
  (List.range (hay.length + 1)).any fun i => decide ((hay.drop i).take pat.length = pat)

/-- Value of an ASCII hex digit byte, none otherwise. -/
def from_hex_digit (b : Nat) : Option Nat :=
  if 48 ≤ b ∧ b ≤ 57 then some (b - 48)
  else if 65 ≤ b ∧ b ≤ 70 then some (b - 55)
  else if 97 ≤ b ∧ b ≤ 102 then some (b - 87)
  else none

/-- Modelled from the spec: percent-decoding of URL bytes.  The repository
delegates decoding to the external percent_encoding crate (out of src):
a percent sign followed by two hex digits decodes to that byte, malformed
percent sequences pass through verbatim, and the spec then reads the
decoded bytes as UTF-8 for the decoded path (an empty path on failure). -/
def percent_decode_bytes : List Nat → List Nat
  | [] => []
  | 37 :: h :: l :: r =>
    match from_hex_digit h, from_hex_digit l with
    | some hv, some lv => (hv * 16 + lv) :: percent_decode_bytes r
    | _, _ => 37 :: percent_decode_bytes (h :: l :: r)
  | b :: r => b :: percent_decode_bytes r

/-- The minimal WebSocket length encoding of spec section on the
serializer: a single 7-bit byte below 126, the marker 126 with two
big-endian bytes up to 65535, the marker 127 with eight big-endian bytes
beyond. -/
def wsLenHdr (n : Nat) : List Nat :=
  if n < 126 then [n]
  else if n ≤ 65535 then [126, n / 2 ^ 8, n % 256]
  else [127, n / 2 ^ 56 % 256, n / 2 ^ 48 % 256, n / 2 ^ 40 % 256, n / 2 ^ 32 % 256,
        n / 2 ^ 24 % 256, n / 2 ^ 16 % 256, n / 2 ^ 8 % 256, n % 256]

/-- Setting the mask bit on the first length byte of a client frame (the
length markers and 7-bit lengths are all below 128). -/
def setMaskBit : List Nat → List Nat
  | [] => []
  | b :: r => (128 + b) :: r

/-- A well-formed masked client frame: a first byte, the length header
with the mask bit set on its first byte, a four-byte masking key, and the
payload XOR-masked with that key. -/
def maskedClientFrame (fb : Nat) (mask payload : List Nat) : List Nat :=
  fb :: setMaskBit (wsLenHdr payload.length) ++ mask ++ Websocket.maskXor mask 0 payload

/-- The wire bytes of an HTTP version token. -/
def versionBytes : HttpVersion → List Nat
  | .http1_0 => asciiBytes "HTTP/1.0"
  | .http1_1 => asciiBytes "HTTP/1.1"

/-- An abstract description of one HTTP request head of the pipelined
stream of the spec: method, path, optional query, version, and header
name-value pairs as written on the wire (one space after each colon). -/
structure HeadDesc where
  method : List Nat
  path : List Nat
  query : Option (List Nat)
  version : HttpVersion
  headers : List (List Nat × List Nat)

/-- Wire bytes of one header line: name, colon, one space, value,
CR-LF. -/
def headerLineBytes (nv : List Nat × List Nat) : List Nat :=
  nv.1 ++ [58, 32] ++ nv.2 ++ [13, 10]

/-- Wire bytes of a whole request head: request line, header lines, and
the final empty line. -/
def headBytes (h : HeadDesc) : List Nat :=
  h.method ++ [32] ++ h.path ++
    (match h.query with
     | none => []
     | some q => 63 :: q) ++ [32] ++
    versionBytes h.version ++ [13, 10] ++
    (h.headers.map headerLineBytes).flatten ++ [13, 10]

/-- The headers of a description as parsed Header records. -/
def descHeaders (h : HeadDesc) : List Header :=
  h.headers.map fun nv => ⟨nv.1, nv.2⟩

/-- The connection-type and content-length derivation the parse loop
performs header by header: the first recognized Connection and
Content-Length headers win, and an unparseable first Content-Length value
fails. -/
def deriveHeaders : Option ConnectionType → Option Nat → List Header →
    Except RequestError (Option ConnectionType × Option Nat)
  | ct, cl, [] => .ok (ct, cl)
  | ct, cl, hd :: rest =>
    let ct2 := if ct.isNone then header_is_connection_type hd else ct
    match (if cl.isNone then header_is_content_length hd else .ok cl) with
    | .error e => .error e
    | .ok cl2 => deriveHeaders ct2 cl2 rest

/-- The derivation of a whole head, defaulting to no connection type and
no content length when the derivation fails (well-formed heads never
fail). -/
def headDerivation (h : HeadDesc) : Option ConnectionType × Option Nat :=
  match deriveHeaders none none (descHeaders h) with
  | .ok p => p
  | .error _ => (none, none)

/-- The RequestData the parser is expected to produce for one head:
index fields point into the head bytes, headers are taken verbatim, and
connection type and content length follow the derivation. -/
def expectedReq (h : HeadDesc) : RequestData :=
  { raw := headBytes h
    method_end_index := h.method.length
    path_indices := (h.method.length + 1, h.method.length + 1 + h.path.length)
    raw_query_indices :=
      match h.query with
      | none => (0, 0)
      | some q => (h.method.length + h.path.length + 2,
                   h.method.length + h.path.length + 2 + q.length)
    version := h.version
    headers := descHeaders h
    connection_type := (headDerivation h).1
    content_len := (headDerivation h).2
    decoded_path := "" }

/-- Well-formedness of one head against the parser limits: the byte
alphabets of each field avoid the scanner's separators, every limit is
respected, header names and values are nonempty valid UTF-8, and the
content-length derivation succeeds. -/
def WfHead (ps : RequestParser.ParseHttpRequestSettings) (h : HeadDesc) : Prop :=
  (∀ b ∈ h.method, b ≠ 32 ∧ b ≠ 10) ∧ h.method.length ≤ ps.method_len_limit ∧
  (∀ b ∈ h.path, b ≠ 32 ∧ b ≠ 10 ∧ b ≠ 63) ∧ h.path.length ≤ ps.path_len_limit ∧
  (match h.query with
   | none => True
   | some q => (∀ b ∈ q, b ≠ 32 ∧ b ≠ 10) ∧ q.length ≤ ps.query_len_limit) ∧
  h.headers.length ≤ ps.headers_count_limit ∧
  (∀ nv ∈ h.headers,
    nv.1 ≠ [] ∧ (∀ b ∈ nv.1, b ≠ 58 ∧ b ≠ 10) ∧
    nv.1.length ≤ ps.header_name_len_limit ∧ isValidUtf8 nv.1 = true ∧
    nv.2 ≠ [] ∧ (∀ b ∈ nv.2, b ≠ 10) ∧
    nv.2.length + 1 ≤ ps.header_value_len_limit ∧ isValidUtf8 nv.2 = true) ∧
  (∃ ct cl, deriveHeaders none none (descHeaders h) = .ok (ct, cl))

/-- The parser state reached after feeding the bytes T of an incomplete
head: the scan of T from a fresh record parks in the state and record the
parser holds, with T as its accumulated raw buffer. -/
def FedState (ps : RequestParser.ParseHttpRequestSettings) (T : List Nat)
    (p : RequestParser.Parser) : Prop :=
  ∃ rT, RequestParser.scanGo ps T T 0 .method RequestData.new =
      .needMore p.parse_state rT ∧ p.request = { rT with raw := T }

/-! General lemmas. -/

/-- The keys of the status table are distinct. -/
theorem http_codes_nodup : (Response.HTTP_CODES_WITH_NAME_BY_CODE.map Prod.fst).Nodup := by
  decide

/-- Every status-table text begins with the digits of its own code and a
space. -/
theorem http_codes_text_starts_with_code :
    Response.HTTP_CODES_WITH_NAME_BY_CODE.all
      (fun p => (asciiBytes (toString p.1 ++ " ")).isPrefixOf (asciiBytes p.2)) = true := by
  decide

/-- On a table with distinct keys, first-match lookup of a member key
finds that member. -/
theorem find_code_of_mem (l : List (Nat × String)) (hnd : (l.map Prod.fst).Nodup)
    {c : Nat} {n : String} (hmem : (c, n) ∈ l) :
    l.find? (fun p => p.1 = c) = some (c, n) := by
  induction l with
  | nil => cases hmem
  | cons a l ih =>
    have hnd2 : a.1 ∉ l.map Prod.fst ∧ (l.map Prod.fst).Nodup := by
      rw [List.map_cons, List.nodup_cons] at hnd
      exact hnd
    rcases List.mem_cons.mp hmem with h | h
    · subst h
      simp [List.find?_cons]
    · have hne : ¬ (a.1 = c) := by
        intro hEq
        exact hnd2.1 (by
          rw [hEq]
          exact List.mem_map_of_mem Prod.fst h)
      rw [List.find?_cons]
      rw [decide_eq_false hne]
      exact ih hnd2.2 h

/-- The websocket LoadPayloadData arm never reports an unmasked client
message. -/
theorem ws_load_ne_unmasked (fr : Websocket.ParsedFrame) :
    Websocket.loadPayloadStep fr ≠ .error .unmaskedClientMaessage := by
  simp only [Websocket.loadPayloadStep]
  split <;> simp

/-- The websocket ParseMaskingKey arm never reports an unmasked client
message. -/
theorem ws_maskkey_ne_unmasked (fr : Websocket.ParsedFrame) :
    Websocket.maskingKeyStep fr ≠ .error .unmaskedClientMaessage := by
  simp only [Websocket.maskingKeyStep]
  split
  · exact ws_load_ne_unmasked _
  · simp

/-- The websocket ParseExtendedPayloadLen arm never reports an unmasked
client message. -/
theorem ws_extlen_ne_unmasked (fr : Websocket.ParsedFrame) (payload_limit : Nat) :
    Websocket.extendedPayloadLenStep fr payload_limit ≠ .error .unmaskedClientMaessage := by
  simp only [Websocket.extendedPayloadLenStep]
  split
  · split
    · simp
    · split
      · simp
      · exact ws_maskkey_ne_unmasked _
  · split
    · simp
    · split
      · simp
      · exact ws_maskkey_ne_unmasked _

/-- With the mask bit of the second buffered byte set, the websocket
ParseSecondByteWhereMaskAndPayloadLen arm never reports an unmasked client
message. -/
theorem ws_second_ne_unmasked (fr : Websocket.ParsedFrame) (payload_limit : Nat)
    (h : fr.buf.getD 1 0 &&& 128 ≠ 0) :
    Websocket.secondByteStep fr payload_limit ≠ .error .unmaskedClientMaessage := by
  simp only [Websocket.secondByteStep]
  split
  · split
    · simp
    · split
      · exact ws_maskkey_ne_unmasked _
      · exact ws_extlen_ne_unmasked _ _
  · simp

/-- Oring over a left shift is addition when the low part fits below the
shift. -/
theorem shiftLeft_lor_eq_add :
    ∀ (k x y : Nat), y < 2 ^ k → (x <<< k) ||| y = x * 2 ^ k + y := by
  intro k
  induction k with
  | zero =>
    intro x y hy
    have hy0 : y = 0 := by omega
    subst hy0
    simp [Nat.shiftLeft_eq]
  | succ k ih =>
    intro x y hy
    have hxs : x <<< (k + 1) = Nat.bit false (x <<< k) := by
      simp only [Nat.shiftLeft_eq, Nat.bit, cond_false, pow_succ]
      ring
    rw [← Nat.bit_decomp y, hxs, Nat.lor_bit]
    have hdiv : y.div2 < 2 ^ k := by
      rw [Nat.div2_val]
      have : 2 ^ (k + 1) = 2 * 2 ^ k := by ring
      omega
    have hih := ih x y.div2 hdiv
    cases hb : y.bodd <;>
      simp only [Bool.false_or, Bool.or_false, Bool.or_true, Nat.bit, cond_false, cond_true,
        hih] <;>
      · rw [pow_succ]; ring

/-- The mask-bit and 7-bit-length extractions on a second byte built as
128 plus a value below 128. -/
theorem ws_second_byte_bits :
    ∀ b < 128, ((128 + b) &&& 128 ≠ 0 ∧ (128 + b) &&& 127 = b ∧ b &&& 128 = 0) := by
  decide

/-- One step of the 64-bit length accumulation: the wrapped shift ors in
a fresh low byte by plain addition. -/
theorem ws_or_low (acc b : Nat) (hb : b < 256) :
    (acc <<< 8) % 2 ^ 64 ||| b = acc * 256 % 2 ^ 64 + b := by
  have h1 : acc <<< 8 = acc * 256 := by rw [Nat.shiftLeft_eq]
  have h2 : acc * 256 % 2 ^ 64 = (acc * 256 % 2 ^ 64 / 256) <<< 8 := by
    rw [Nat.shiftLeft_eq]
    omega
  rw [h1, h2, shiftLeft_lor_eq_add 8 _ b (by simpa using hb)]
  rw [Nat.shiftLeft_eq] at h2
  omega

/-- The eight-iteration big-endian length fold of the parser recovers the
value from its eight big-endian bytes: the initial seed (the first length
byte) is shifted out by exactly 64 bits and vanishes in the wrap. -/
theorem ws_be64_refold (n : Nat) (hn : n < 2 ^ 64) :
    (List.range 8).foldl (fun len i => (len <<< 8) % 2 ^ 64 ||| n / 2 ^ (8 * (7 - i)) % 256)
      (n / 2 ^ 56 % 256) = n := by
  have hr : List.range 8 = [0, 1, 2, 3, 4, 5, 6, 7] := rfl
  rw [hr]
  simp only [List.foldl_cons, List.foldl_nil]
  rw [ws_or_low _ _ (Nat.mod_lt _ (by norm_num : (256:Nat) > 0))]
  rw [ws_or_low _ _ (Nat.mod_lt _ (by norm_num : (256:Nat) > 0))]
  rw [ws_or_low _ _ (Nat.mod_lt _ (by norm_num : (256:Nat) > 0))]
  rw [ws_or_low _ _ (Nat.mod_lt _ (by norm_num : (256:Nat) > 0))]
  rw [ws_or_low _ _ (Nat.mod_lt _ (by norm_num : (256:Nat) > 0))]
  rw [ws_or_low _ _ (Nat.mod_lt _ (by norm_num : (256:Nat) > 0))]
  rw [ws_or_low _ _ (Nat.mod_lt _ (by norm_num : (256:Nat) > 0))]
  rw [ws_or_low _ _ (Nat.mod_lt _ (by norm_num : (256:Nat) > 0))]
  norm_num
  omega

/-- The serializer emits the first byte followed by the minimal length
encoding and the payload verbatim. -/
theorem ws_frame_shape (opcode : Nat) (payload : List Nat) (hlen : payload.length < 2 ^ 64) :
    Websocket.frame opcode payload = (opcode ||| 128) :: (wsLenHdr payload.length ++ payload) := by
  simp only [Websocket.frame, wsLenHdr, Websocket.beByte]
  by_cases h1 : payload.length < 126
  · rw [if_pos h1, if_pos h1]
    rfl
  · rw [if_neg h1, if_neg h1]
    by_cases h2 : payload.length ≤ 65535
    · rw [if_pos h2, if_pos h2]
      simp only [List.cons_append, List.nil_append, List.cons.injEq, and_true, true_and]
      norm_num
      omega
    · rw [if_neg h2, if_neg h2]
      simp only [List.cons_append, List.nil_append, List.cons.injEq, and_true, true_and]
      norm_num
      omega

/-- XOR masking preserves length. -/
theorem maskXor_length (mask : List Nat) :
    ∀ (i : Nat) (l : List Nat), (Websocket.maskXor mask i l).length = l.length := by
  intro i l
  induction l generalizing i with
  | nil => rfl
  | cons b t ih => simp [Websocket.maskXor, ih]

/-- XOR masking is an involution. -/
theorem maskXor_maskXor (mask : List Nat) :
    ∀ (i : Nat) (l : List Nat),
      Websocket.maskXor mask i (Websocket.maskXor mask i l) = l := by
  intro i l
  induction l generalizing i with
  | nil => rfl
  | cons b t ih =>
    simp [Websocket.maskXor, ih, Nat.xor_cancel_right]

/-- Completion of the LoadPayloadData arm on a fully buffered masked
frame: the surplus is split off, the buffer truncated to the frame, the
payload XOR-decoded in place, and the parser reset. -/
theorem ws_load_run (fr : Websocket.ParsedFrame) (hdr mask payload rest : List Nat)
    (hbuf : fr.buf = (hdr ++ mask ++ Websocket.maskXor mask 0 payload) ++ rest)
    (hpi : fr.payload_index = hdr.length + 4)
    (hpl : fr.payload_len = payload.length)
    (hmk : fr.masking_key_index = hdr.length)
    (hm : mask.length = 4) (hh : 0 < hdr.length) :
    Websocket.loadPayloadStep fr =
      .ok (some ({ fr with buf := hdr ++ mask ++ payload }, rest), Websocket.Parser.new) := by
  have hX : (Websocket.maskXor mask 0 payload).length = payload.length := maskXor_length _ _ _
  have hF : (hdr ++ mask ++ Websocket.maskXor mask 0 payload).length =
      hdr.length + 4 + payload.length := by
    simp [hX, hm]
    omega
  have hHM : (hdr ++ mask).length = hdr.length + 4 := by simp [hm]
  have hmask : ∀ g : Websocket.ParsedFrame,
      g.buf = hdr ++ mask ++ Websocket.maskXor mask 0 payload →
      g.masking_key_index = hdr.length → Websocket.ParsedFrame.mask g = some mask := by
    intro g hg1 hg2
    simp only [Websocket.ParsedFrame.mask, hg1, hg2, hF]
    rw [if_neg (by omega)]
    rw [List.append_assoc, List.drop_left, List.take_left' hm]
  simp only [Websocket.loadPayloadStep, hbuf, hpi, hpl, hmk]
  rw [if_pos (by simp [List.length_append, hX, hm]; omega)]
  rw [List.drop_left' hF, List.take_left' hF]
  rw [hmask _ rfl rfl]
  simp only [Option.getD_some]
  rw [List.take_left' hHM, List.drop_left' hHM, maskXor_maskXor]

/-- A fresh parser starts at the first-byte arm over exactly the fed
chunk. -/
theorem ws_parse_new (tmp : List Nat) (limit : Nat) :
    Websocket.Parser.parse_yet Websocket.Parser.new tmp limit =
      Websocket.firstByteStep { Websocket.ParsedFrame.new with buf := tmp } limit := by
  simp [Websocket.Parser.parse_yet, Websocket.Parser.new, Websocket.dispatch,
    Websocket.ParsedFrame.new]

/-- The first-byte arm on a nonempty buffer records FIN, opcode and the
raw first byte and falls through to the second-byte arm. -/
theorem ws_first_run (g : Websocket.ParsedFrame) (fb : Nat) (L : List Nat) (limit : Nat)
    (hbuf : g.buf = fb :: L) :
    Websocket.firstByteStep g limit =
      Websocket.secondByteStep
        { g with first_byte := fb, fin := decide (0 < fb &&& 128), opcode := fb &&& 15 }
        limit := by
  simp only [Websocket.firstByteStep, hbuf]
  rw [if_pos (by simp)]
  simp

/-- The second-byte arm on a masked frame with a 7-bit length falls
through to the masking-key arm. -/
theorem ws_second_small (g : Websocket.ParsedFrame) (a b : Nat) (L : List Nat) (limit : Nat)
    (hbuf : g.buf = a :: b :: L)
    (hmb : b &&& 128 ≠ 0) (hsm : b &&& 127 < 126) (hlim : b &&& 127 ≤ limit) :
    Websocket.secondByteStep g limit =
      Websocket.maskingKeyStep { g with payload_len := b &&& 127, masking_key_index := 2 } := by
  simp only [Websocket.secondByteStep, hbuf]
  rw [if_pos (by simp)]
  simp only [List.getD_cons_succ, List.getD_cons_zero]
  rw [if_neg hmb, if_neg (by omega), if_pos hsm]

/-- The second-byte arm on a masked frame with an extended-length marker
falls through to the extended-length arm. -/
theorem ws_second_ext (g : Websocket.ParsedFrame) (a b : Nat) (L : List Nat) (limit : Nat)
    (hbuf : g.buf = a :: b :: L)
    (hmb : b &&& 128 ≠ 0) (hbig : ¬ b &&& 127 < 126) (hlim : b &&& 127 ≤ limit) :
    Websocket.secondByteStep g limit =
      Websocket.extendedPayloadLenStep { g with payload_len := b &&& 127 } limit := by
  simp only [Websocket.secondByteStep, hbuf]
  rw [if_pos (by simp)]
  simp only [List.getD_cons_succ, List.getD_cons_zero]
  rw [if_neg hmb, if_neg (by omega), if_neg hbig]

/-- The masking-key arm with the four key bytes buffered falls through to
the payload arm with the payload right after the key. -/
theorem ws_maskkey_run (g : Websocket.ParsedFrame) (k : Nat)
    (hmki : g.masking_key_index = k) (hlen : k + 4 ≤ g.buf.length) :
    Websocket.maskingKeyStep g =
      Websocket.loadPayloadStep { g with payload_index := k + 4 } := by
  simp only [Websocket.maskingKeyStep, hmki]
  rw [if_pos hlen]

/-- The extended-length arm in the two-byte (marker 126) case recomposes
the big-endian 16-bit length. -/
theorem ws_extlen16_run (g : Websocket.ParsedFrame) (a b c0 c1 n limit : Nat) (L : List Nat)
    (hbuf : g.buf = a :: b :: c0 :: c1 :: L)
    (hpl : g.payload_len = 126)
    (hfold : c0 <<< 8 ||| c1 = n) (hlim : n ≤ limit) :
    Websocket.extendedPayloadLenStep g limit =
      Websocket.maskingKeyStep { g with payload_len := n, masking_key_index := 4 } := by
  simp only [Websocket.extendedPayloadLenStep, hpl]
  rw [if_pos (by norm_num)]
  rw [if_neg (by simp [hbuf]), hbuf]
  rw [show (a :: b :: c0 :: c1 :: L).getD 2 0 = c0 from rfl]
  rw [show (a :: b :: c0 :: c1 :: L).getD 3 0 = c1 from rfl]
  rw [hfold, if_neg (by omega)]

/-- The extended-length arm in the eight-byte (marker 127) case
recomposes the big-endian 64-bit length. -/
theorem ws_extlen64_run (g : Websocket.ParsedFrame)
    (a b c0 c1 c2 c3 c4 c5 c6 c7 n limit : Nat) (L : List Nat)
    (hbuf : g.buf = a :: b :: c0 :: c1 :: c2 :: c3 :: c4 :: c5 :: c6 :: c7 :: L)
    (hpl : g.payload_len ≠ 126)
    (hfold : (List.range 8).foldl
        (fun len i => (len <<< 8) % 2 ^ 64 ||| [c0, c1, c2, c3, c4, c5, c6, c7].getD i 0)
        c0 = n)
    (hlim : n ≤ limit) :
    Websocket.extendedPayloadLenStep g limit =
      Websocket.maskingKeyStep { g with payload_len := n, masking_key_index := 10 } := by
  simp only [Websocket.extendedPayloadLenStep]
  rw [if_neg hpl, if_neg (by simp [hbuf]), hbuf]
  rw [show (a :: b :: c0 :: c1 :: c2 :: c3 :: c4 :: c5 :: c6 :: c7 :: L).getD 2 0 = c0 from rfl]
  rw [List.foldl_ext _
    (fun len i => (len <<< 8) % 2 ^ 64 ||| [c0, c1, c2, c3, c4, c5, c6, c7].getD i 0) c0
    (by
      intro acc i hi
      rw [List.mem_range] at hi
      interval_cases i <;> rfl)]
  rw [hfold, if_neg (by omega)]

/-- A fresh parser on a whole masked client frame followed by trailing
bytes completes in one call: it returns the decoded frame, the trailing
bytes as surplus, and a reset parser. -/
theorem ws_single_shot (fb : Nat) (mask payload rest : List Nat) (limit : Nat)
    (hm : mask.length = 4) (hlen : payload.length < 2 ^ 64) (hlim : payload.length ≤ limit) :
    Websocket.Parser.parse_yet Websocket.Parser.new (maskedClientFrame fb mask payload ++ rest)
        limit =
      .ok (some ({ fin := decide (0 < fb &&& 128)
                   opcode := fb &&& 15
                   first_byte := fb
                   buf := (fb :: setMaskBit (wsLenHdr payload.length)) ++ mask ++ payload
                   payload_index := 1 + (wsLenHdr payload.length).length + 4
                   payload_len := payload.length
                   masking_key_index := 1 + (wsLenHdr payload.length).length }, rest),
        Websocket.Parser.new) := by
  have hX : (Websocket.maskXor mask 0 payload).length = payload.length := maskXor_length _ _ _
  rw [ws_parse_new]
  by_cases h1 : payload.length < 126
  · have hw : wsLenHdr payload.length = [payload.length] := by
      rw [wsLenHdr, if_pos h1]
    have hbits := ws_second_byte_bits payload.length (by omega)
    rw [ws_first_run _ fb
      ((128 + payload.length) :: (mask ++ (Websocket.maskXor mask 0 payload ++ rest))) limit
      (by simp [maskedClientFrame, hw, setMaskBit])]
    rw [ws_second_small _ fb (128 + payload.length)
      (mask ++ (Websocket.maskXor mask 0 payload ++ rest)) limit
      (by simp [maskedClientFrame, hw, setMaskBit])
      hbits.1 (by rw [hbits.2.1]; exact h1) (by rw [hbits.2.1]; exact hlim)]
    rw [hbits.2.1]
    rw [ws_maskkey_run _ 2 rfl (by simp [maskedClientFrame, hw, setMaskBit, hX, hm])]
    rw [ws_load_run _ [fb, 128 + payload.length] mask payload rest
      (by simp [maskedClientFrame, hw, setMaskBit]) (by simp) rfl (by simp) hm (by norm_num)]
    simp [hw, setMaskBit]
  · by_cases h2 : payload.length ≤ 65535
    · have hw : wsLenHdr payload.length =
          [126, payload.length / 2 ^ 8, payload.length % 256] := by
        rw [wsLenHdr, if_neg h1, if_pos h2]
      rw [ws_first_run _ fb
        (254 :: (payload.length / 2 ^ 8 :: (payload.length % 256 ::
          (mask ++ (Websocket.maskXor mask 0 payload ++ rest))))) limit
        (by simp [maskedClientFrame, hw, setMaskBit])]
      rw [ws_second_ext _ fb 254
        (payload.length / 2 ^ 8 :: (payload.length % 256 ::
          (mask ++ (Websocket.maskXor mask 0 payload ++ rest)))) limit
        (by simp [maskedClientFrame, hw, setMaskBit])
        (by decide) (by decide)
        (by rw [show (254 : Nat) &&& 127 = 126 from rfl]; omega)]
      rw [show (254 : Nat) &&& 127 = 126 from rfl]
      rw [ws_extlen16_run _ fb 254 (payload.length / 2 ^ 8) (payload.length % 256)
        payload.length limit (mask ++ (Websocket.maskXor mask 0 payload ++ rest))
        (by simp [maskedClientFrame, hw, setMaskBit]) rfl
        (by
          rw [shiftLeft_lor_eq_add 8 _ _ (by omega)]
          omega)
        hlim]
      rw [ws_maskkey_run _ 4 rfl (by simp [maskedClientFrame, hw, setMaskBit, hX, hm])]
      rw [ws_load_run _ [fb, 254, payload.length / 2 ^ 8, payload.length % 256] mask payload
        rest (by simp [maskedClientFrame, hw, setMaskBit]) (by simp) rfl (by simp) hm
        (by norm_num)]
      simp [hw, setMaskBit]
    · have hw : wsLenHdr payload.length =
          [127, payload.length / 2 ^ 56 % 256, payload.length / 2 ^ 48 % 256,
           payload.length / 2 ^ 40 % 256, payload.length / 2 ^ 32 % 256,
           payload.length / 2 ^ 24 % 256, payload.length / 2 ^ 16 % 256,
           payload.length / 2 ^ 8 % 256, payload.length % 256] := by
        rw [wsLenHdr, if_neg h1, if_neg h2]
      rw [ws_first_run _ fb
        (255 :: (payload.length / 2 ^ 56 % 256 :: (payload.length / 2 ^ 48 % 256 ::
          (payload.length / 2 ^ 40 % 256 :: (payload.length / 2 ^ 32 % 256 ::
          (payload.length / 2 ^ 24 % 256 :: (payload.length / 2 ^ 16 % 256 ::
          (payload.length / 2 ^ 8 % 256 :: (payload.length % 256 ::
          (mask ++ (Websocket.maskXor mask 0 payload ++ rest))))))))))) limit
        (by simp [maskedClientFrame, hw, setMaskBit])]
      rw [ws_second_ext _ fb 255
        (payload.length / 2 ^ 56 % 256 :: (payload.length / 2 ^ 48 % 256 ::
          (payload.length / 2 ^ 40 % 256 :: (payload.length / 2 ^ 32 % 256 ::
          (payload.length / 2 ^ 24 % 256 :: (payload.length / 2 ^ 16 % 256 ::
          (payload.length / 2 ^ 8 % 256 :: (payload.length % 256 ::
          (mask ++ (Websocket.maskXor mask 0 payload ++ rest)))))))))) limit
        (by simp [maskedClientFrame, hw, setMaskBit])
        (by decide) (by decide)
        (by rw [show (255 : Nat) &&& 127 = 127 from rfl]; omega)]
      rw [ws_extlen64_run _ fb 255 (payload.length / 2 ^ 56 % 256)
        (payload.length / 2 ^ 48 % 256) (payload.length / 2 ^ 40 % 256)
        (payload.length / 2 ^ 32 % 256) (payload.length / 2 ^ 24 % 256)
        (payload.length / 2 ^ 16 % 256) (payload.length / 2 ^ 8 % 256)
        (payload.length % 256) payload.length limit
        (mask ++ (Websocket.maskXor mask 0 payload ++ rest))
        (by simp [maskedClientFrame, hw, setMaskBit])
        (show ¬ (255 &&& 127 : Nat) = 126 from by decide)
        (by
          have h := ws_be64_refold payload.length hlen
          have hfun : ∀ acc : Nat, ∀ i ∈ List.range 8,
              (fun len i => (len <<< 8) % 2 ^ 64 |||
                [payload.length / 2 ^ 56 % 256, payload.length / 2 ^ 48 % 256,
                 payload.length / 2 ^ 40 % 256, payload.length / 2 ^ 32 % 256,
                 payload.length / 2 ^ 24 % 256, payload.length / 2 ^ 16 % 256,
                 payload.length / 2 ^ 8 % 256, payload.length % 256].getD i 0) acc i =
              (fun len i => (len <<< 8) % 2 ^ 64 |||
                payload.length / 2 ^ (8 * (7 - i)) % 256) acc i := by
            intro acc i hi
            rw [List.mem_range] at hi
            interval_cases i <;> norm_num
          rw [List.foldl_ext _ _ _ hfun]
          exact h)
        hlim]
      rw [ws_maskkey_run _ 10 rfl (by simp [maskedClientFrame, hw, setMaskBit, hX, hm])]
      rw [ws_load_run _ [fb, 255, payload.length / 2 ^ 56 % 256,
        payload.length / 2 ^ 48 % 256, payload.length / 2 ^ 40 % 256,
        payload.length / 2 ^ 32 % 256, payload.length / 2 ^ 24 % 256,
        payload.length / 2 ^ 16 % 256, payload.length / 2 ^ 8 % 256, payload.length % 256]
        mask payload rest (by simp [maskedClientFrame, hw, setMaskBit]) (by simp) rfl
        (by simp) hm (by norm_num)]
      simp [hw, setMaskBit]

/-- Delegation preserves the extension relation: if an arm hands the
frame (with the same buffer) to another arm both before and after the
extension, the relation transfers. -/
theorem ws_extends_deleg (limit : Nat)
    (F G : Websocket.ParsedFrame →
      Except Websocket.ParseFrameError
        (Option (Websocket.ParsedFrame × List Nat) × Websocket.Parser))
    (fr g : Websocket.ParsedFrame) (ext : List Nat)
    (hG : Websocket.StepExtends limit G)
    (hbufeq : g.buf = fr.buf)
    (hdeleg : F fr = G g)
    (hdeleg2 : F { fr with buf := fr.buf ++ ext } = G { g with buf := g.buf ++ ext }) :
    Websocket.ExtendRel limit F fr ext := by
  have hg := hG g ext
  simp only [Websocket.ExtendRel] at hg ⊢
  rw [hdeleg]
  rcases hres : G g with e | ⟨o, p1⟩
  · rw [hres] at hg
    exact hdeleg2.trans hg
  · rcases o with _ | ⟨fr2, sp⟩
    · rw [hres] at hg
      exact ⟨hg.1.trans hbufeq, hdeleg2.trans hg.2⟩
    · rw [hres] at hg
      exact hdeleg2.trans hg

/-- The payload arm satisfies the extension relation. -/
theorem ws_load_extends (limit : Nat) :
    Websocket.StepExtends limit Websocket.loadPayloadStep := by
  intro fr ext
  simp only [Websocket.ExtendRel, Websocket.loadPayloadStep]
  by_cases h : fr.payload_index + fr.payload_len ≤ fr.buf.length
  · rw [if_pos h]
    simp only []
    rw [if_pos (show fr.payload_index + fr.payload_len ≤ (fr.buf ++ ext).length by
      simp
      omega)]
    rw [List.take_append_of_le_length h, List.drop_append_of_le_length h]
  · rw [if_neg h]
    exact ⟨rfl, rfl⟩

/-- The masking-key arm satisfies the extension relation. -/
theorem ws_maskkey_extends (limit : Nat) :
    Websocket.StepExtends limit Websocket.maskingKeyStep := by
  intro fr ext
  by_cases h : fr.masking_key_index + 4 ≤ fr.buf.length
  · refine ws_extends_deleg limit _ Websocket.loadPayloadStep fr
      { fr with payload_index := fr.masking_key_index + 4 } ext (ws_load_extends limit) rfl
      ?_ ?_
    · simp only [Websocket.maskingKeyStep]
      rw [if_pos h]
    · simp only [Websocket.maskingKeyStep]
      rw [if_pos (by simp; omega)]
  · simp only [Websocket.ExtendRel]
    have hF : Websocket.maskingKeyStep fr =
        .ok (none, { state := .parseMaskingKey, frame := fr }) := by
      simp only [Websocket.maskingKeyStep]
      rw [if_neg h]
    rw [hF]
    exact ⟨rfl, rfl⟩

/-- The extended-length arm satisfies the extension relation. -/
theorem ws_extlen_extends (limit : Nat) :
    Websocket.StepExtends limit (fun fr => Websocket.extendedPayloadLenStep fr limit) := by
  intro fr ext
  by_cases hp : fr.payload_len = 126
  · by_cases h4 : fr.buf.length < 4
    · simp only [Websocket.ExtendRel]
      have hF : Websocket.extendedPayloadLenStep fr limit =
          .ok (none, { state := .parseExtendedPayloadLen, frame := fr }) := by
        simp only [Websocket.extendedPayloadLenStep]
        rw [if_pos hp, if_pos h4]
      rw [hF]
      exact ⟨rfl, rfl⟩
    · have hg2 : (fr.buf ++ ext).getD 2 0 = fr.buf.getD 2 0 :=
        List.getD_append _ _ _ _ (by omega)
      have hg3 : (fr.buf ++ ext).getD 3 0 = fr.buf.getD 3 0 :=
        List.getD_append _ _ _ _ (by omega)
      by_cases hlim : limit < fr.buf.getD 2 0 <<< 8 ||| fr.buf.getD 3 0
      · simp only [Websocket.ExtendRel]
        have hF : Websocket.extendedPayloadLenStep fr limit = .error .payloadLimit := by
          simp only [Websocket.extendedPayloadLenStep]
          rw [if_pos hp, if_neg h4, if_pos hlim]
        rw [hF]
        simp only [Websocket.extendedPayloadLenStep]
        rw [if_pos hp, if_neg (by simp; omega), hg2, hg3, if_pos hlim]
      · refine ws_extends_deleg limit _ Websocket.maskingKeyStep fr
          { fr with
              payload_len := fr.buf.getD 2 0 <<< 8 ||| fr.buf.getD 3 0
              masking_key_index := 4 } ext (ws_maskkey_extends limit) rfl ?_ ?_
        · simp only [Websocket.extendedPayloadLenStep]
          rw [if_pos hp, if_neg h4, if_neg hlim]
        · simp only [Websocket.extendedPayloadLenStep]
          rw [if_pos hp, if_neg (by simp; omega), hg2, hg3, if_neg hlim]
  · by_cases h10 : fr.buf.length < 10
    · simp only [Websocket.ExtendRel]
      have hF : Websocket.extendedPayloadLenStep fr limit =
          .ok (none, { state := .parseExtendedPayloadLen, frame := fr }) := by
        simp only [Websocket.extendedPayloadLenStep]
        rw [if_neg hp, if_pos h10]
      rw [hF]
      exact ⟨rfl, rfl⟩
    · have hgfold : ∀ acc : Nat, ∀ i ∈ List.range 8,
          (fun len i => (len <<< 8) % 2 ^ 64 ||| (fr.buf ++ ext).getD (2 + i) 0) acc i =
          (fun len i => (len <<< 8) % 2 ^ 64 ||| fr.buf.getD (2 + i) 0) acc i := by
        intro acc i hi
        rw [List.mem_range] at hi
        simp only
        rw [List.getD_append _ _ _ _ (by omega)]
      have hg2 : (fr.buf ++ ext).getD 2 0 = fr.buf.getD 2 0 :=
        List.getD_append _ _ _ _ (by omega)
      by_cases hlim : limit <
          (List.range 8).foldl (fun len i => (len <<< 8) % 2 ^ 64 ||| fr.buf.getD (2 + i) 0)
            (fr.buf.getD 2 0)
      · simp only [Websocket.ExtendRel]
        have hF : Websocket.extendedPayloadLenStep fr limit = .error .payloadLimit := by
          simp only [Websocket.extendedPayloadLenStep]
          rw [if_neg hp, if_neg h10, if_pos hlim]
        rw [hF]
        simp only [Websocket.extendedPayloadLenStep]
        rw [if_neg hp, if_neg (by simp; omega), List.foldl_ext _ _ _ hgfold, hg2, if_pos hlim]
      · refine ws_extends_deleg limit _ Websocket.maskingKeyStep fr
          { fr with
              payload_len :=
                (List.range 8).foldl
                  (fun len i => (len <<< 8) % 2 ^ 64 ||| fr.buf.getD (2 + i) 0)
                  (fr.buf.getD 2 0)
              masking_key_index := 10 } ext (ws_maskkey_extends limit) rfl ?_ ?_
        · simp only [Websocket.extendedPayloadLenStep]
          rw [if_neg hp, if_neg h10, if_neg hlim]
        · simp only [Websocket.extendedPayloadLenStep]
          rw [if_neg hp, if_neg (by simp; omega), List.foldl_ext _ _ _ hgfold, hg2, if_neg hlim]

/-- The second-byte arm satisfies the extension relation. -/
theorem ws_second_extends (limit : Nat) :
    Websocket.StepExtends limit (fun fr => Websocket.secondByteStep fr limit) := by
  intro fr ext
  by_cases h1 : 1 < fr.buf.length
  · have hg1 : (fr.buf ++ ext).getD 1 0 = fr.buf.getD 1 0 :=
      List.getD_append _ _ _ _ (by omega)
    by_cases hmb : fr.buf.getD 1 0 &&& 128 = 0
    · simp only [Websocket.ExtendRel]
      have hF : Websocket.secondByteStep fr limit = .error .unmaskedClientMaessage := by
        simp only [Websocket.secondByteStep]
        rw [if_pos h1, if_pos hmb]
      rw [hF]
      simp only [Websocket.secondByteStep]
      rw [if_pos (by simp; omega), hg1, if_pos hmb]
    · by_cases hlim : limit < fr.buf.getD 1 0 &&& 127
      · simp only [Websocket.ExtendRel]
        have hF : Websocket.secondByteStep fr limit = .error .payloadLimit := by
          simp only [Websocket.secondByteStep]
          rw [if_pos h1, if_neg hmb, if_pos hlim]
        rw [hF]
        simp only [Websocket.secondByteStep]
        rw [if_pos (by simp; omega), hg1, if_neg hmb, if_pos hlim]
      · by_cases hsm : fr.buf.getD 1 0 &&& 127 < 126
        · refine ws_extends_deleg limit _ Websocket.maskingKeyStep fr
            { fr with
                payload_len := fr.buf.getD 1 0 &&& 127
                masking_key_index := 2 } ext
            (ws_maskkey_extends limit) rfl ?_ ?_
          · simp only [Websocket.secondByteStep]
            rw [if_pos h1, if_neg hmb, if_neg hlim, if_pos hsm]
          · simp only [Websocket.secondByteStep]
            rw [if_pos (by simp; omega), hg1, if_neg hmb, if_neg hlim, if_pos hsm]
        · refine ws_extends_deleg limit _
            (fun g => Websocket.extendedPayloadLenStep g limit) fr
            { fr with payload_len := fr.buf.getD 1 0 &&& 127 } ext
            (ws_extlen_extends limit) rfl ?_ ?_
          · simp only [Websocket.secondByteStep]
            rw [if_pos h1, if_neg hmb, if_neg hlim, if_neg hsm]
          · simp only [Websocket.secondByteStep]
            rw [if_pos (by simp; omega), hg1, if_neg hmb, if_neg hlim, if_neg hsm]
  · simp only [Websocket.ExtendRel]
    have hF : Websocket.secondByteStep fr limit =
        .ok (none, { state := .parseSecondByteWhereMaskAndPayloadLen, frame := fr }) := by
      simp only [Websocket.secondByteStep]
      rw [if_neg h1]
    rw [hF]
    exact ⟨rfl, rfl⟩

/-- The first-byte arm satisfies the extension relation. -/
theorem ws_first_extends (limit : Nat) :
    Websocket.StepExtends limit (fun fr => Websocket.firstByteStep fr limit) := by
  intro fr ext
  by_cases h0 : fr.buf = []
  · simp only [Websocket.ExtendRel]
    have hF : Websocket.firstByteStep fr limit =
        .ok (none, { state := .parseFirstByteWhereFinAndOpcode, frame := fr }) := by
      simp only [Websocket.firstByteStep]
      rw [if_neg (by simp [h0])]
    rw [hF]
    exact ⟨rfl, rfl⟩
  · have hg0 : (fr.buf ++ ext).getD 0 0 = fr.buf.getD 0 0 :=
      List.getD_append _ _ _ _ (by cases hb : fr.buf <;> simp [hb] at h0 ⊢)
    refine ws_extends_deleg limit _ (fun g => Websocket.secondByteStep g limit) fr
      { fr with
          first_byte := fr.buf.getD 0 0
          fin := decide (0 < fr.buf.getD 0 0 &&& 128)
          opcode := fr.buf.getD 0 0 &&& 15 } ext
      (ws_second_extends limit) rfl ?_ ?_
    · simp only [Websocket.firstByteStep]
      rw [if_pos (by simpa using h0)]
    · simp only [Websocket.firstByteStep]
      rw [if_pos (by simp [h0]), hg0]

/-- Every saved parser state replays as an arm satisfying the extension
relation. -/
theorem ws_dispatch_extends (limit : Nat) (st : Websocket.ParserState) :
    Websocket.StepExtends limit (fun fr => Websocket.dispatch st fr limit) := by
  cases st
  · exact ws_first_extends limit
  · exact ws_second_extends limit
  · exact ws_extlen_extends limit
  · exact ws_maskkey_extends limit
  · exact ws_load_extends limit

/-- Feeding a chunk and then more bytes: an error persists, a completed
frame persists with the surplus growing, and a stalled parser resumes as
if the bytes had arrived together. -/
theorem ws_parse_cases (limit : Nat) (p : Websocket.Parser) (c ext : List Nat) :
    (∀ e, Websocket.Parser.parse_yet p c limit = .error e →
      Websocket.Parser.parse_yet p (c ++ ext) limit = .error e) ∧
    (∀ fr2 sp p1, Websocket.Parser.parse_yet p c limit = .ok (some (fr2, sp), p1) →
      Websocket.Parser.parse_yet p (c ++ ext) limit = .ok (some (fr2, sp ++ ext), p1)) ∧
    (∀ p2, Websocket.Parser.parse_yet p c limit = .ok (none, p2) →
      Websocket.Parser.parse_yet p (c ++ ext) limit =
        Websocket.Parser.parse_yet p2 ext limit) := by
  have hd := ws_dispatch_extends limit p.state { p.frame with buf := p.frame.buf ++ c } ext
  simp only [Websocket.ExtendRel] at hd
  have hassoc : p.frame.buf ++ c ++ ext = p.frame.buf ++ (c ++ ext) := List.append_assoc _ _ _
  refine ⟨?_, ?_, ?_⟩
  · intro e he
    simp only [Websocket.Parser.parse_yet] at he ⊢
    rw [he] at hd
    rw [← hassoc]
    exact hd
  · intro fr2 sp p1 he
    simp only [Websocket.Parser.parse_yet] at he ⊢
    rw [he] at hd
    rw [← hassoc]
    exact hd
  · intro p2 he
    simp only [Websocket.Parser.parse_yet] at he ⊢
    rw [he] at hd
    rw [← hassoc]
    exact hd.2

/-- Feeding chunks one at a time agrees with feeding their concatenation:
an error on the concatenation is an error of the chunked feed, a frame
parsed from the concatenation is parsed identically by the chunked feed
(its surplus split between parsed surplus and unfed chunks), and a stall
stalls. -/
theorem ws_feed_eq (limit : Nat) :
    ∀ (cs : List (List Nat)) (p : Websocket.Parser),
      Websocket.Parser.parse_yet p [] limit = .ok (none, p) →
      (∀ e, Websocket.Parser.parse_yet p cs.flatten limit = .error e →
        Websocket.feed_until_frame limit p cs = .error e) ∧
      (∀ fr sp p1, Websocket.Parser.parse_yet p cs.flatten limit = .ok (some (fr, sp), p1) →
        ∃ sp2 rem, Websocket.feed_until_frame limit p cs = .ok (some (fr, sp2, rem), p1) ∧
          sp2 ++ rem.flatten = sp) ∧
      (∀ p1, Websocket.Parser.parse_yet p cs.flatten limit = .ok (none, p1) →
        ∃ p2, Websocket.feed_until_frame limit p cs = .ok (none, p2)) := by
  intro cs
  induction cs with
  | nil =>
    intro p hq
    refine ⟨?_, ?_, ?_⟩
    · intro e he
      simp only [List.flatten_nil] at he
      rw [hq] at he
      simp at he
    · intro fr sp p1 he
      simp only [List.flatten_nil] at he
      rw [hq] at he
      simp at he
    · intro p1 _
      exact ⟨p, rfl⟩
  | cons c cs ih =>
    intro p hq
    have hpc := ws_parse_cases limit p c cs.flatten
    rcases hres : Websocket.Parser.parse_yet p c limit with e | ⟨_ | ⟨fr, sp⟩, p2⟩
    · have hext := hpc.1 e hres
      have hfeed : Websocket.feed_until_frame limit p (c :: cs) = .error e := by
        simp only [Websocket.feed_until_frame, hres]
      refine ⟨?_, ?_, ?_⟩
      · intro e' he
        rw [List.flatten_cons] at he
        have hee := hext.symm.trans he
        simp only [Except.error.injEq] at hee
        rw [hfeed, hee]
      · intro fr sp p1 he
        rw [List.flatten_cons] at he
        have hcontr := hext.symm.trans he
        simp at hcontr
      · intro p1 he
        rw [List.flatten_cons] at he
        have hcontr := hext.symm.trans he
        simp at hcontr
    · have hresume := hpc.2.2 p2 hres
      have hq2 : Websocket.Parser.parse_yet p2 [] limit = .ok (none, p2) := by
        have h0 := (ws_parse_cases limit p c []).2.2 p2 hres
        rw [List.append_nil] at h0
        exact h0.symm.trans hres
      have ih2 := ih p2 hq2
      have hfeed : Websocket.feed_until_frame limit p (c :: cs) =
          Websocket.feed_until_frame limit p2 cs := by
        simp only [Websocket.feed_until_frame, hres]
      refine ⟨?_, ?_, ?_⟩
      · intro e he
        rw [List.flatten_cons, hresume] at he
        rw [hfeed]
        exact ih2.1 e he
      · intro fr sp p1 he
        rw [List.flatten_cons, hresume] at he
        obtain ⟨sp2, rem, hf, hsum⟩ := ih2.2.1 fr sp p1 he
        exact ⟨sp2, rem, by rw [hfeed]; exact hf, hsum⟩
      · intro p1 he
        rw [List.flatten_cons, hresume] at he
        obtain ⟨p3, hf⟩ := ih2.2.2 p1 he
        exact ⟨p3, by rw [hfeed]; exact hf⟩
    · have hext := hpc.2.1 fr sp p2 hres
      have hfeed : Websocket.feed_until_frame limit p (c :: cs) =
          .ok (some (fr, sp, cs), p2) := by
        simp only [Websocket.feed_until_frame, hres]
      refine ⟨?_, ?_, ?_⟩
      · intro e he
        rw [List.flatten_cons] at he
        have hcontr := hext.symm.trans he
        simp at hcontr
      · intro fr' sp' p1 he
        rw [List.flatten_cons] at he
        have hinj := hext.symm.trans he
        simp only [Except.ok.injEq, Prod.mk.injEq, Option.some.injEq] at hinj
        obtain ⟨⟨hfr, hsp⟩, hp⟩ := hinj
        refine ⟨sp, cs, ?_, ?_⟩
        · rw [hfeed, hfr, hp]
        · rw [← hsp]
      · intro p1 he
        rw [List.flatten_cons] at he
        have hcontr := hext.symm.trans he
        simp at hcontr

/-- The digit-only branch of parseUsize (no sign stripped or a plus
stripped): it succeeds exactly on a nonempty digit string within
usize::MAX. -/
theorem parseUsize_digit_branch (ds : List Nat) :
    ((if ds = [] then none
      else if ds.all (fun b => decide (48 ≤ b) && decide (b ≤ 57)) then
        (if digitsVal ds ≤ 2 ^ 64 - 1 then some (digitsVal ds) else none)
      else none) : Option Nat).isSome = true ↔
    ds ≠ [] ∧ (∀ b ∈ ds, 48 ≤ b ∧ b ≤ 57) ∧ digitsVal ds ≤ 2 ^ 64 - 1 := by
  by_cases hne : ds = []
  · simp [hne]
  · by_cases hall : ds.all (fun b => decide (48 ≤ b) && decide (b ≤ 57)) = true
    · have hdig : ∀ b ∈ ds, 48 ≤ b ∧ b ≤ 57 := by
        intro b hb
        have := List.all_eq_true.mp hall b hb
        simpa using this
      by_cases hval : digitsVal ds ≤ 2 ^ 64 - 1
      · constructor
        · intro _
          exact ⟨hne, hdig, hval⟩
        · intro _
          have hval2 : digitsVal ds ≤ 18446744073709551615 := by simpa using hval
          simp [hne, hall, hval2]
      · constructor
        · intro h
          have hval2 : ¬ digitsVal ds ≤ 18446744073709551615 := by simpa using hval
          simp [hne, hall, hval2] at h
        · rintro ⟨-, -, hc⟩
          exact absurd hc hval
    · have : ¬ ∀ b ∈ ds, 48 ≤ b ∧ b ≤ 57 := by
        intro hdig
        exact hall (List.all_eq_true.mpr fun b hb => by simp [(hdig b hb).1, (hdig b hb).2])
      simp [hne, hall, this]

/-- Characterization of Rust usize parsing: a value parses exactly when it
has one of the accepted shapes. -/
theorem parseUsize_isSome_iff (v : List Nat) :
    (parseUsize v).isSome = true ↔ RustUsizeShape v := by
  cases v with
  | nil =>
    simp only [parseUsize, Option.isSome]
    constructor
    · intro h; cases h
    · rintro ⟨ds, hshape, hne, _⟩
      rcases hshape with h | h <;> cases h
      exact absurd rfl hne
  | cons c rest =>
    by_cases hc43 : c = 43
    · subst hc43
      have hred : parseUsize (43 :: rest) =
          (if rest = [] then none
           else if rest.all (fun b => decide (48 ≤ b) && decide (b ≤ 57)) then
             (if digitsVal rest ≤ 2 ^ 64 - 1 then some (digitsVal rest) else none)
           else none) := by
        simp [parseUsize]
      rw [hred, parseUsize_digit_branch]
      constructor
      · rintro ⟨hne, hdig, hval⟩
        exact ⟨rest, Or.inr rfl, hne, hdig, hval⟩
      · rintro ⟨ds, hshape, hne, hdig, hval⟩
        rcases hshape with h | h
        · subst h
          have := hdig 43 (by simp)
          omega
        · obtain rfl : rest = ds := by injection h
          exact ⟨hne, hdig, hval⟩
    · have hred : parseUsize (c :: rest) =
          (if (c :: rest) = [] then none
           else if (c :: rest).all (fun b => decide (48 ≤ b) && decide (b ≤ 57)) then
             (if digitsVal (c :: rest) ≤ 2 ^ 64 - 1 then some (digitsVal (c :: rest)) else none)
           else none) := by
        simp [parseUsize, hc43]
      rw [hred, parseUsize_digit_branch]
      constructor
      · rintro ⟨hne, hdig, hval⟩
        exact ⟨c :: rest, Or.inl rfl, hne, hdig, hval⟩
      · rintro ⟨ds, hshape, hne, hdig, hval⟩
        rcases hshape with h | h
        · subst h
          exact ⟨hne, hdig, hval⟩
        · exact absurd (show c = 43 by injection h) hc43

/-- Behaviour of the web_session.rs body reader on a chunk stream that
carries at least the remaining declared length: the deliveries cover
exactly the remaining bytes in wire order, the completion handle is the
request slot exactly on the last call, and the surplus plus the unread
chunks are exactly the stream past the declared length. -/
theorem body_feed_spec :
    ∀ (chunks : List (List Nat)) (content_len already : Nat) (held : Bool),
      already < content_len → content_len - already ≤ chunks.flatten.length →
      ∃ calls surplus rem,
        WebSession.body_feed ⟨content_len, already⟩ held chunks = (calls, some surplus, rem) ∧
        (calls.map (fun c => c.bytes)).flatten = chunks.flatten.take (content_len - already) ∧
        surplus ++ rem.flatten = chunks.flatten.drop (content_len - already) ∧
        calls ≠ [] ∧
        calls.map (fun c => c.completion) = List.replicate (calls.length - 1) false ++ [held] := by
  intro chunks
  induction chunks with
  | nil =>
    intro content_len already held h1 h2
    exfalso
    simp at h2
    omega
  | cons d rest ih =>
    intro content_len already held h1 h2
    by_cases hc : content_len - already ≤ d.length
    · -- the current chunk completes the body
      have hmid : min (content_len - already) d.length = content_len - already :=
        Nat.min_eq_left hc
      have hcond : content_len ≤ already + min (content_len - already) d.length := by
        rw [hmid]
        omega
      have hcond2 : content_len ≤ already + (content_len - already) := by omega
      refine ⟨[{ bytes := d.take (content_len - already),
                 completion := held }], d.drop (content_len - already), rest, ?_, ?_, ?_, ?_, ?_⟩
      · simp only [WebSession.body_feed, WebSession.read_content_step, List.length_take]
        simp [hcond, hmid, hcond2]
      · simp only [List.map_cons, List.map_nil, List.flatten_cons, List.flatten_nil,
          List.append_nil]
        rw [List.take_append_of_le_length hc]
      · simp only [List.flatten_cons]
        rw [List.drop_append_of_le_length hc]
      · simp
      · simp
    · -- the current chunk is consumed whole and the body continues
      have hd : d.length < content_len - already := Nat.lt_of_not_le hc
      have hmid : min (content_len - already) d.length = d.length :=
        Nat.min_eq_right (Nat.le_of_lt hd)
      have hcond3 : ¬ content_len ≤ already + d.length := by omega
      have h1q : already + d.length < content_len := by omega
      have h2q : content_len - (already + d.length) ≤ rest.flatten.length := by
        simp only [List.flatten_cons, List.length_append] at h2
        omega
      obtain ⟨calls, surplus, rem, heq, hjoin, hsurp, hne, hcompl⟩ :=
        ih content_len (already + d.length) held h1q h2q
      refine ⟨{ bytes := d, completion := false } :: calls, surplus, rem, ?_, ?_, ?_, ?_, ?_⟩
      · simp only [WebSession.body_feed, WebSession.read_content_step, List.length_take,
          hmid, min_self, List.take_length]
        simp only [hcond3, if_neg, if_false]
        rw [heq]
        simp
      · simp only [List.map_cons, List.flatten_cons]
        rw [hjoin, List.take_append_eq_append_take,
          List.take_of_length_le (show d.length ≤ content_len - already by omega)]
        congr 2
        omega
      · simp only [List.flatten_cons]
        rw [List.drop_append_eq_append_drop,
          List.drop_of_length_le (show d.length ≤ content_len - already by omega),
          List.nil_append]
        rw [hsurp]
        congr 1
        omega
      · simp
      · have hlen : 1 ≤ calls.length := by
          cases calls with
          | nil => exact absurd rfl hne
          | cons a t => simp
        simp only [List.map_cons, hcompl, List.length_cons]
        rw [show calls.length + 1 - 1 = (calls.length - 1) + 1 by omega]
        rw [List.replicate_succ]
        simp

/-- Sum of a prefix of a list of naturals is at most the whole sum. -/
theorem sum_take_le (l : List Nat) (i : Nat) : (l.take i).sum ≤ l.sum := by
  conv_rhs => rw [← List.take_append_drop i l]
  rw [List.sum_append]
  omega

/-! Claim theorems. -/

/-- C2: for every request with a registered body-chunk callback and
declared Content-Length, over any chunked stream carrying at least that
many bytes the web_session.rs body reader delivers slices whose lengths
sum to exactly the declared length (in wire order, the deliveries being
the first content_len bytes of the stream), never delivers past the
declared length (every prefix of deliveries stays within it), passes the
non-null completion handle exactly on the last call, and feeds the bytes
beyond the declared length (the completion surplus plus unread chunks)
back as the start of the next pipelined request; and content_loader.rs
ContentLoader::load_yet splits the accumulated bytes into exactly the
declared content and the surplus. -/
theorem body_reader_invariants :
    ∀ (content_len : Nat) (chunks : List (List Nat)),
      0 < content_len → content_len ≤ chunks.flatten.length →
      (∃ calls surplus rem,
        WebSession.body_feed ⟨content_len, 0⟩ true chunks = (calls, some surplus, rem) ∧
        (calls.map (fun c => c.bytes.length)).sum = content_len ∧
        (calls.map (fun c => c.bytes)).flatten = chunks.flatten.take content_len ∧
        (∀ i, ((calls.take i).map (fun c => c.bytes.length)).sum ≤ content_len) ∧
        calls.map (fun c => c.completion) = List.replicate (calls.length - 1) false ++ [true] ∧
        surplus ++ rem.flatten = chunks.flatten.drop content_len) ∧
      (ContentLoader.new content_len).load_yet chunks.flatten =
        (some (chunks.flatten.take content_len, chunks.flatten.drop content_len),
         { buf := [], content_len := content_len }) := by
  intro content_len chunks hpos hlen
  constructor
  · obtain ⟨calls, surplus, rem, heq, hjoin, hsurp, hne, hcompl⟩ :=
      body_feed_spec chunks content_len 0 true hpos (by simpa using hlen)
    simp only [Nat.sub_zero] at hjoin hsurp
    have hsum : (calls.map (fun c => c.bytes.length)).sum = content_len := by
      have hl : (calls.map (fun c => c.bytes)).flatten.length =
          (chunks.flatten.take content_len).length := by rw [hjoin]
      rw [List.length_flatten, List.map_map, List.length_take] at hl
      have hl2 : (calls.map (fun c => c.bytes.length)).sum =
          min content_len chunks.flatten.length := hl
      omega
    refine ⟨calls, surplus, rem, heq, hsum, hjoin, ?_, hcompl, hsurp⟩
    intro i
    calc ((calls.take i).map (fun c => c.bytes.length)).sum
        = ((calls.map (fun c => c.bytes.length)).take i).sum := by rw [List.map_take]
      _ ≤ (calls.map (fun c => c.bytes.length)).sum := sum_take_le _ _
      _ = content_len := hsum
  · have hge : content_len ≤ (chunks.map List.length).sum := by
      rw [← List.length_flatten]
      exact hlen
    simp [ContentLoader.new, ContentLoader.load_yet, Nat.not_lt.mpr hge]

/-- C2 witness: the content loader split at declared length 2 over the
chunks [1] and [2, 3]. -/
theorem body_reader_invariants_witness :
    (ContentLoader.new 2).load_yet ([[1], [2, 3]] : List (List Nat)).flatten =
      (some ([1, 2], [3]), { buf := [], content_len := 2 }) :=
  (body_reader_invariants 2 [[1], [2, 3]] (by decide) (by decide)).2

/-- C3: for every parsed request, the close-after-response decision of
response.rs need_close_by_request, of connection.rs
need_close_by_version_and_connection, and of the default (no builder
override) path of Response::try_send equals the four-cell policy table of
spec section 4.4: Connection close closes after drain, Connection
keep-alive reuses, HTTP/1.0 without a Connection header closes, HTTP/1.1
without one reuses. -/
theorem keep_alive_policy_table :
    ∀ (r : RequestData),
      Response.need_close_by_request r = close_policy r.connection_type r.version ∧
      Connection.need_close_by_version_and_connection r = close_policy r.connection_type r.version ∧
      Response.try_send_need_close none r = close_policy r.connection_type r.version := by
  intro r
  obtain ⟨raw, me, pis, qis, v, hs, ct, cl, dp⟩ := r
  rcases ct with _ | c
  · cases v <;> exact ⟨rfl, rfl, rfl⟩
  · cases c <;> cases v <;> exact ⟨rfl, rfl, rfl⟩

/-- C5: a websocket frame whose second byte has the mask bit clear makes
the frame parser return UnmaskedClientMaessage (and no frame is ever
delivered), and a frame with the mask bit set is never rejected for
masking reasons. -/
theorem unmasked_client_frame_rejected :
    ∀ (b0 b1 : Nat) (rest : List Nat) (payload_limit : Nat),
      (b1 &&& 128 = 0 →
        Websocket.Parser.new.parse_yet (b0 :: b1 :: rest) payload_limit =
          .error .unmaskedClientMaessage) ∧
      (b1 &&& 128 ≠ 0 →
        Websocket.Parser.new.parse_yet (b0 :: b1 :: rest) payload_limit ≠
          .error .unmaskedClientMaessage) := by
  intro b0 b1 rest payload_limit
  have hbuf : (Websocket.ParsedFrame.new.buf ++ (b0 :: b1 :: rest)) = b0 :: b1 :: rest := rfl
  have hred : Websocket.Parser.new.parse_yet (b0 :: b1 :: rest) payload_limit =
      Websocket.secondByteStep
        { Websocket.ParsedFrame.new with
          buf := b0 :: b1 :: rest
          first_byte := b0
          fin := decide (0 < b0 &&& 128)
          opcode := b0 &&& 15 } payload_limit := by
    simp [Websocket.Parser.parse_yet, Websocket.Parser.new, Websocket.dispatch,
      Websocket.firstByteStep, Websocket.ParsedFrame.new]
  constructor
  · intro h0
    rw [hred]
    simp only [Websocket.secondByteStep]
    have hlen : 1 < (b0 :: b1 :: rest).length := by simp
    rw [if_pos hlen]
    have hgd : (b0 :: b1 :: rest).getD 1 0 = b1 := rfl
    simp [hgd, h0]
  · intro h0
    rw [hred]
    exact ws_second_ne_unmasked _ _ (by simpa using h0)

/-- C5 witness: the rejection at a concrete unmasked text frame. -/
theorem unmasked_client_frame_rejected_witness :
    Websocket.Parser.new.parse_yet (129 :: 12 :: []) 100 =
      .error .unmaskedClientMaessage :=
  (unmasked_client_frame_rejected 129 12 [] 100).1 (by decide)

/-- C6: with a declared content length of zero, request.rs
Request::read_content makes the terminal call immediately and
synchronously with an empty slice and a non-null completion handle,
exactly once, and installs nothing in the session content slot (so the
body-reading path can never call again); with a nonzero length it makes no
immediate call and installs the callback. -/
theorem zero_length_body_immediate :
    Request.read_content 0 =
      { immediate_calls := [{ bytes := [], completion := true }], installed := false } ∧
    ∀ content_len : Nat, content_len ≠ 0 →
      Request.read_content content_len = { immediate_calls := [], installed := true } := by
  constructor
  · rfl
  · intro content_len h
    simp [Request.read_content, h]

/-- C6 witness: the nonzero arm at a concrete length. -/
theorem zero_length_body_immediate_witness :
    Request.read_content 5 = { immediate_calls := [], installed := true } :=
  zero_length_body_immediate.2 5 (by decide)

/-- C7 (code bug): on the repository's own test input
GET /index HTTP/1.1 the parse succeeds with raw path bytes /index, whose
percent-decoding succeeds and is nonempty, yet the decoded path field is
the empty string: decoded_path is initialized empty by RequestData::new
and never assigned anywhere, so RequestData::path() always returns "",
contradicting the spec and the assertions request.path() == "/index" in
the repository's request_parser.rs tests. -/
theorem decoded_path_never_assigned :
    (RequestParser.Parser.new.parse_yet (asciiBytes "GET /index HTTP/1.1\r\n\r\n")
        RequestParser.ParseHttpRequestSettings.default).1 = .ok [] ∧
    (RequestParser.Parser.new.parse_yet (asciiBytes "GET /index HTTP/1.1\r\n\r\n")
        RequestParser.ParseHttpRequestSettings.default).2.request.path = "" ∧
    (RequestParser.Parser.new.parse_yet (asciiBytes "GET /index HTTP/1.1\r\n\r\n")
        RequestParser.ParseHttpRequestSettings.default).2.request.raw_path =
      asciiBytes "/index" ∧
    percent_decode_bytes (asciiBytes "/index") = asciiBytes "/index" ∧
    isValidUtf8 (asciiBytes "/index") = true ∧
    asciiBytes "/index" ≠ asciiBytes "" := by
  refine ⟨by decide, by decide, by decide, by decide, by decide, by decide⟩

/-- C8 counterexample: the Content-Length value +5 has a non-digit first
byte, which the claim says must fail with ContentLengthParseError, yet
header_is_content_length accepts it with value 5 (Rust str::parse for
unsigned integers accepts one leading plus sign). -/
theorem content_length_plus_sign_accepted :
    header_is_content_length
      { name := asciiBytes "Content-Length", value := asciiBytes "+5" } = .ok (some 5) ∧
    ¬ (48 ≤ (asciiBytes "+5").getD 0 0 ∧ (asciiBytes "+5").getD 0 0 ≤ 57) := by
  exact ⟨by decide, by decide⟩

/-- C8 (amended): for every header named Content-Length, parsing fails
with ContentLengthParseError exactly when the value does not have Rust
unsigned-integer shape: one or more ASCII digits, optionally preceded by
one plus sign, whose numeric value does not exceed usize::MAX =
2^64 - 1 (a minus sign is never stripped for an unsigned target, so any
minus-prefixed value fails).  In particular +123 is accepted and 1a is
rejected, unlike the first-byte-only rule of the claim. -/
theorem content_length_parse_characterization :
    ∀ (h : Header), h.name = asciiBytes "Content-Length" →
      (header_is_content_length h = .error .contentLengthParseError ↔
        ¬ RustUsizeShape h.value) := by
  intro h hname
  rw [← parseUsize_isSome_iff]
  unfold header_is_content_length
  rw [if_pos hname]
  cases hp : parseUsize h.value <;> simp [hp, Option.isSome]

/-- C8 witness: the characterization applied at the Content-Length header
with value +5. -/
theorem content_length_parse_characterization_witness :
    header_is_content_length
        { name := asciiBytes "Content-Length", value := asciiBytes "+5" } =
      .error .contentLengthParseError ↔ ¬ RustUsizeShape (asciiBytes "+5") :=
  content_length_parse_characterization
    { name := asciiBytes "Content-Length", value := asciiBytes "+5" } (by decide)

/-- C9 counterexample: for the unknown code 599 the status text is empty
and the status line is just the version, a space and CR-LF; the numeric
code is not preserved (the line does not contain the bytes 599, and is
identical to the line of the different unknown code 598). -/
theorem unknown_status_code_dropped :
    Response.http_status_code_with_name 599 = "" ∧
    Response.status_line .http1_1 599 = "HTTP/1.1 \r\n" ∧
    bytes_contains (asciiBytes (Response.status_line .http1_1 599)) (asciiBytes "599") = false ∧
    Response.status_line .http1_1 599 = Response.status_line .http1_1 598 := by
  exact ⟨by decide, by decide, by decide, by decide⟩

/-- C9 (amended): the status line is the request HTTP version followed by
the table text for the code; for a code in the table the line contains the
numeric code and its name (every table text begins with its code), and for
an unknown code the status text is empty and the numeric code is omitted,
the line being just the version, a space and CR-LF. -/
theorem status_line_characterization :
    ∀ (version : HttpVersion) (code : Nat),
      (∀ name, (code, name) ∈ Response.HTTP_CODES_WITH_NAME_BY_CODE →
        Response.status_line version code =
          version.to_string_for_response ++ " " ++ name ++ "\r\n" ∧
        (asciiBytes (toString code ++ " ")).isPrefixOf (asciiBytes name) = true) ∧
      ((∀ p ∈ Response.HTTP_CODES_WITH_NAME_BY_CODE, p.1 ≠ code) →
        Response.status_line version code =
          version.to_string_for_response ++ " " ++ "\r\n") := by
  intro version code
  constructor
  · intro name hmem
    have hfind := find_code_of_mem Response.HTTP_CODES_WITH_NAME_BY_CODE http_codes_nodup hmem
    constructor
    · unfold Response.status_line Response.http_status_code_with_name
      rw [hfind]
    · exact List.all_eq_true.mp http_codes_text_starts_with_code (code, name) hmem
  · intro hnone
    have hfind : Response.HTTP_CODES_WITH_NAME_BY_CODE.find? (fun p => p.1 = code) = none := by
      apply List.find?_eq_none.mpr
      intro p hp
      simp [hnone p hp]
    unfold Response.status_line Response.http_status_code_with_name
    rw [hfind]
    simp

/-- C9 witness: the characterization applied at code 200 and at the
unknown code 599. -/
theorem status_line_characterization_witness :
    Response.status_line .http1_1 200 = "HTTP/1.1" ++ " " ++ "200 OK" ++ "\r\n" ∧
    Response.status_line .http1_1 599 = "HTTP/1.1" ++ " " ++ "\r\n" :=
  ⟨((status_line_characterization .http1_1 200).1 "200 OK" (by decide)).1,
   (status_line_characterization .http1_1 599).2 (by decide)⟩

/-- C10: when a socket read returns zero bytes (the peer closed the
connection), both web_session.rs WebSession::read_stream and
connection.rs Connection::on_read_ready close the session without
invoking the HTTP or WebSocket error callback and without feeding any
bytes to the protocol state machine. -/
theorem peer_close_without_callback :
    ∀ (read_buf : List Nat),
      WebSession.read_stream_dispatch (.ok 0) read_buf =
        { closed := true, error_callback_invoked := false, bytes_fed := [] } ∧
      Connection.on_read_ready_dispatch (.ok 0) read_buf =
        { closed := true, error_callback_invoked := false, bytes_fed := [] } :=
  fun _ => ⟨rfl, rfl⟩

/-- Setting the mask bit does not change the header length. -/
theorem setMaskBit_length (l : List Nat) : (setMaskBit l).length = l.length := by
  cases l <;> rfl

/-- C4: the serializer websocket.rs frame emits the first byte with FIN
set and the minimal length encoding with the mask bit clear, and a valid
masked client frame parses back — in one call, or split across any chunk
boundaries — to the same frame, whose decoded payload is exactly the
payload that frame(opcode, payload) would serialize, with the bytes past
the frame returned as surplus. -/
theorem websocket_frame_roundtrip
    (opcode fb limit : Nat) (mask payload rest : List Nat) (cs : List (List Nat))
    (hm : mask.length = 4) (hlen : payload.length < 2 ^ 64) (hlim : payload.length ≤ limit)
    (hcs : cs.flatten = maskedClientFrame fb mask payload ++ rest) :
    (Websocket.frame opcode payload =
        (opcode ||| 128) :: (wsLenHdr payload.length ++ payload) ∧
      (opcode ||| 128).testBit 7 = true ∧
      (wsLenHdr payload.length).headD 0 &&& 128 = 0) ∧
    (∃ fr : Websocket.ParsedFrame,
      Websocket.ParsedFrame.payload fr = payload ∧
      fr.fin = decide (0 < fb &&& 128) ∧
      fr.opcode = fb &&& 15 ∧
      Websocket.Parser.parse_yet Websocket.Parser.new
          (maskedClientFrame fb mask payload ++ rest) limit =
        .ok (some (fr, rest), Websocket.Parser.new) ∧
      ∃ sp2 rem, Websocket.feed_until_frame limit Websocket.Parser.new cs =
          .ok (some (fr, sp2, rem), Websocket.Parser.new) ∧
        sp2 ++ rem.flatten = rest) := by
  have hsingle := ws_single_shot fb mask payload rest limit hm hlen hlim
  refine ⟨⟨ws_frame_shape opcode payload hlen, ?_, ?_⟩, ?_⟩
  · rw [Nat.testBit_lor]
    rw [show Nat.testBit 128 7 = true from by decide]
    exact Bool.or_true _
  · rcases Nat.lt_or_ge payload.length 126 with h1 | h1
    · rw [wsLenHdr, if_pos h1]
      exact (ws_second_byte_bits payload.length (by omega)).2.2
    · by_cases h2 : payload.length ≤ 65535
      · rw [wsLenHdr, if_neg (by omega), if_pos h2]
        exact (show (126 : Nat) &&& 128 = 0 from by decide)
      · rw [wsLenHdr, if_neg (by omega), if_neg h2]
        exact (show (127 : Nat) &&& 128 = 0 from by decide)
  · refine ⟨_, ?_, rfl, rfl, hsingle, ?_⟩
    · simp only [Websocket.ParsedFrame.payload]
      have hpre : ((fb :: setMaskBit (wsLenHdr payload.length)) ++ mask).length =
          1 + (wsLenHdr payload.length).length + 4 := by
        simp [setMaskBit_length, hm]
        omega
      rw [List.drop_left' hpre, List.take_length]
    · have hq : Websocket.Parser.parse_yet Websocket.Parser.new [] limit =
          .ok (none, Websocket.Parser.new) := rfl
      obtain ⟨sp2, rem, hf, hsum⟩ :=
        (ws_feed_eq limit cs Websocket.Parser.new hq).2.1 _ rest Websocket.Parser.new
          (by rw [hcs]; exact hsingle)
      exact ⟨sp2, rem, hf, hsum⟩

/-- Witness: the text frame with payload "hi" masked with key 1,2,3,4,
fed in two chunks, parses to a frame whose decoded payload is "hi" with
no surplus. -/
theorem websocket_frame_roundtrip_witness :
    ∃ fr : Websocket.ParsedFrame, ∃ sp2 rem,
      Websocket.ParsedFrame.payload fr = [104, 105] ∧
      Websocket.feed_until_frame 125 Websocket.Parser.new
          [[129, 130, 1], [2, 3, 4, 105, 107]] =
        .ok (some (fr, sp2, rem), Websocket.Parser.new) ∧
      sp2 ++ rem.flatten = [] := by
  obtain ⟨hA, fr, hpay, hfin, hop, hsingle, sp2, rem, hfeed, hsum⟩ :=
    websocket_frame_roundtrip 1 129 125 [1, 2, 3, 4] [104, 105] []
      [[129, 130, 1], [2, 3, 4, 105, 107]] rfl (by norm_num) (by norm_num) (by decide)
  exact ⟨fr, sp2, rem, hpay, hfeed, hsum⟩

namespace RequestParser

/-- A run of bytes each of which continues the loop in the same state
with the same record advances the position by the run length. -/
theorem scanGo_run (ps : ParseHttpRequestSettings) (buf : List Nat) :
    ∀ (bs rest : List Nat) (i : Nat) (st : ParseState) (r : RequestData),
      (∀ j b, bs.get? j = some b → scanStep ps st r buf (i + j) b = .cont st r) →
      scanGo ps buf (bs ++ rest) i st r = scanGo ps buf rest (i + bs.length) st r := by
  intro bs
  induction bs with
  | nil =>
    intro rest i st r _
    simp
  | cons b bs ih =>
    intro rest i st r hstep
    have h0 : scanStep ps st r buf i b = .cont st r := by
      have := hstep 0 b rfl
      simpa using this
    simp only [List.cons_append, scanGo, h0, List.append_eq]
    rw [ih rest (i + 1) st r (fun j b2 hj => by
      have := hstep (j + 1) b2 (by simpa using hj)
      rw [show i + (j + 1) = i + 1 + j from by omega] at this
      exact this)]
    have hidx : i + 1 + bs.length = i + (b :: bs).length := by
      simp only [List.length_cons]
      omega
    rw [hidx]

/-- A method byte continues the Method state. -/
theorem step_method_byte (ps : ParseHttpRequestSettings) (r : RequestData) (buf : List Nat)
    (i b : Nat) (h32 : b ≠ 32) (h10 : b ≠ 10) (hlim : i < ps.method_len_limit) :
    scanStep ps .method r buf i b = .cont .method r := by
  simp [scanStep, h32, h10]
  omega

/-- The space after the method records the method end and starts the
path. -/
theorem step_method_space (ps : ParseHttpRequestSettings) (r : RequestData) (buf : List Nat)
    (i : Nat) :
    scanStep ps .method r buf i 32 = .cont (.path (i + 1)) { r with method_end_index := i } := by
  simp [scanStep]

/-- A path byte continues the Path state. -/
theorem step_path_byte (ps : ParseHttpRequestSettings) (r : RequestData) (buf : List Nat)
    (i b pstart : Nat) (h32 : b ≠ 32) (h10 : b ≠ 10) (h63 : b ≠ 63)
    (hlim : i - pstart < ps.path_len_limit) :
    scanStep ps (.path pstart) r buf i b = .cont (.path pstart) r := by
  simp [scanStep, h32, h10, h63]
  omega

/-- The space after the path records the path slice and starts the
version. -/
theorem step_path_space (ps : ParseHttpRequestSettings) (r : RequestData) (buf : List Nat)
    (i pstart : Nat) :
    scanStep ps (.path pstart) r buf i 32 =
      .cont (.version (i + 1)) { r with path_indices := (pstart, i) } := by
  simp [scanStep]

/-- The question mark after the path records the path slice and starts
the query. -/
theorem step_path_qmark (ps : ParseHttpRequestSettings) (r : RequestData) (buf : List Nat)
    (i pstart : Nat) :
    scanStep ps (.path pstart) r buf i 63 =
      .cont (.query (i + 1)) { r with path_indices := (pstart, i) } := by
  simp [scanStep]

/-- A query byte continues the Query state. -/
theorem step_query_byte (ps : ParseHttpRequestSettings) (r : RequestData) (buf : List Nat)
    (i b qstart : Nat) (h32 : b ≠ 32) (h10 : b ≠ 10)
    (hlim : i - qstart < ps.query_len_limit) :
    scanStep ps (.query qstart) r buf i b = .cont (.query qstart) r := by
  simp [scanStep, h32, h10]
  omega

/-- The space after the query records the query slice and starts the
version. -/
theorem step_query_space (ps : ParseHttpRequestSettings) (r : RequestData) (buf : List Nat)
    (i qstart : Nat) :
    scanStep ps (.query qstart) r buf i 32 =
      .cont (.version (i + 1)) { r with raw_query_indices := (qstart, i) } := by
  simp [scanStep]

/-- A version byte (not LF, within the nine scanned positions) continues
the Version state. -/
theorem step_version_byte (ps : ParseHttpRequestSettings) (r : RequestData) (buf : List Nat)
    (i b vstart : Nat) (h10 : b ≠ 10) (hlim : i - vstart ≤ 8) :
    scanStep ps (.version vstart) r buf i b = .cont (.version vstart) r := by
  simp [scanStep, h10]
  omega

/-- The LF closing the request line parses the eight version bytes before
the CR and starts the headers. -/
theorem step_version_lf (ps : ParseHttpRequestSettings) (r : RequestData) (buf : List Nat)
    (vstart : Nat) (ver : HttpVersion)
    (hslice : (buf.drop vstart).take 8 = versionBytes ver) :
    scanStep ps (.version vstart) r buf (vstart + 9) 10 =
      .cont (.header (vstart + 10) 0) { r with version := ver } := by
  have h8 : vstart + 9 - 1 - vstart = 8 := by omega
  simp only [scanStep, h8, hslice, if_pos rfl]
  cases ver <;> simp [version_from_data, versionBytes, asciiBytes]

/-- The whole request-line version phase: the eight version bytes, CR and
LF advance to the header phase. -/
theorem scan_version_phase (ps : ParseHttpRequestSettings) (buf : List Nat)
    (rest : List Nat) (vstart : Nat) (r : RequestData) (ver : HttpVersion)
    (hslice : (buf.drop vstart).take 8 = versionBytes ver) :
    scanGo ps buf (versionBytes ver ++ [13, 10] ++ rest) vstart (.version vstart) r =
      scanGo ps buf rest (vstart + 10) (.header (vstart + 10) 0) { r with version := ver } := by
  have hlen9 : (versionBytes ver ++ [13]).length = 9 := by cases ver <;> rfl
  have hrun : scanGo ps buf ((versionBytes ver ++ [13]) ++ (10 :: rest)) vstart
      (.version vstart) r =
      scanGo ps buf (10 :: rest) (vstart + 9) (.version vstart) r := by
    rw [scanGo_run ps buf (versionBytes ver ++ [13]) (10 :: rest) vstart (.version vstart) r
      (by
        intro j b hj
        have hjlt : j < 9 := by
          by_contra hge
          rw [List.get?_eq_none.2 (by omega)] at hj
          cases hj
        refine step_version_byte ps r buf _ _ _ ?_ (by omega)
        intro hb10
        subst hb10
        revert hj
        cases ver <;> (interval_cases j <;> simp [versionBytes, asciiBytes]))]
    rw [hlen9]
  rw [show versionBytes ver ++ [13, 10] ++ rest =
      (versionBytes ver ++ [13]) ++ (10 :: rest) from by simp]
  rw [hrun]
  simp only [scanGo]
  rw [step_version_lf ps r buf vstart ver hslice]

/-- Indexing after a drop. -/
theorem getD_drop_nat (l : List Nat) (n m : Nat) :
    (l.drop n).getD m 0 = l.getD (n + m) 0 := by
  rw [List.getD_eq_getElem?_getD, List.getElem?_drop, ← List.getD_eq_getElem?_getD]

/-- A header-name byte continues the line with no separator seen. -/
theorem step_header_name_byte (ps : ParseHttpRequestSettings) (r : RequestData)
    (buf : List Nat) (i b t : Nat) (h10 : b ≠ 10) (h58 : b ≠ 58)
    (hlim : i - t ≤ ps.header_name_len_limit) :
    scanStep ps (.header t 0) r buf i b = .cont (.header t 0) r := by
  have hnl : ¬ ps.header_name_len_limit < i - t := by omega
  simp [scanStep, scanStepHeader, h10, h58, hnl]

/-- The colon after a nonempty name records the separator position. -/
theorem step_header_colon (ps : ParseHttpRequestSettings) (r : RequestData)
    (buf : List Nat) (i t : Nat) (hcount : r.headers.length < ps.headers_count_limit)
    (hgt : t < i) (hlim : i - t ≤ ps.header_name_len_limit) :
    scanStep ps (.header t 0) r buf i 58 = .cont (.header t i) r := by
  have hnl : ¬ ps.header_name_len_limit < i - t := by omega
  have hnc : ¬ ps.headers_count_limit ≤ r.headers.length := by omega
  have hni : ¬ i ≤ t := by omega
  simp [scanStep, scanStepHeader, hnl, hnc, hni]

/-- A value byte (or the space after the colon, or the CR) continues the
line once the separator is recorded. -/
theorem step_header_value_byte (ps : ParseHttpRequestSettings) (r : RequestData)
    (buf : List Nat) (i b t sep : Nat) (h10 : b ≠ 10) (hsep : sep ≠ 0)
    (hlim : i - sep ≤ ps.header_value_len_limit + 2) :
    scanStep ps (.header t sep) r buf i b = .cont (.header t sep) r := by
  have hnv : ¬ ps.header_value_len_limit + 2 < i - sep := by omega
  simp [scanStep, scanStepHeader, h10, hsep, hnv]

/-- The LF closing a header line accepts it: the name before the colon,
the value after the colon-space, and the derived connection type and
content length. -/
theorem step_header_lf_accept (ps : ParseHttpRequestSettings) (r : RequestData)
    (buf : List Nat) (name value tail : List Nat) (t : Nat) (new_cl : Option Nat)
    (hbt : buf.drop t = name ++ [58, 32] ++ value ++ ([13, 10] ++ tail))
    (hname : name ≠ []) (hvalue : value ≠ [])
    (hv10 : ∀ b ∈ value, b ≠ 10)
    (hvlim : value.length + 1 ≤ ps.header_value_len_limit)
    (hu1 : isValidUtf8 name = true) (hu2 : isValidUtf8 value = true)
    (hder : (if r.content_len.isNone then header_is_content_length ⟨name, value⟩
        else .ok r.content_len) = .ok new_cl) :
    scanStep ps (.header t (t + name.length)) r buf
        (t + name.length + value.length + 3) 10 =
      .cont (.header (t + name.length + value.length + 4) 0)
        { r with
            headers := r.headers ++ [⟨name, value⟩]
            connection_type :=
              if r.connection_type.isNone then header_is_connection_type ⟨name, value⟩
              else r.connection_type
            content_len := new_cl } := by
  have hn1 : 1 ≤ name.length := by
    cases name
    · exact absurd rfl hname
    · simp
  have hv1 : 1 ≤ value.length := by
    cases value
    · exact absurd rfl hvalue
    · simp
  have hA : buf.drop t = name ++ ([58, 32] ++ (value ++ ([13, 10] ++ tail))) := by
    rw [hbt]
    simp
  have hB : buf.drop (t + name.length) = [58, 32] ++ (value ++ ([13, 10] ++ tail)) := by
    rw [← List.drop_drop, hA, List.drop_left]
  have hC : buf.drop (t + name.length + 2) = value ++ ([13, 10] ++ tail) := by
    rw [show t + name.length + 2 = (t + name.length) + 2 from rfl, ← List.drop_drop, hB]
    rfl
  have hD : buf.drop (t + name.length + 2 + value.length) = [13, 10] ++ tail := by
    rw [← List.drop_drop, hC, List.drop_left]
  have hsp : buf.getD (t + name.length + 1) 0 = 32 := by
    rw [show t + name.length + 1 = (t + name.length) + 1 from rfl, ← getD_drop_nat, hB]
    rfl
  have hcr : buf.getD (t + name.length + value.length + 2) 0 = 13 := by
    rw [show t + name.length + value.length + 2 =
      (t + name.length + 2 + value.length) + 0 from by omega, ← getD_drop_nat, hD]
    rfl
  have hlastv : buf.getD (t + name.length + value.length + 1) 0 ≠ 10 := by
    rw [show t + name.length + value.length + 1 =
      (t + name.length + 2) + (value.length - 1) from by omega, ← getD_drop_nat, hC]
    rw [List.getD_append _ _ _ _ (by omega)]
    refine hv10 _ ?_
    rw [List.getD_eq_getElem value 0 (by omega)]
    exact List.getElem_mem _
  have hnameslice : (buf.drop t).take (t + name.length - t) = name := by
    rw [show t + name.length - t = name.length from by omega, hA, List.take_left]
  have hvalueslice : (buf.drop (t + name.length + 2)).take
      (t + name.length + value.length + 3 - 1 - (t + name.length + 2)) = value := by
    rw [show t + name.length + value.length + 3 - 1 - (t + name.length + 2) =
      value.length from by omega, hC, List.take_left]
  simp only [scanStep, scanStepHeader]
  rw [if_neg (show ¬ (True ∧ buf.getD (t + name.length + value.length + 3 - 3) 0 = 13 ∧
      buf.getD (t + name.length + value.length + 3 - 2) 0 = 10 ∧
      buf.getD (t + name.length + value.length + 3 - 1) 0 = 13) from by
    rintro ⟨-, -, hx, -⟩
    apply hlastv
    rw [show t + name.length + value.length + 3 - 2 =
      t + name.length + value.length + 1 from by omega] at hx
    exact hx)]
  rw [if_neg (show ¬ (t + name.length = 0 ∧
      ps.header_name_len_limit < t + name.length + value.length + 3 - t) from by
    rintro ⟨h0, -⟩
    omega)]
  rw [if_neg (show ¬ (t + name.length ≠ 0 ∧
      ps.header_value_len_limit + 2 < t + name.length + value.length + 3 -
        (t + name.length)) from by
    rintro ⟨-, hlt⟩
    omega)]
  rw [if_neg (show ¬ ((10 : Nat) = 58 ∧ t + name.length = 0) from by
    rintro ⟨h58, -⟩
    norm_num at h58)]
  rw [if_pos (show True ∧ buf.getD (t + name.length + value.length + 3 - 1) 0 = 13 from by
    refine ⟨trivial, ?_⟩
    rw [show t + name.length + value.length + 3 - 1 =
      t + name.length + value.length + 2 from by omega]
    exact hcr)]
  simp only [scanHeaderAccept]
  rw [if_neg (show ¬ (t + name.length = 0 ∨
      t + name.length + value.length + 3 < t + name.length + 2) from by
    rintro (d | d) <;> omega)]
  rw [if_neg (show ¬ (t + name.length ≤ t) from by omega)]
  rw [hsp]
  rw [if_pos (show (32 : Nat) = 32 from rfl)]
  rw [if_neg (show ¬ (t + name.length + value.length + 3 - 1 ≤ t + name.length + 2) from by
    omega)]
  rw [hnameslice]
  rw [if_neg (show ¬ ¬ isValidUtf8 name = true from by simp [hu1])]
  rw [hvalueslice]
  rw [if_neg (show ¬ ¬ isValidUtf8 value = true from by simp [hu2])]
  rw [hder]

/-- Index bound from a successful lookup. -/
theorem get_some_lt (l : List Nat) (j b : Nat) (h : l.get? j = some b) : j < l.length := by
  by_contra hge
  rw [List.get?_eq_none.2 (by omega)] at h
  cases h

/-- One continuing byte unfolds the scan loop by one position. -/
theorem scanGo_cons_cont (ps : ParseHttpRequestSettings) (buf : List Nat) (ch : Nat)
    (rem : List Nat) (i : Nat) (st : ParseState) (r : RequestData) (st2 : ParseState)
    (r2 : RequestData) (h : scanStep ps st r buf i ch = .cont st2 r2) :
    scanGo ps buf (ch :: rem) i st r = scanGo ps buf rem (i + 1) st2 r2 := by
  simp only [scanGo, h]

/-- A whole header line advances the scan by its length, appending the
header and deriving connection type and content length. -/
theorem scan_header_line (ps : ParseHttpRequestSettings) (buf : List Nat)
    (name value rest : List Nat) (t : Nat) (r : RequestData) (new_cl : Option Nat)
    (hbt : buf.drop t = name ++ [58, 32] ++ value ++ ([13, 10] ++ rest))
    (hname : name ≠ []) (hn10 : ∀ b ∈ name, b ≠ 58 ∧ b ≠ 10)
    (hnlim : name.length ≤ ps.header_name_len_limit) (hu1 : isValidUtf8 name = true)
    (hvalue : value ≠ []) (hv10 : ∀ b ∈ value, b ≠ 10)
    (hvlim : value.length + 1 ≤ ps.header_value_len_limit) (hu2 : isValidUtf8 value = true)
    (hcount : r.headers.length < ps.headers_count_limit)
    (hder : (if r.content_len.isNone then header_is_content_length ⟨name, value⟩
        else .ok r.content_len) = .ok new_cl) :
    scanGo ps buf (name ++ [58, 32] ++ value ++ ([13, 10] ++ rest)) t (.header t 0) r =
      scanGo ps buf rest (t + (name.length + value.length + 4))
        (.header (t + (name.length + value.length + 4)) 0)
        { r with
            headers := r.headers ++ [⟨name, value⟩]
            connection_type :=
              if r.connection_type.isNone then header_is_connection_type ⟨name, value⟩
              else r.connection_type
            content_len := new_cl } := by
  have hn1 : 1 ≤ name.length := by
    have := List.length_pos.mpr hname
    omega
  have hv1 : 1 ≤ value.length := by
    have := List.length_pos.mpr hvalue
    omega
  rw [show name ++ [58, 32] ++ value ++ ([13, 10] ++ rest) =
    name ++ (58 :: ((32 :: (value ++ [13])) ++ (10 :: rest))) from by simp]
  rw [scanGo_run ps buf name _ t (.header t 0) r (by
    intro j b hj
    have hjlt := get_some_lt name j b hj
    obtain ⟨h58, h10⟩ := hn10 b (List.get?_mem hj)
    refine step_header_name_byte ps r buf (t + j) b t h10 h58 (by omega))]
  have hcolon := step_header_colon ps r buf (t + name.length) t hcount (by omega) (by omega)
  rw [scanGo_cons_cont _ _ _ _ _ _ _ _ _ hcolon]
  rw [scanGo_run ps buf (32 :: (value ++ [13])) (10 :: rest) (t + name.length + 1)
    (.header t (t + name.length)) r (by
    intro j b hj
    have hjlt := get_some_lt _ j b hj
    simp at hjlt
    have hb10 : b ≠ 10 := by
      have hmem := List.get?_mem hj
      simp at hmem
      rcases hmem with h | h | h
      · omega
      · exact hv10 b h
      · omega
    refine step_header_value_byte ps r buf (t + name.length + 1 + j) b t
      (t + name.length) hb10 (by omega) (by omega))]
  have hacc := step_header_lf_accept ps r buf name value rest t new_cl hbt hname hvalue
    hv10 hvlim hu1 hu2 hder
  rw [show t + name.length + 1 + (32 :: (value ++ [13])).length =
    t + name.length + value.length + 3 from by simp; omega]
  rw [scanGo_cons_cont _ _ _ _ _ _ _ _ _ hacc]
  rw [show t + name.length + value.length + 3 + 1 =
    t + (name.length + value.length + 4) from by omega]

/-- A block of well-formed header lines advances the scan by its total
length, appending the headers and folding the connection-type and
content-length derivation. -/
theorem scan_header_lines (ps : ParseHttpRequestSettings) (buf : List Nat) :
    ∀ (hdrs : List (List Nat × List Nat)) (t : Nat) (r : RequestData) (tail : List Nat)
      (ct : Option ConnectionType) (cl : Option Nat),
      (∀ nv ∈ hdrs, nv.1 ≠ [] ∧ (∀ b ∈ nv.1, b ≠ 58 ∧ b ≠ 10) ∧
        nv.1.length ≤ ps.header_name_len_limit ∧ isValidUtf8 nv.1 = true ∧
        nv.2 ≠ [] ∧ (∀ b ∈ nv.2, b ≠ 10) ∧ nv.2.length + 1 ≤ ps.header_value_len_limit ∧
        isValidUtf8 nv.2 = true) →
      r.headers.length + hdrs.length ≤ ps.headers_count_limit →
      buf.drop t = (hdrs.map headerLineBytes).flatten ++ tail →
      deriveHeaders r.connection_type r.content_len
        (hdrs.map fun nv => ⟨nv.1, nv.2⟩) = .ok (ct, cl) →
      scanGo ps buf ((hdrs.map headerLineBytes).flatten ++ tail) t (.header t 0) r =
        scanGo ps buf tail (t + ((hdrs.map headerLineBytes).flatten).length)
          (.header (t + ((hdrs.map headerLineBytes).flatten).length) 0)
          { r with
              headers := r.headers ++ (hdrs.map fun nv => ⟨nv.1, nv.2⟩)
              connection_type := ct
              content_len := cl } := by
  intro hdrs
  induction hdrs with
  | nil =>
    intro t r tail ct cl _ _ _ hder
    simp only [deriveHeaders, List.map_nil] at hder
    injection hder with hder
    injection hder with h1 h2
    subst h1 h2
    simp
  | cons nv hdrs ih =>
    intro t r tail ct cl hwf hcount hbt hder
    simp only [List.map_cons, deriveHeaders] at hder
    rcases hstep : (if r.content_len.isNone
        then header_is_content_length ⟨nv.1, nv.2⟩ else .ok r.content_len) with e | cl2
    · rw [hstep] at hder
      cases hder
    · rw [hstep] at hder
      obtain ⟨hnv1, hnv2, hnv3, hnv4, hnv5, hnv6, hnv7, hnv8⟩ := hwf nv (by simp)
      have hline : headerLineBytes nv = nv.1 ++ [58, 32] ++ nv.2 ++ [13, 10] := rfl
      have hreassoc : ((nv :: hdrs).map headerLineBytes).flatten ++ tail =
          nv.1 ++ [58, 32] ++ nv.2 ++
            ([13, 10] ++ ((hdrs.map headerLineBytes).flatten ++ tail)) := by
        simp [headerLineBytes]
      have hbt2 : buf.drop t =
          nv.1 ++ [58, 32] ++ nv.2 ++
            ([13, 10] ++ ((hdrs.map headerLineBytes).flatten ++ tail)) := by
        rw [hbt, hreassoc]
      rw [hreassoc]
      rw [scan_header_line ps buf nv.1 nv.2 ((hdrs.map headerLineBytes).flatten ++ tail)
        t r cl2 hbt2 hnv1 hnv2 hnv3 hnv4 hnv5 hnv6 hnv7 hnv8 (by simp at hcount; omega)
        hstep]
      have hbt3 : buf.drop (t + (nv.1.length + nv.2.length + 4)) =
          (hdrs.map headerLineBytes).flatten ++ tail := by
        rw [← List.drop_drop, hbt2]
        rw [show nv.1 ++ [58, 32] ++ nv.2 ++
            ([13, 10] ++ ((hdrs.map headerLineBytes).flatten ++ tail)) =
          (nv.1 ++ [58, 32] ++ nv.2 ++ [13, 10]) ++
            ((hdrs.map headerLineBytes).flatten ++ tail) from by simp]
        rw [List.drop_left' (by simp [hline]; omega)]
      rw [ih (t + (nv.1.length + nv.2.length + 4)) _ tail ct cl
        (fun nv2 hm => hwf nv2 (by simp [hm])) (by simp at hcount ⊢; omega) hbt3 hder]
      have hlen : t + (nv.1.length + nv.2.length + 4) +
          ((hdrs.map headerLineBytes).flatten).length =
          t + (((nv :: hdrs).map headerLineBytes).flatten).length := by
        simp [headerLineBytes]
        omega
      rw [hlen]
      simp

/-- The final CR-LF after the header block (preceded by the CR-LF that
closed the previous line) completes the head. -/
theorem scan_final_crlf (ps : ParseHttpRequestSettings) (buf : List Nat) (T : Nat)
    (r : RequestData) (trailing : List Nat) (h2 : 2 ≤ T)
    (hprev : buf.drop (T - 2) = 13 :: 10 :: 13 :: 10 :: trailing) :
    scanGo ps buf (13 :: 10 :: trailing) T (.header T 0) r = .complete (T + 2) r := by
  have hgd : ∀ k, buf.getD (T - 2 + k) 0 = (13 :: 10 :: 13 :: 10 :: trailing).getD k 0 := by
    intro k
    rw [← getD_drop_nat, hprev]
  have hT2 : buf.getD (T - 2) 0 = 13 := by
    have := hgd 0
    simpa using this
  have hT1 : buf.getD (T - 1) 0 = 10 := by
    have := hgd 1
    rw [show T - 2 + 1 = T - 1 from by omega] at this
    simpa using this
  have hT0 : buf.getD T 0 = 13 := by
    have := hgd 2
    rw [show T - 2 + 2 = T from by omega] at this
    simpa using this
  have hcr : scanStep ps (.header T 0) r buf T 13 = .cont (.header T 0) r :=
    step_header_name_byte ps r buf T 13 T (by norm_num) (by norm_num) (by omega)
  rw [scanGo_cons_cont _ _ _ _ _ _ _ _ _ hcr]
  simp only [scanGo, scanStep, scanStepHeader]
  rw [if_pos (show True ∧ buf.getD (T + 1 - 3) 0 = 13 ∧ buf.getD (T + 1 - 2) 0 = 10 ∧
      buf.getD (T + 1 - 1) 0 = 13 from by
    refine ⟨trivial, ?_, ?_, ?_⟩
    · rw [show T + 1 - 3 = T - 2 from by omega]
      exact hT2
    · rw [show T + 1 - 2 = T - 1 from by omega]
      exact hT1
    · rw [show T + 1 - 1 = T from by omega]
      exact hT0)]

/-- A nonempty header block ends in CR-LF. -/
theorem headerLines_flatten_ends :
    ∀ (hdrs : List (List Nat × List Nat)), hdrs ≠ [] →
      ∃ pre, (hdrs.map headerLineBytes).flatten = pre ++ [13, 10] := by
  intro hdrs
  induction hdrs with
  | nil => intro hne; exact absurd rfl hne
  | cons nv rest ih =>
    intro _
    by_cases hr : rest = []
    · subst hr
      refine ⟨nv.1 ++ [58, 32] ++ nv.2, ?_⟩
      simp [headerLineBytes]
    · obtain ⟨pre, hp⟩ := ih hr
      refine ⟨headerLineBytes nv ++ pre, ?_⟩
      simp [hp]

/-- From the version state on: version token, CR-LF, header block, final
CR-LF complete the head. -/
theorem scan_tail_phase (ps : ParseHttpRequestSettings) (buf : List Nat) (vstart : Nat)
    (ver : HttpVersion) (hdrs : List (List Nat × List Nat)) (trailing : List Nat)
    (r2 : RequestData) (ct : Option ConnectionType) (cl : Option Nat)
    (hdropv : buf.drop vstart =
      versionBytes ver ++ ([13, 10] ++
        ((hdrs.map headerLineBytes).flatten ++ ([13, 10] ++ trailing))))
    (hwfh : ∀ nv ∈ hdrs, nv.1 ≠ [] ∧ (∀ b ∈ nv.1, b ≠ 58 ∧ b ≠ 10) ∧
      nv.1.length ≤ ps.header_name_len_limit ∧ isValidUtf8 nv.1 = true ∧
      nv.2 ≠ [] ∧ (∀ b ∈ nv.2, b ≠ 10) ∧ nv.2.length + 1 ≤ ps.header_value_len_limit ∧
      isValidUtf8 nv.2 = true)
    (hhe : r2.headers = []) (hclim : hdrs.length ≤ ps.headers_count_limit)
    (hder2 : deriveHeaders r2.connection_type r2.content_len
      (hdrs.map fun nv => ⟨nv.1, nv.2⟩) = .ok (ct, cl)) :
    scanGo ps buf
        (versionBytes ver ++ [13, 10] ++
          ((hdrs.map headerLineBytes).flatten ++ ([13, 10] ++ trailing)))
        vstart (.version vstart) r2 =
      .complete (vstart + 10 + ((hdrs.map headerLineBytes).flatten).length + 2)
        { r2 with
            version := ver
            headers := r2.headers ++ (hdrs.map fun nv => ⟨nv.1, nv.2⟩)
            connection_type := ct
            content_len := cl } := by
  have hvblen : (versionBytes ver).length = 8 := by cases ver <;> rfl
  have hslice : (buf.drop vstart).take 8 = versionBytes ver := by
    rw [hdropv, List.take_left' hvblen]
  rw [scan_version_phase ps buf _ vstart r2 ver hslice]
  have hbt2 : buf.drop (vstart + 10) =
      (hdrs.map headerLineBytes).flatten ++ ([13, 10] ++ trailing) := by
    rw [← List.drop_drop, hdropv]
    rw [show versionBytes ver ++ ([13, 10] ++
        ((hdrs.map headerLineBytes).flatten ++ ([13, 10] ++ trailing))) =
      (versionBytes ver ++ [13, 10]) ++
        ((hdrs.map headerLineBytes).flatten ++ ([13, 10] ++ trailing)) from by simp]
    rw [List.drop_left' (by simp [hvblen])]
  rw [scan_header_lines ps buf hdrs (vstart + 10) { r2 with version := ver }
    ([13, 10] ++ trailing) ct cl hwfh (by simp [hhe]; omega) hbt2 hder2]
  have hprev : buf.drop (vstart + 10 + ((hdrs.map headerLineBytes).flatten).length - 2) =
      13 :: 10 :: 13 :: 10 :: trailing := by
    by_cases hh : hdrs = []
    · subst hh
      simp only [List.map_nil, List.flatten_nil, List.length_nil, Nat.add_zero]
      simp only [List.map_nil, List.flatten_nil, List.nil_append] at hdropv
      rw [show vstart + 10 - 2 = vstart + 8 from by omega]
      rw [← List.drop_drop, hdropv]
      rw [show versionBytes ver ++ ([13, 10] ++ ([13, 10] ++ trailing)) =
        versionBytes ver ++ (13 :: 10 :: 13 :: 10 :: trailing) from by simp]
      rw [List.drop_left' hvblen]
    · obtain ⟨pre, hp⟩ := headerLines_flatten_ends hdrs hh
      have h3 : List.drop (vstart + 10 + pre.length) buf =
          13 :: 10 :: 13 :: 10 :: trailing := by
        rw [← List.drop_drop, hbt2, hp]
        rw [show (pre ++ [13, 10]) ++ ([13, 10] ++ trailing) =
          pre ++ (13 :: 10 :: 13 :: 10 :: trailing) from by simp]
        rw [List.drop_left]
      convert h3 using 2
      rw [hp]
      simp
      omega
  rw [show ([13, 10] : List Nat) ++ trailing = 13 :: 10 :: trailing from rfl]
  rw [scan_final_crlf ps buf _ _ trailing (by omega) hprev]

/-- Scanning a whole well-formed head from a fresh Method state completes
at exactly the head length with the expected record fields. -/
theorem scan_head (ps : ParseHttpRequestSettings) (h : HeadDesc) (trailing : List Nat)
    (r : RequestData) (ct : Option ConnectionType) (cl : Option Nat) (buf : List Nat)
    (hbuf : buf = headBytes h ++ trailing)
    (hwf : WfHead ps h)
    (hder : deriveHeaders none none (descHeaders h) = .ok (ct, cl))
    (hr0 : r.headers = []) (hrct : r.connection_type = none) (hrcl : r.content_len = none) :
    scanGo ps buf (headBytes h ++ trailing) 0 .method r =
      .complete (headBytes h).length
        { r with
            method_end_index := h.method.length
            path_indices := (h.method.length + 1, h.method.length + 1 + h.path.length)
            raw_query_indices :=
              match h.query with
              | none => r.raw_query_indices
              | some q => (h.method.length + h.path.length + 2,
                           h.method.length + h.path.length + 2 + q.length)
            version := h.version
            headers := descHeaders h
            connection_type := ct
            content_len := cl } := by
  obtain ⟨hwm, hwmlim, hwp, hwplim, hwq, hwclim, hwh, -⟩ := hwf
  have hder2 : deriveHeaders r.connection_type r.content_len
      (h.headers.map fun nv => ⟨nv.1, nv.2⟩) = .ok (ct, cl) := by
    rw [hrct, hrcl]
    exact hder
  rcases hq : h.query with _ | q
  · -- no query
    rw [show headBytes h ++ trailing =
      h.method ++ (32 :: (h.path ++ (32 ::
        (versionBytes h.version ++ [13, 10] ++
          ((h.headers.map headerLineBytes).flatten ++ ([13, 10] ++ trailing)))))) from by
      simp [headBytes, hq]]
    rw [scanGo_run ps buf h.method _ 0 .method r (by
      intro j b hj
      have hjlt := get_some_lt _ j b hj
      obtain ⟨h32, h10⟩ := hwm b (List.get?_mem hj)
      exact step_method_byte ps r buf (0 + j) b h32 h10 (by omega))]
    rw [scanGo_cons_cont _ _ _ _ _ _ _ _ _ (step_method_space ps r buf (0 + h.method.length))]
    rw [scanGo_run ps buf h.path _ (0 + h.method.length + 1) _ _ (by
      intro j b hj
      have hjlt := get_some_lt _ j b hj
      obtain ⟨h32, h10, h63⟩ := hwp b (List.get?_mem hj)
      exact step_path_byte ps _ buf (0 + h.method.length + 1 + j) b _ h32 h10 h63 (by
        omega))]
    rw [scanGo_cons_cont _ _ _ _ _ _ _ _ _
      (step_path_space ps _ buf (0 + h.method.length + 1 + h.path.length) _)]
    have hdropv : buf.drop (0 + h.method.length + 1 + h.path.length + 1) =
        versionBytes h.version ++ ([13, 10] ++
          ((h.headers.map headerLineBytes).flatten ++ ([13, 10] ++ trailing))) := by
      rw [hbuf]
      rw [show headBytes h ++ trailing =
        (h.method ++ [32] ++ h.path ++ [32]) ++
          (versionBytes h.version ++ ([13, 10] ++
            ((h.headers.map headerLineBytes).flatten ++ ([13, 10] ++ trailing)))) from by
        simp [headBytes, hq]]
      rw [List.drop_left' (by simp; omega)]
    rw [scan_tail_phase ps buf (0 + h.method.length + 1 + h.path.length + 1) h.version
      h.headers trailing
      { r with
          method_end_index := 0 + h.method.length
          path_indices := (0 + h.method.length + 1, 0 + h.method.length + 1 + h.path.length) }
      ct cl hdropv hwh (by simpa using hr0) hwclim hder2]
    have hvb : (versionBytes h.version).length = 8 := by cases h.version <;> rfl
    have hlen : (headBytes h).length =
        0 + h.method.length + 1 + h.path.length + 1 + 10 +
          ((h.headers.map headerLineBytes).flatten).length + 2 := by
      simp [headBytes, hq, hvb]
      omega
    rw [hlen]
    simp [hr0, descHeaders, hq] <;> omega
  · -- query present
    rw [show headBytes h ++ trailing =
      h.method ++ (32 :: (h.path ++ (63 :: (q ++ (32 ::
        (versionBytes h.version ++ [13, 10] ++
          ((h.headers.map headerLineBytes).flatten ++ ([13, 10] ++ trailing)))))))) from by
      simp [headBytes, hq]]
    obtain ⟨hwqb, hwqlim⟩ := by rw [hq] at hwq; exact hwq
    rw [scanGo_run ps buf h.method _ 0 .method r (by
      intro j b hj
      have hjlt := get_some_lt _ j b hj
      obtain ⟨h32, h10⟩ := hwm b (List.get?_mem hj)
      exact step_method_byte ps r buf (0 + j) b h32 h10 (by omega))]
    rw [scanGo_cons_cont _ _ _ _ _ _ _ _ _ (step_method_space ps r buf (0 + h.method.length))]
    rw [scanGo_run ps buf h.path _ (0 + h.method.length + 1) _ _ (by
      intro j b hj
      have hjlt := get_some_lt _ j b hj
      obtain ⟨h32, h10, h63⟩ := hwp b (List.get?_mem hj)
      exact step_path_byte ps _ buf (0 + h.method.length + 1 + j) b _ h32 h10 h63 (by
        omega))]
    rw [scanGo_cons_cont _ _ _ _ _ _ _ _ _
      (step_path_qmark ps _ buf (0 + h.method.length + 1 + h.path.length) _)]
    rw [scanGo_run ps buf q _ (0 + h.method.length + 1 + h.path.length + 1) _ _ (by
      intro j b hj
      have hjlt := get_some_lt _ j b hj
      obtain ⟨h32, h10⟩ := hwqb b (List.get?_mem hj)
      exact step_query_byte ps _ buf (0 + h.method.length + 1 + h.path.length + 1 + j) b _
        h32 h10 (by omega))]
    rw [scanGo_cons_cont _ _ _ _ _ _ _ _ _
      (step_query_space ps _ buf (0 + h.method.length + 1 + h.path.length + 1 + q.length) _)]
    have hdropv : buf.drop
        (0 + h.method.length + 1 + h.path.length + 1 + q.length + 1) =
        versionBytes h.version ++ ([13, 10] ++
          ((h.headers.map headerLineBytes).flatten ++ ([13, 10] ++ trailing))) := by
      rw [hbuf]
      rw [show headBytes h ++ trailing =
        (h.method ++ [32] ++ h.path ++ (63 :: q) ++ [32]) ++
          (versionBytes h.version ++ ([13, 10] ++
            ((h.headers.map headerLineBytes).flatten ++ ([13, 10] ++ trailing)))) from by
        simp [headBytes, hq]]
      rw [List.drop_left' (by simp; omega)]
    rw [scan_tail_phase ps buf
      (0 + h.method.length + 1 + h.path.length + 1 + q.length + 1) h.version
      h.headers trailing
      { r with
          method_end_index := 0 + h.method.length
          path_indices := (0 + h.method.length + 1, 0 + h.method.length + 1 + h.path.length)
          raw_query_indices := (0 + h.method.length + 1 + h.path.length + 1,
            0 + h.method.length + 1 + h.path.length + 1 + q.length) }
      ct cl hdropv hwh (by simpa using hr0) hwclim hder2]
    have hvb : (versionBytes h.version).length = 8 := by cases h.version <;> rfl
    have hlen : (headBytes h).length =
        0 + h.method.length + 1 + h.path.length + 1 + q.length + 1 + 10 +
          ((h.headers.map headerLineBytes).flatten).length + 2 := by
      simp [headBytes, hq, hvb]
      omega
    rw [hlen]
    simp [hr0, descHeaders, hq] <;> omega

/-- Scanning a concatenation scans the first part and continues into the
second on NeedMore. -/
theorem scanGo_split (ps : ParseHttpRequestSettings) (buf : List Nat) :
    ∀ (a b : List Nat) (i : Nat) (st : ParseState) (r : RequestData),
      scanGo ps buf (a ++ b) i st r =
        match scanGo ps buf a i st r with
        | .err e => .err e
        | .complete len r2 => .complete len r2
        | .needMore st2 r2 => scanGo ps buf b (i + a.length) st2 r2 := by
  intro a
  induction a with
  | nil =>
    intro b i st r
    simp [scanGo]
  | cons ch a ih =>
    intro b i st r
    simp only [List.cons_append, scanGo]
    rcases hs : scanStep ps st r buf i ch with e | ⟨st3, r3⟩ | ⟨l, r3⟩
    · rfl
    · show scanGo ps buf (a ++ b) (i + 1) st3 r3 =
        match scanGo ps buf a (i + 1) st3 r3 with
        | .err e => .err e
        | .complete len r2 => .complete len r2
        | .needMore st2 r2 => scanGo ps buf b (i + (ch :: a).length) st2 r2
      rw [ih b (i + 1) st3 r3]
      rcases scanGo ps buf a (i + 1) st3 r3 with e | ⟨st4, r4⟩ | ⟨l, r4⟩
      · rfl
      · show scanGo ps buf b (i + 1 + a.length) st4 r4 =
          scanGo ps buf b (i + (ch :: a).length) st4 r4
        rw [show i + (ch :: a).length = i + 1 + a.length from by simp <;> omega]
      · rfl
    · rfl

/-- A take-prefix of an agreed take-prefix agrees. -/
theorem take_agree_mono (buf buf2 : List Nat) (n m : Nat) (hm : m ≤ n)
    (h : buf.take n = buf2.take n) : buf.take m = buf2.take m := by
  rw [show m = min m n from by omega, ← List.take_take, h, List.take_take]

/-- Slices below an agreed take-prefix agree. -/
theorem slice_agree (buf buf2 : List Nat) (n a b : Nat) (hab : a + b ≤ n)
    (h : buf.take n = buf2.take n) : (buf.drop a).take b = (buf2.drop a).take b := by
  have h2 : buf.take (a + b) = buf2.take (a + b) := take_agree_mono buf buf2 n (a + b) hab h
  have e1 : (buf.drop a).take b = (buf.take (a + b)).drop a := by
    rw [List.drop_take]; congr 1; omega
  have e2 : (buf2.drop a).take b = (buf2.take (a + b)).drop a := by
    rw [List.drop_take]; congr 1; omega
  rw [e1, e2, h2]

/-- A getD read below an agreed take-prefix equals the read of the prefix. -/
theorem getD_take_eq (buf : List Nat) (n j : Nat) (hj : j < n) :
    (buf.take n).getD j 0 = buf.getD j 0 := by
  simp only [List.getD]
  rw [List.get?_take hj]

/-- getD below an agreed take-prefix agrees. -/
theorem getD_agree (buf buf2 : List Nat) (n j : Nat) (hj : j < n)
    (h : buf.take n = buf2.take n) : buf.getD j 0 = buf2.getD j 0 := by
  rw [← getD_take_eq buf n j hj, ← getD_take_eq buf2 n j hj, h]

/-- The header-acceptance branch reads the buffer only below the scan
position: buffers agreeing up to the current byte give the same result. -/
theorem scanHeaderAccept_congr (ps : ParseHttpRequestSettings) (r : RequestData)
    (buf buf2 : List Nat) (i hi si : Nat)
    (h : buf.take (i + 1) = buf2.take (i + 1)) :
    scanHeaderAccept ps r buf i hi si = scanHeaderAccept ps r buf2 i hi si := by
  simp only [scanHeaderAccept]
  by_cases c1 : si = 0 ∨ i < si + 2
  · rw [if_pos c1, if_pos c1]
  rw [if_neg c1, if_neg c1]
  by_cases c2 : si ≤ hi
  · rw [if_pos c2, if_pos c2]
  rw [if_neg c2, if_neg c2]
  have hsi : si + 2 ≤ i := by omega
  have hg : buf.getD (si + 1) 0 = buf2.getD (si + 1) 0 :=
    getD_agree buf buf2 (i + 1) (si + 1) (by omega) h
  rw [hg]
  have hname : (buf.drop hi).take (si - hi) = (buf2.drop hi).take (si - hi) :=
    slice_agree buf buf2 (i + 1) hi (si - hi) (by omega) h
  rw [hname]
  by_cases hv : buf2.getD (si + 1) 0 = 32
  · rw [if_pos hv, slice_agree buf buf2 (i + 1) (si + 2) (i - 1 - (si + 2)) (by omega) h]
  · rw [if_neg hv, slice_agree buf buf2 (i + 1) (si + 1) (i - 1 - (si + 1)) (by omega) h]

/-- The Header arm reads the buffer only below the scan position. -/
theorem scanStepHeader_congr (ps : ParseHttpRequestSettings) (r : RequestData)
    (buf buf2 : List Nat) (i ch hi si : Nat)
    (h : buf.take (i + 1) = buf2.take (i + 1)) :
    scanStepHeader ps r buf i ch hi si = scanStepHeader ps r buf2 i ch hi si := by
  have e3 : buf.getD (i - 3) 0 = buf2.getD (i - 3) 0 :=
    getD_agree buf buf2 (i + 1) (i - 3) (by omega) h
  have e2 : buf.getD (i - 2) 0 = buf2.getD (i - 2) 0 :=
    getD_agree buf buf2 (i + 1) (i - 2) (by omega) h
  have e1 : buf.getD (i - 1) 0 = buf2.getD (i - 1) 0 :=
    getD_agree buf buf2 (i + 1) (i - 1) (by omega) h
  simp only [scanStepHeader, e3, e2, e1]
  rw [scanHeaderAccept_congr ps r buf buf2 i hi si h]

/-- One scan iteration reads the buffer only below the scan position. -/
theorem scanStep_congr (ps : ParseHttpRequestSettings) (st : ParseState) (r : RequestData)
    (buf buf2 : List Nat) (i ch : Nat)
    (h : buf.take (i + 1) = buf2.take (i + 1)) :
    scanStep ps st r buf i ch = scanStep ps st r buf2 i ch := by
  cases st with
  | method => rfl
  | path _ => rfl
  | query _ => rfl
  | version vi =>
    simp only [scanStep]
    rcases le_or_lt vi i with hvi | hvi
    · rw [slice_agree buf buf2 (i + 1) vi (i - 1 - vi) (by omega) h]
    · rw [show i - 1 - vi = 0 from by omega]
      simp
  | header hi si => exact scanStepHeader_congr ps r buf buf2 i ch hi si h

/-- The scan loop reads the buffer only below the end of its iteration
range: buffers agreeing there give the same result. -/
theorem scanGo_congr (ps : ParseHttpRequestSettings) (buf buf2 : List Nat) :
    ∀ (rem : List Nat) (i : Nat) (st : ParseState) (r : RequestData),
      buf.take (i + rem.length) = buf2.take (i + rem.length) →
      scanGo ps buf rem i st r = scanGo ps buf2 rem i st r := by
  intro rem
  induction rem with
  | nil => intro i st r _; rfl
  | cons ch rem ih =>
    intro i st r h
    have hstep : scanStep ps st r buf i ch = scanStep ps st r buf2 i ch :=
      scanStep_congr ps st r buf buf2 i ch
        (take_agree_mono buf buf2 (i + (ch :: rem).length) (i + 1) (by simp) h)
    simp only [scanGo]
    rw [hstep]
    rcases h2 : scanStep ps st r buf2 i ch with e | ⟨st2, r2⟩ | ⟨l, r2⟩
    · rfl
    · exact ih (i + 1) st2 r2 (by
        rw [show i + 1 + rem.length = i + (ch :: rem).length from by simp <;> omega]
        exact h)
    · rfl

/-- Overriding the raw field of the record before the header-acceptance
branch only overrides the raw field of the result. -/
theorem scanHeaderAccept_raw_irrel (ps : ParseHttpRequestSettings) (r : RequestData)
    (buf : List Nat) (i hi si : Nat) (X : List Nat) :
    scanHeaderAccept ps { r with raw := X } buf i hi si =
      match scanHeaderAccept ps r buf i hi si with
      | .err e => .err e
      | .cont st2 r2 => .cont st2 { r2 with raw := X }
      | .complete l r2 => .complete l { r2 with raw := X } := by
  rcases r with ⟨raw0, mei, pis, qis, ver, hs, ct, cl, dp⟩
  simp only [scanHeaderAccept]
  split_ifs <;> try rfl
  all_goals split <;> rfl

/-- Overriding the raw field before the Header arm only overrides the raw
field of the result. -/
theorem scanStepHeader_raw_irrel (ps : ParseHttpRequestSettings) (r : RequestData)
    (buf : List Nat) (i ch hi si : Nat) (X : List Nat) :
    scanStepHeader ps { r with raw := X } buf i ch hi si =
      match scanStepHeader ps r buf i ch hi si with
      | .err e => .err e
      | .cont st2 r2 => .cont st2 { r2 with raw := X }
      | .complete l r2 => .complete l { r2 with raw := X } := by
  simp only [scanStepHeader]
  split_ifs <;> first
    | rfl
    | rw [scanHeaderAccept_raw_irrel ps r buf i hi si X]

/-- Overriding the raw field before one scan iteration only overrides the
raw field of the result. -/
theorem scanStep_raw_irrel (ps : ParseHttpRequestSettings) (st : ParseState)
    (r : RequestData) (buf : List Nat) (i ch : Nat) (X : List Nat) :
    scanStep ps st { r with raw := X } buf i ch =
      match scanStep ps st r buf i ch with
      | .err e => .err e
      | .cont st2 r2 => .cont st2 { r2 with raw := X }
      | .complete l r2 => .complete l { r2 with raw := X } := by
  cases st with
  | method => simp only [scanStep]; split_ifs <;> rfl
  | path _ => simp only [scanStep]; split_ifs <;> rfl
  | query _ => simp only [scanStep]; split_ifs <;> rfl
  | version vi =>
    simp only [scanStep]
    split_ifs <;> try rfl
    rcases hv : version_from_data ((buf.drop vi).take (i - 1 - vi)) with e | v
    · cases e <;> rfl
    · rfl
  | header hi si => exact scanStepHeader_raw_irrel ps r buf i ch hi si X

/-- Overriding the raw field before the scan loop only overrides the raw
field of the result. -/
theorem scanGo_raw_irrel (ps : ParseHttpRequestSettings) (buf X : List Nat) :
    ∀ (rem : List Nat) (i : Nat) (st : ParseState) (r : RequestData),
      scanGo ps buf rem i st { r with raw := X } =
        match scanGo ps buf rem i st r with
        | .err e => .err e
        | .needMore st2 r2 => .needMore st2 { r2 with raw := X }
        | .complete l r2 => .complete l { r2 with raw := X } := by
  intro rem
  induction rem with
  | nil => intro i st r; rfl
  | cons ch rem ih =>
    intro i st r
    simp only [scanGo]
    rw [scanStep_raw_irrel ps st r buf i ch X]
    rcases h2 : scanStep ps st r buf i ch with e | ⟨st2, r2⟩ | ⟨l, r2⟩
    · rfl
    · exact ih (i + 1) st2 r2
    · rfl

/-- A head is never empty on the wire. -/
theorem headBytes_pos (h : HeadDesc) : 0 < (headBytes h).length := by
  unfold headBytes
  simp only [List.length_append, List.length_cons, List.length_nil]
  omega

/-- The scan of a whole well-formed head from a fresh record completes at
the head length with the expected record (raw untouched by the loop). -/
theorem head_full_scan (ps : ParseHttpRequestSettings) (h : HeadDesc) (hwf : WfHead ps h) :
    scanGo ps (headBytes h) (headBytes h) 0 .method RequestData.new =
      .complete (headBytes h).length { expectedReq h with raw := [] } := by
  obtain ⟨ct, cl, hder⟩ := hwf.2.2.2.2.2.2.2
  have hs := scan_head ps h [] RequestData.new ct cl (headBytes h)
    (by simp) hwf hder rfl rfl rfl
  rw [List.append_nil] at hs
  rw [hs]
  rcases hq : h.query with _ | q <;>
    simp [expectedReq, RequestData.new, headDerivation, hder, hq]

/-- The fresh parser has fed nothing. -/
theorem fedState_nil (ps : ParseHttpRequestSettings) : FedState ps [] Parser.new :=
  ⟨RequestData.new, rfl, rfl⟩

/-- Feeding the rest of a well-formed head (and possibly more) to a parser
that holds its first bytes completes the head: the surplus is exactly the
bytes past the head, the kept raw buffer is truncated to the head, and the
parser state resets to Method with the expected record. -/
theorem parse_fed_complete (ps : ParseHttpRequestSettings) (h : HeadDesc) (p : Parser)
    (T c rest : List Nat)
    (hwf : WfHead ps h)
    (hfs : FedState ps T p)
    (hsplit : T ++ c = headBytes h ++ rest) :
    p.parse_yet c ps = (.ok rest, ⟨.method, expectedReq h⟩) := by
  rcases p with ⟨stP, rP⟩
  obtain ⟨rT, hgoT, hreq⟩ := hfs
  replace hgoT : scanGo ps T T 0 .method RequestData.new = .needMore stP rT := hgoT
  replace hreq : rP = { rT with raw := T } := hreq
  subst hreq
  have hfull := head_full_scan ps h hwf
  have hgoT2 : scanGo ps (headBytes h ++ rest) T 0 .method RequestData.new =
      .needMore stP rT := by
    rw [scanGo_congr ps (headBytes h ++ rest) T T 0 .method RequestData.new (by
      rw [Nat.zero_add, List.take_length, ← hsplit, List.take_left])]
    exact hgoT
  have hA : scanGo ps (headBytes h ++ rest) (headBytes h) 0 .method RequestData.new =
      .complete (headBytes h).length { expectedReq h with raw := [] } := by
    rw [scanGo_congr ps (headBytes h ++ rest) (headBytes h) (headBytes h) 0 .method
      RequestData.new (by rw [Nat.zero_add, List.take_length, List.take_left])]
    exact hfull
  have hB : scanGo ps (headBytes h ++ rest) (headBytes h ++ rest) 0 .method
      RequestData.new =
      .complete (headBytes h).length { expectedReq h with raw := [] } := by
    rw [scanGo_split ps (headBytes h ++ rest) (headBytes h) rest 0 .method
      RequestData.new, hA]
  have hC : scanGo ps (headBytes h ++ rest) c T.length stP rT =
      .complete (headBytes h).length { expectedReq h with raw := [] } := by
    have hX : scanGo ps (headBytes h ++ rest) (T ++ c) 0 .method RequestData.new =
        scanGo ps (headBytes h ++ rest) c (0 + T.length) stP rT := by
      rw [scanGo_split ps (headBytes h ++ rest) T c 0 .method RequestData.new, hgoT2]
    rw [hsplit] at hX
    rw [hB] at hX
    rw [Nat.zero_add] at hX
    exact hX.symm
  have hD : scanGo ps (headBytes h ++ rest) c T.length stP
      { rT with raw := headBytes h ++ rest } =
      .complete (headBytes h).length { expectedReq h with raw := headBytes h ++ rest } := by
    rw [scanGo_raw_irrel ps (headBytes h ++ rest) (headBytes h ++ rest) c T.length stP rT,
      hC]
  show Parser.parse_yet ⟨stP, { rT with raw := T }⟩ c ps = _
  simp only [Parser.parse_yet, scan]
  rw [show ({ rT with raw := T } : RequestData).raw ++ c = headBytes h ++ rest from hsplit]
  rw [show ((headBytes h ++ rest).drop (({ rT with raw := T } : RequestData)).raw.length :
      List Nat) = c from by rw [← hsplit]; exact List.drop_left T c]
  rw [show (({ rT with raw := T } : RequestData)).raw.length = T.length from rfl]
  rw [hD]
  simp only [List.drop_left', List.take_left']
  rcases hq : h.query with _ | q <;> simp [expectedReq, hq]

/-- Feeding more bytes of a still-incomplete well-formed head to a parser
that holds its first bytes waits for more data and parks in the fed state
of the grown prefix. -/
theorem parse_fed_prefix (ps : ParseHttpRequestSettings) (h : HeadDesc) (p : Parser)
    (T c : List Nat)
    (hwf : WfHead ps h)
    (hfs : FedState ps T p)
    (hpre : T ++ c = (headBytes h).take (T.length + c.length))
    (hm : T.length + c.length < (headBytes h).length) :
    ∃ p2, p.parse_yet c ps = (.error .incomplete, p2) ∧ FedState ps (T ++ c) p2 := by
  rcases p with ⟨stP, rP⟩
  obtain ⟨rT, hgoT, hreq⟩ := hfs
  replace hgoT : scanGo ps T T 0 .method RequestData.new = .needMore stP rT := hgoT
  replace hreq : rP = { rT with raw := T } := hreq
  subst hreq
  have hfull := head_full_scan ps h hwf
  have hTpre : T = (headBytes h).take T.length := by
    have h1 : T = (T ++ c).take T.length := (List.take_left T c).symm
    conv_lhs => rw [h1]
    rw [hpre, List.take_take]
    congr 1
    omega
  have hX := hfull
  nth_rewrite 2 [show headBytes h =
    (T ++ c) ++ (headBytes h).drop (T.length + c.length) from by
      rw [hpre, List.take_append_drop]] at hX
  rw [scanGo_split ps (headBytes h) (T ++ c) ((headBytes h).drop (T.length + c.length)) 0
    .method RequestData.new] at hX
  rcases hY : scanGo ps (headBytes h) (T ++ c) 0 .method RequestData.new with
    e | ⟨st3, r3⟩ | ⟨l3, r3⟩
  · rw [hY] at hX
    simp at hX
  · -- the genuine case: the prefix scan needs more
    have hR_self : scanGo ps (T ++ c) (T ++ c) 0 .method RequestData.new =
        .needMore st3 r3 := by
      rw [scanGo_congr ps (T ++ c) (headBytes h) (T ++ c) 0 .method RequestData.new (by
        rw [Nat.zero_add, List.take_length, List.length_append]
        exact hpre)]
      exact hY
    have hgoT3 : scanGo ps (T ++ c) T 0 .method RequestData.new = .needMore stP rT := by
      rw [scanGo_congr ps (T ++ c) T T 0 .method RequestData.new (by
        rw [Nat.zero_add, List.take_length, List.take_left])]
      exact hgoT
    have hcont : scanGo ps (T ++ c) c T.length stP rT = .needMore st3 r3 := by
      have hZ : scanGo ps (T ++ c) (T ++ c) 0 .method RequestData.new =
          scanGo ps (T ++ c) c (0 + T.length) stP rT := by
        rw [scanGo_split ps (T ++ c) T c 0 .method RequestData.new, hgoT3]
      rw [hR_self] at hZ
      rw [Nat.zero_add] at hZ
      exact hZ.symm
    have hE : scanGo ps (T ++ c) c T.length stP { rT with raw := T ++ c } =
        .needMore st3 { r3 with raw := T ++ c } := by
      rw [scanGo_raw_irrel ps (T ++ c) (T ++ c) c T.length stP rT, hcont]
    refine ⟨⟨st3, { r3 with raw := T ++ c }⟩, ?_, ⟨r3, hR_self, rfl⟩⟩
    show Parser.parse_yet ⟨stP, { rT with raw := T }⟩ c ps = _
    simp only [Parser.parse_yet, scan]
    rw [show ((T ++ c).drop T.length : List Nat) = c from List.drop_left T c]
    rw [hE]
  · obtain ⟨-, hlen3, -⟩ := scanGo_complete_bounds ps (headBytes h) (T ++ c) 0 .method
      RequestData.new l3 r3 hY
    rw [hY] at hX
    exfalso
    have hX2 : (ScanRes.complete l3 r3 : ScanRes) =
        .complete (headBytes h).length { expectedReq h with raw := [] } := hX
    have hinj : l3 = (headBytes h).length := by
      cases hX2
      rfl
    simp only [Nat.zero_add, List.length_append] at hlen3
    omega

/-- An empty chunk is always Partial and leaves the parser untouched. -/
theorem parse_yet_nil (ps : ParseHttpRequestSettings) (p : Parser) :
    p.parse_yet [] ps = (.error .incomplete, p) := by
  rcases p with ⟨st, r⟩
  rcases r with ⟨raw0, mei, pis, qis, ver, hs, ct, cl, dp⟩
  simp [Parser.parse_yet, scan, scanGo, List.drop_length]

/-- Any prefix of a pipelined stream of heads splits into whole heads
followed by a proper prefix of the next head. -/
theorem chop_stream : ∀ (heads : List HeadDesc) (P Q : List Nat),
    P ++ Q = (heads.map headBytes).flatten →
    ∃ a b T2, heads = a ++ b ∧ P = ((a.map headBytes).flatten) ++ T2 ∧
      T2 ++ Q = (b.map headBytes).flatten ∧
      ((T2 = [] ∧ b = []) ∨
        (∃ h0 b2, b = h0 :: b2 ∧ T2.length < (headBytes h0).length ∧
          T2 = (headBytes h0).take T2.length)) := by
  intro heads
  induction heads with
  | nil =>
    intro P Q hPQ
    simp only [List.map_nil, List.flatten_nil] at hPQ
    obtain ⟨hP, hQ⟩ := List.append_eq_nil.mp hPQ
    exact ⟨[], [], [], by simp, by simp [hP], by simp [hQ], Or.inl ⟨rfl, rfl⟩⟩
  | cons h0 t ih =>
    intro P Q hPQ
    rw [List.map_cons, List.flatten_cons] at hPQ
    rcases le_or_lt (headBytes h0).length P.length with hge | hlt
    · -- h0 is complete inside P
      have hP0 : P.take (headBytes h0).length = headBytes h0 := by
        have h1 : (P ++ Q).take (headBytes h0).length = headBytes h0 := by
          rw [hPQ, List.take_append_eq_append_take, List.take_length,
            Nat.sub_self, List.take_zero, List.append_nil]
        rw [List.take_append_eq_append_take,
          show (headBytes h0).length - P.length = 0 from by omega,
          List.take_zero, List.append_nil] at h1
        exact h1
      have hPdecomp : P = headBytes h0 ++ P.drop (headBytes h0).length := by
        conv_lhs => rw [← List.take_append_drop (headBytes h0).length P]
        rw [hP0]
      have hPQ2 : P.drop (headBytes h0).length ++ Q = (t.map headBytes).flatten := by
        have h2 := hPQ
        nth_rewrite 1 [hPdecomp] at h2
        rw [List.append_assoc] at h2
        exact List.append_cancel_left h2
      obtain ⟨a, b, T2, hab, hPa, hT2Q, hdisj⟩ := ih (P.drop (headBytes h0).length) Q hPQ2
      refine ⟨h0 :: a, b, T2, by simp [hab], ?_, hT2Q, hdisj⟩
      conv_lhs => rw [hPdecomp]
      rw [hPa, List.map_cons, List.flatten_cons, List.append_assoc]
    · -- h0 is cut: P is a proper prefix of it
      refine ⟨[], h0 :: t, P, by simp, by simp, by
        rw [hPQ, List.map_cons, List.flatten_cons], Or.inr ⟨h0, t, rfl, hlt, ?_⟩⟩
      have h1 : (P ++ Q).take P.length = P := List.take_left P Q
      rw [hPQ, List.take_append_eq_append_take,
        show P.length - (headBytes h0).length = 0 from by omega,
        List.take_zero, List.append_nil] at h1
      exact h1.symm

/-- The pipelined loop of process_data over one chunk: a parser holding
the first bytes of the stream consumes the chunk, emits exactly the heads
the chunk completes, and parks holding the cut head's bytes. -/
theorem process_chunk (ps : ParseHttpRequestSettings) :
    ∀ (heads : List HeadDesc) (T c T2 : List Nat) (p : Parser) (count : Nat),
      (∀ hd ∈ heads, WfHead ps hd) →
      FedState ps T p →
      T ++ c = ((heads.map headBytes).flatten) ++ T2 →
      (T2 = [] ∨ (∃ hn, WfHead ps hn ∧ T2.length < (headBytes hn).length ∧
        T2 = (headBytes hn).take T2.length)) →
      count + heads.length + 1 ≤ ps.pipelining_requests_limit →
      ∃ p2 c2, Connection.process_data ps count p c = .ok (heads.map expectedReq, p2, c2) ∧
        FedState ps T2 p2 := by
  intro heads
  induction heads with
  | nil =>
    intro T c T2 p count hwf hfs hstream hT2 hcount
    simp only [List.map_nil, List.flatten_nil, List.nil_append] at hstream
    rcases hT2 with hT2nil | ⟨hn, hnwf, hnlt, hnpre⟩
    · -- the stream is exhausted: the chunk is empty
      subst hT2nil
      obtain ⟨hT, hc⟩ := List.append_eq_nil.mp hstream
      subst hT
      subst hc
      refine ⟨p, count + 1, ?_, hfs⟩
      rw [Connection.process_data]
      rw [if_neg (by omega : ¬ ps.pipelining_requests_limit < count + 1)]
      split <;> rename_i hp
      · rw [parse_yet_nil ps p] at hp
        simp at hp
      · rw [parse_yet_nil ps p] at hp
        injection hp with h1 h2
        subst h2
        rfl
      · rw [parse_yet_nil ps p] at hp
        injection hp with h1 h2
        injection h1 with h1
        rename_i hne
        exact absurd rfl (by rw [h1] at hne; exact hne)
    · -- more of the cut head arrives but it stays incomplete
      have hlen : T2.length = T.length + c.length := by
        rw [← hstream]
        simp
      obtain ⟨p2, hpy, hfs2⟩ := parse_fed_prefix ps hn p T c hnwf hfs
        (by
          rw [hstream]
          conv_lhs => rw [hnpre]
          rw [hlen])
        (by rw [← hlen]; exact hnlt)
      rw [hstream] at hfs2
      refine ⟨p2, count + 1, ?_, hfs2⟩
      rw [Connection.process_data]
      rw [if_neg (by omega : ¬ ps.pipelining_requests_limit < count + 1)]
      split <;> rename_i hp
      · rw [hpy] at hp
        simp at hp
      · rw [hpy] at hp
        injection hp with h1 h2
        subst h2
        rfl
      · rw [hpy] at hp
        injection hp with h1 h2
        injection h1 with h1
        rename_i hne
        exact absurd rfl (by rw [h1] at hne; exact hne)
  | cons h0 t ih =>
    intro T c T2 p count hwf hfs hstream hT2 hcount
    have hwf0 : WfHead ps h0 := hwf h0 (by simp)
    have hsplit : T ++ c = headBytes h0 ++ ((t.map headBytes).flatten ++ T2) := by
      rw [hstream, List.map_cons, List.flatten_cons, List.append_assoc]
    have hcomp := parse_fed_complete ps h0 p T c ((t.map headBytes).flatten ++ T2)
      hwf0 hfs hsplit
    by_cases hse : (t.map headBytes).flatten ++ T2 = []
    · -- the chunk ends exactly at the head terminator
      obtain ⟨hft, hT2e⟩ := List.append_eq_nil.mp hse
      have ht : t = [] := by
        cases t with
        | nil => rfl
        | cons x xs =>
          exfalso
          rw [List.map_cons, List.flatten_cons] at hft
          obtain ⟨hx, -⟩ := List.append_eq_nil.mp hft
          have := headBytes_pos x
          rw [hx] at this
          simp at this
      subst ht
      subst hT2e
      refine ⟨Parser.new, count + 1, ?_, fedState_nil ps⟩
      rw [Connection.process_data]
      rw [if_neg (by omega : ¬ ps.pipelining_requests_limit < count + 1)]
      split <;> rename_i hp
      · rw [hcomp] at hp
        injection hp with h1 h2
        injection h1 with h1
        rename_i surplus p2
        subst h1
        subst h2
        rw [dif_pos (by simp)]
        simp [Parser.restart, Parser.new]
      · rw [hcomp] at hp
        simp at hp
      · rw [hcomp] at hp
        simp at hp
    · -- pipelined surplus: the loop recurses on the bytes after the head
      obtain ⟨p4, c4, hpd, hfs4⟩ := ih [] ((t.map headBytes).flatten ++ T2) T2
        Parser.new (count + 1)
        (fun hd hm => hwf hd (List.mem_cons_of_mem _ hm))
        (fedState_nil ps) (by simp) hT2
        (by simp only [List.length_cons] at hcount; omega)
      refine ⟨p4, c4, ?_, hfs4⟩
      rw [Connection.process_data]
      rw [if_neg (by omega : ¬ ps.pipelining_requests_limit < count + 1)]
      split <;> rename_i hp
      · rw [hcomp] at hp
        injection hp with h1 h2
        injection h1 with h1
        rename_i surplus p2
        subst h1
        subst h2
        rw [dif_neg hse]
        rw [show Parser.restart ⟨ParseState.method, expectedReq h0⟩ = Parser.new from rfl]
        rw [hpd]
        simp
      · rw [hcomp] at hp
        simp at hp
      · rw [hcomp] at hp
        simp at hp

/-- A parser cannot be parked mid-head if its fed bytes contain a whole
well-formed head: the scan would have completed. -/
theorem fedState_not_complete (ps : ParseHttpRequestSettings) (h : HeadDesc)
    (hwf : WfHead ps h) (u : List Nat) (p : Parser)
    (hfs : FedState ps (headBytes h ++ u) p) : False := by
  obtain ⟨rT, hgo, -⟩ := hfs
  have hA : scanGo ps (headBytes h ++ u) (headBytes h) 0 .method RequestData.new =
      .complete (headBytes h).length { expectedReq h with raw := [] } := by
    rw [scanGo_congr ps (headBytes h ++ u) (headBytes h) (headBytes h) 0 .method
      RequestData.new (by rw [Nat.zero_add, List.take_length, List.take_left])]
    exact head_full_scan ps h hwf
  rw [scanGo_split ps (headBytes h ++ u) (headBytes h) u 0 .method RequestData.new,
    hA] at hgo
  have hgo2 : (ScanRes.complete (headBytes h).length { expectedReq h with raw := [] }) =
      .needMore p.parse_state rT := hgo
  exact ScanRes.noConfusion hgo2

/-- Feeding a chunked well-formed pipelined stream through the per-read
loop emits exactly the streamed heads in order and ends on a fresh
parser. -/
theorem feed_stream (ps : ParseHttpRequestSettings) :
    ∀ (chunks : List (List Nat)) (heads : List HeadDesc) (T : List Nat) (p : Parser),
      (∀ hd ∈ heads, WfHead ps hd) →
      FedState ps T p →
      T ++ chunks.flatten = (heads.map headBytes).flatten →
      heads.length + 1 ≤ ps.pipelining_requests_limit →
      ∃ pfin, Connection.feed_chunks ps p chunks = .ok (heads.map expectedReq, pfin) ∧
        FedState ps [] pfin := by
  intro chunks
  induction chunks with
  | nil =>
    intro heads T p hwf hfs hstream hlim
    rw [List.flatten_nil, List.append_nil] at hstream
    cases heads with
    | nil =>
      simp only [List.map_nil, List.flatten_nil] at hstream
      subst hstream
      exact ⟨p, rfl, hfs⟩
    | cons h t =>
      exfalso
      rw [List.map_cons, List.flatten_cons] at hstream
      rw [hstream] at hfs
      exact fedState_not_complete ps h (hwf h (by simp)) _ p hfs
  | cons c cs ih =>
    intro heads T p hwf hfs hstream hlim
    obtain ⟨a, b, T2, hab, hPa, hT2Q, hdisj⟩ := chop_stream heads (T ++ c) cs.flatten
      (by rw [List.append_assoc, ← List.flatten_cons]; exact hstream)
    have hT2cond : T2 = [] ∨ (∃ hn, WfHead ps hn ∧ T2.length < (headBytes hn).length ∧
        T2 = (headBytes hn).take T2.length) := by
      rcases hdisj with ⟨hT2e, -⟩ | ⟨h0, b2, hb, hlt, hpre⟩
      · exact Or.inl hT2e
      · exact Or.inr ⟨h0, hwf h0 (by rw [hab, hb]; simp), hlt, hpre⟩
    obtain ⟨p2, c2, hpd, hfs2⟩ := process_chunk ps a T c T2 p 0
      (fun hd hm => hwf hd (by rw [hab]; exact List.mem_append_left b hm))
      hfs hPa hT2cond
      (by
        have : a.length ≤ heads.length := by rw [hab]; simp
        omega)
    obtain ⟨pfin, hfcb, hfsfin⟩ := ih b T2 p2
      (fun hd hm => hwf hd (by rw [hab]; exact List.mem_append_right a hm))
      hfs2 hT2Q
      (by
        have : b.length ≤ heads.length := by rw [hab]; simp
        omega)
    refine ⟨pfin, ?_, hfsfin⟩
    rw [Connection.feed_chunks]
    rw [hpd]
    show (match Connection.feed_chunks ps p2 cs with
      | Except.error e => Except.error e
      | Except.ok (reqs2, p3) => Except.ok (List.map expectedReq a ++ reqs2, p3)) =
      Except.ok (List.map expectedReq heads, pfin)
    rw [hfcb]
    show Except.ok (List.map expectedReq a ++ List.map expectedReq b, pfin) =
      Except.ok (List.map expectedReq heads, pfin)
    rw [hab, List.map_append]

/-- A parser that has fed nothing is the fresh parser: Method state and
empty buffer. -/
theorem fedState_nil_eq (ps : ParseHttpRequestSettings) (p : Parser)
    (hfs : FedState ps [] p) : p = Parser.new := by
  rcases p with ⟨st, r⟩
  obtain ⟨rT, hgo, hreq⟩ := hfs
  replace hgo : scanGo ps [] [] 0 .method RequestData.new = .needMore st rT := hgo
  replace hreq : r = { rT with raw := [] } := hreq
  have hgo2 : (ScanRes.needMore ParseState.method RequestData.new : ScanRes) =
      .needMore st rT := hgo
  injection hgo2 with h1 h2
  subst h1
  subst h2
  subst hreq
  rfl

/-- The emitted record exposes the method bytes through raw_method. -/
theorem expectedReq_raw_method (h : HeadDesc) :
    (expectedReq h).raw_method = h.method := by
  obtain ⟨u, hu⟩ : ∃ u, headBytes h = h.method ++ u :=
    ⟨[32] ++ h.path ++
      (match h.query with
       | none => []
       | some q => 63 :: q) ++ [32] ++
      versionBytes h.version ++ [13, 10] ++
      (h.headers.map headerLineBytes).flatten ++ [13, 10],
     by rw [headBytes]; simp [List.append_assoc]⟩
  show (if (headBytes h).length < h.method.length then []
    else (headBytes h).take h.method.length) = h.method
  rw [hu, if_neg (by simp), List.take_left]

/-- The emitted record exposes the path bytes through raw_path. -/
theorem expectedReq_raw_path (h : HeadDesc) :
    (expectedReq h).raw_path = h.path := by
  obtain ⟨v, hv⟩ : ∃ v, headBytes h = (h.method ++ [32]) ++ (h.path ++ v) :=
    ⟨(match h.query with
      | none => []
      | some q => 63 :: q) ++ [32] ++
      versionBytes h.version ++ [13, 10] ++
      (h.headers.map headerLineBytes).flatten ++ [13, 10],
     by rw [headBytes]; simp [List.append_assoc]⟩
  show (if h.method.length + 1 + h.path.length < h.method.length + 1 ∨
      (headBytes h).length < h.method.length + 1 + h.path.length then []
    else ((headBytes h).drop (h.method.length + 1)).take
      (h.method.length + 1 + h.path.length - (h.method.length + 1))) = h.path
  rw [if_neg (by
    rw [hv]
    simp
    omega)]
  rw [hv, show h.method.length + 1 + h.path.length - (h.method.length + 1) =
    h.path.length from by omega]
  rw [List.drop_left' (by simp), List.take_left]

/-- The emitted record exposes the query bytes (empty without a query)
through raw_query. -/
theorem expectedReq_raw_query (h : HeadDesc) :
    (expectedReq h).raw_query = (match h.query with | none => [] | some q => q) := by
  rcases hq : h.query with _ | q
  · have hqi : (expectedReq h).raw_query_indices = (0, 0) := by
      simp [expectedReq, hq]
    show (expectedReq h).raw_query = []
    simp [RequestData.raw_query, hqi]
  · have hqi : (expectedReq h).raw_query_indices =
        (h.method.length + h.path.length + 2,
         h.method.length + h.path.length + 2 + q.length) := by
      simp [expectedReq, hq]
    obtain ⟨w, hw⟩ : ∃ w, headBytes h =
        (h.method ++ [32] ++ h.path ++ [63]) ++ (q ++ w) := by
      refine ⟨[32] ++ versionBytes h.version ++ [13, 10] ++
        (h.headers.map headerLineBytes).flatten ++ [13, 10], ?_⟩
      rw [headBytes, hq]
      simp [List.append_assoc]
    rw [RequestData.raw_query, hqi]
    show (if h.method.length + h.path.length + 2 + q.length <
        h.method.length + h.path.length + 2 ∨
        (headBytes h).length < h.method.length + h.path.length + 2 + q.length then []
      else ((headBytes h).drop (h.method.length + h.path.length + 2)).take
        (h.method.length + h.path.length + 2 + q.length -
          (h.method.length + h.path.length + 2))) = q
    rw [if_neg (by
      rw [hw]
      simp
      omega)]
    rw [hw, show h.method.length + h.path.length + 2 + q.length -
      (h.method.length + h.path.length + 2) = q.length from by omega]
    rw [List.drop_left' (by simp; omega), List.take_left]

/-- The emitted record carries the derived connection type and content
length of the head's headers. -/
theorem expectedReq_derivation (h : HeadDesc) (ct : Option ConnectionType)
    (cl : Option Nat) (hder : deriveHeaders none none (descHeaders h) = .ok (ct, cl)) :
    deriveHeaders none none (descHeaders h) =
      .ok ((expectedReq h).connection_type, (expectedReq h).content_len) := by
  rw [hder]
  have h1 : (expectedReq h).connection_type = ct := by
    simp [expectedReq, headDerivation, hder]
  have h2 : (expectedReq h).content_len = cl := by
    simp [expectedReq, headDerivation, hder]
  rw [h1, h2]

end RequestParser

/-- C1: for every sequence of byte chunks whose concatenation is a
well-formed pipelined stream of K HTTP request heads within the parser
limits (and K below the pipelining limit), feeding the chunks through the
connection read loop emits exactly the K parsed requests in wire order,
each carrying the correct method, path, query, headers, version, and
content-length derivation, and leaves the parser reset to Method with an
empty buffer; moreover parsing one head afresh returns as surplus exactly
the bytes after its CR-LF-CR-LF, truncates the kept raw buffer to the
head length, and resets the parser state to Method. -/
theorem pipelined_stream_parses (ps : RequestParser.ParseHttpRequestSettings)
    (hs : List HeadDesc) (cs : List (List Nat))
    (hwf : ∀ h ∈ hs, WfHead ps h)
    (hflat : cs.flatten = (hs.map headBytes).flatten)
    (hlim : hs.length + 1 ≤ ps.pipelining_requests_limit) :
    Connection.feed_chunks ps RequestParser.Parser.new cs =
      .ok (hs.map expectedReq, RequestParser.Parser.new) ∧
    (∀ h ∈ hs, ∀ rest : List Nat,
      RequestParser.Parser.parse_yet RequestParser.Parser.new (headBytes h ++ rest) ps =
        (.ok rest, { parse_state := .method, request := expectedReq h }) ∧
      (expectedReq h).raw = headBytes h ∧
      (expectedReq h).raw_method = h.method ∧
      (expectedReq h).raw_path = h.path ∧
      (expectedReq h).raw_query = (match h.query with | none => [] | some q => q) ∧
      (expectedReq h).version = h.version ∧
      (expectedReq h).headers = descHeaders h ∧
      deriveHeaders none none (descHeaders h) =
        .ok ((expectedReq h).connection_type, (expectedReq h).content_len)) := by
  constructor
  · obtain ⟨pfin, hfc, hfsfin⟩ := RequestParser.feed_stream ps cs hs []
      RequestParser.Parser.new hwf (RequestParser.fedState_nil ps)
      (by simpa using hflat) hlim
    rw [hfc, RequestParser.fedState_nil_eq ps pfin hfsfin]
  · intro h hm rest
    have hwfh := hwf h hm
    refine ⟨?_, rfl, RequestParser.expectedReq_raw_method h,
      RequestParser.expectedReq_raw_path h, RequestParser.expectedReq_raw_query h,
      rfl, rfl, ?_⟩
    · exact RequestParser.parse_fed_complete ps h RequestParser.Parser.new []
        (headBytes h ++ rest) rest hwfh (RequestParser.fedState_nil ps) (by simp)
    · obtain ⟨ct, cl, hder⟩ := hwfh.2.2.2.2.2.2.2
      exact RequestParser.expectedReq_derivation h ct cl hder

/-- C1 witness: two pipelined heads, GET /a HTTP/1.1 with one header line
and GET /b?q HTTP/1.0, split across two chunks with the boundary inside
the first head, parse to exactly the two expected requests and a fresh
parser. -/
theorem pipelined_stream_parses_witness :
    Connection.feed_chunks RequestParser.ParseHttpRequestSettings.default
      RequestParser.Parser.new
      [[71, 69, 84, 32, 47, 97, 32, 72, 84, 84],
       [80, 47, 49, 46, 49, 13, 10, 65, 58, 32, 98, 13, 10, 13, 10,
        71, 69, 84, 32, 47, 98, 63, 113, 32, 72, 84, 84, 80, 47, 49, 46, 48,
        13, 10, 13, 10]] =
      .ok ([expectedReq ⟨[71, 69, 84], [47, 97], none, .http1_1, [([65], [98])]⟩,
            expectedReq ⟨[71, 69, 84], [47, 98], some [113], .http1_0, []⟩],
           RequestParser.Parser.new) := by
  exact (pipelined_stream_parses RequestParser.ParseHttpRequestSettings.default
    [⟨[71, 69, 84], [47, 97], none, .http1_1, [([65], [98])]⟩,
     ⟨[71, 69, 84], [47, 98], some [113], .http1_0, []⟩]
    [[71, 69, 84, 32, 47, 97, 32, 72, 84, 84],
     [80, 47, 49, 46, 49, 13, 10, 65, 58, 32, 98, 13, 10, 13, 10,
      71, 69, 84, 32, 47, 98, 63, 113, 32, 72, 84, 84, 80, 47, 49, 46, 48,
      13, 10, 13, 10]]
    (by
      intro h hm
      simp only [List.mem_cons, List.not_mem_nil, or_false] at hm
      rcases hm with rfl | rfl
      · exact ⟨by decide, by decide, by decide, by decide, by decide, by decide,
          by decide, none, none, by decide⟩
      · exact ⟨by decide, by decide, by decide, by decide, by decide, by decide,
          by decide, none, none, by decide⟩)
    (by decide)
    (by decide)).1

end Anweb
